import Mathlib

/-! # sqlparser: query templates, substitution and normalization

A shallow embedding of `parsed_query.go` (the substitution engine:
`NewParsedQuery`, `GenerateQuery`, `EncodeValue`, `FetchBindVar`) together with
the parts of the data model it relies on. The normalizer and the renderer,
whose code is in other files of the package, are modelled from the
specification; every such definition says so in its comment.

Conventions of the embedding

* A Go `string` / `[]byte` is a list of bytes.
* A Go `int` is an `Int`; the only arithmetic is `offset + length`, which is
  compared against the length of a string right away, so wrap-around never
  decides a branch.
* A run-time panic (slice bounds out of range, index out of range) is the
  outer `none` of a result.
* A two-value Go return `(v, err)` is a pair of options: `none` is `nil`.
* An `error` made by `fmt.Errorf` is its message.
* Pointers held in maps and slices are the values they point to.
-/

set_option linter.dupNamespace false

namespace sqlparser

/-! ## Definitions -/

/-! ### The substitution engine (`parsed_query.go`) -/

/-- A Go string or byte slice. -/
abbrev Bytes := List UInt8

/-- The bytes of an ASCII string constant of the source. -/
def str (s : String) : Bytes := s.toList.map (fun c => UInt8.ofNat c.toNat)

/-- Go's `s[lo:hi]`: `none` is the slice-bounds panic. -/
def slice (s : Bytes) (lo hi : Int) : Option Bytes :=
  if 0 ≤ lo ∧ lo ≤ hi ∧ hi ≤ (s.length : Int) then
    some ((s.drop lo.toNat).take (hi.toNat - lo.toNat))
  else none

/-- Go's `s[lo:]`: `none` is the slice-bounds panic. -/
def sliceFrom (s : Bytes) (lo : Int) : Option Bytes :=
  if 0 ≤ lo ∧ lo ≤ (s.length : Int) then some (s.drop lo.toNat) else none

namespace querypb

/-- Modelled from the spec: the type tags of `querypb.Type`, which is declared
in the package `dependency/querypb`. The data model lists the variants `Int64`,
`Float64`, `Bytes` (the tests build it with `BytesBindVariable`, a
`VARBINARY`) and `Tuple`. -/
inductive SqlType where
  | Type_INT64
  | Type_FLOAT64
  | Type_VARBINARY
  | Type_TUPLE
  deriving DecidableEq, Repr

/-- The struct `querypb.Value` as the source reads it: a type tag and raw bytes. -/
structure Value where
  Typ : SqlType
  Value : Bytes
  deriving DecidableEq, Repr

/-- The struct `querypb.BindVariable` as the source reads it: `Type`, `Value`
and, for a tuple, `Values`. -/
structure BindVariable where
  Typ : SqlType
  Value : Bytes
  Values : List querypb.Value
  deriving DecidableEq, Repr

end querypb

namespace sqltypes

/-- Modelled from the spec: a `sqltypes.Value` is a typed scalar, a type tag
with its raw bytes. -/
structure Value where
  typ : querypb.SqlType
  val : Bytes
  deriving DecidableEq, Repr

/-- Modelled from the spec: `sqltypes.BindVariableToValue` on a bind variable
that is not a tuple (the only use in `EncodeValue`) is the scalar of its type
and bytes. -/
def BindVariableToValue (bv : querypb.BindVariable) : Value := ⟨bv.Typ, bv.Value⟩

/-- Modelled from the spec: `sqltypes.ProtoToValue` turns a tuple element into
the scalar of its type and bytes. -/
def ProtoToValue (v : querypb.Value) : Value := ⟨v.Typ, v.Value⟩

end sqltypes

/-- The text `sqltypes.Value.EncodeSQL` writes for a scalar. The method is
declared in the package `dependency/sqltypes` and is a parameter of the
development. -/
abbrev ScalarEncoder := sqltypes.Value → Bytes

/-- Modelled from the spec: an `Encodable` override "knows how to render its
own SQL text"; `sql` is the text its `EncodeSQL` appends to the buffer. -/
structure Encodable where
  sql : Bytes
  deriving DecidableEq, Repr

/-- The method `Encodable.EncodeSQL(buf)`. -/
def Encodable.EncodeSQL (e : Encodable) (buf : Bytes) : Bytes := buf ++ e.sql

/-- A Go `map[string]*querypb.BindVariable`; a nil map has no key. -/
abbrev BindVars := Bytes → Option querypb.BindVariable

/-- A Go `map[string]Encodable`; a nil map has no key. -/
abbrev Extras := Bytes → Option Encodable

/-- A placeholder of a template: where it starts in the text and how long it is. -/
structure bindLocation where
  offset : Int
  length : Int
  deriving DecidableEq, Repr

/-- `ParsedQuery` represents a parsed query where bind locations are
precomputed for fast substitutions. -/
structure ParsedQuery where
  Query : Bytes
  bindLocations : List bindLocation
  deriving DecidableEq, Repr

/-- The body of `for i, bv := range value.Values` of `EncodeValue`, from index `i` on. -/
def EncodeValue.elems (EncodeSQL : ScalarEncoder) :
    Nat → List querypb.Value → Bytes → Bytes
  | _, [], buf => buf
  | i, bv :: rest, buf =>
    let buf1 := if i ≠ 0 then buf ++ str ", " else buf
    EncodeValue.elems EncodeSQL (i + 1) rest (buf1 ++ EncodeSQL (sqltypes.ProtoToValue bv))

/-- `EncodeValue` encodes one bind variable value into the query. -/
def EncodeValue (EncodeSQL : ScalarEncoder) (buf : Bytes) (value : querypb.BindVariable) : Bytes :=
  if value.Typ ≠ querypb.SqlType.Type_TUPLE then
    buf ++ EncodeSQL (sqltypes.BindVariableToValue value)
  else
    let buf1 := buf ++ str "("
    let buf2 := EncodeValue.elems EncodeSQL 0 value.Values buf1
    buf2 ++ str ")"

/-- `FetchBindVar` resolves the bind variable by fetching it from
`bindVariables`. The outer `none` is the index panic of `name[0]` on an empty
name; otherwise the pair `(val, err)`. -/
def FetchBindVar (name : Bytes) (bindVariables : BindVars) :
    Option (Option querypb.BindVariable × Option Bytes) :=
  match name with
  | [] => none
  | c :: tl =>
    let name1 := if c = 58 then tl else c :: tl
    match bindVariables name1 with
    | none => some (none, some (str "missing bind var " ++ name1))
    | some supplied =>
      if supplied.Typ = querypb.SqlType.Type_TUPLE ∧ supplied.Values.length = 0 then
        some (none, some (str "empty list supplied for " ++ name1))
      else some (some supplied, none)

/-- What one turn of the loop of `GenerateQuery` leaves behind. -/
inductive LoopState where
  | panicked
  | returned (err : Bytes)
  | running (buf : Bytes) (current : Int)
  deriving DecidableEq, Repr

/-- One turn of `for _, loc := range pq.bindLocations`. -/
def GenerateQuery.step (EncodeSQL : ScalarEncoder) (Query : Bytes)
    (bindVariables : BindVars) (extras : Extras)
    (buf : Bytes) (current : Int) (loc : bindLocation) : LoopState :=
  match slice Query current loc.offset with
  | none => LoopState.panicked
  | some pre =>
    match slice Query loc.offset (loc.offset + loc.length) with
    | none => LoopState.panicked
    | some name =>
      match extras name with
      | some encodable =>
        LoopState.running (encodable.EncodeSQL (buf ++ pre)) (loc.offset + loc.length)
      | none =>
        match FetchBindVar name bindVariables with
        | none => LoopState.panicked
        | some (_, some err) => LoopState.returned err
        | some (none, none) => LoopState.panicked
        | some (some supplied, none) =>
          LoopState.running (EncodeValue EncodeSQL (buf ++ pre) supplied)
            (loc.offset + loc.length)

/-- The loop `for _, loc := range pq.bindLocations` from a given buffer and
`current`. -/
def GenerateQuery.loop (EncodeSQL : ScalarEncoder) (Query : Bytes)
    (bindVariables : BindVars) (extras : Extras) :
    List bindLocation → Bytes → Int → LoopState
  | [], buf, current => LoopState.running buf current
  | loc :: rest, buf, current =>
    match GenerateQuery.step EncodeSQL Query bindVariables extras buf current loc with
    | LoopState.running buf1 current1 =>
      GenerateQuery.loop EncodeSQL Query bindVariables extras rest buf1 current1
    | LoopState.returned err => LoopState.returned err
    | LoopState.panicked => LoopState.panicked

/-- `GenerateQuery` generates a query by substituting the specified
bindVariables; `extras` are special parameters that can perform custom
encoding. The outer `none` is a panic; otherwise the pair `([]byte, error)`. -/
def ParsedQuery.GenerateQuery (EncodeSQL : ScalarEncoder) (pq : ParsedQuery)
    (bindVariables : BindVars) (extras : Extras) :
    Option (Option Bytes × Option Bytes) :=
  if pq.bindLocations.length = 0 then some (some pq.Query, none)
  else
    match GenerateQuery.loop EncodeSQL pq.Query bindVariables extras pq.bindLocations [] 0 with
    | LoopState.panicked => none
    | LoopState.returned err => some (none, some err)
    | LoopState.running buf current =>
      match sliceFrom pq.Query current with
      | none => none
      | some rest => some (some (buf ++ rest), none)

/-! ### Sample inputs -/

/-- A sample scalar encoder: integers and floats are written as they are,
byte strings between single quotes. -/
def sampleEncodeSQL : ScalarEncoder := fun v =>
  if v.typ = querypb.SqlType.Type_VARBINARY then str "\x27" ++ v.val ++ str "\x27" else v.val

/-- An `Int64` bind variable with the given decimal text. -/
def int64BV (s : String) : querypb.BindVariable :=
  ⟨querypb.SqlType.Type_INT64, str s, []⟩

/-- Bind variables `$1 = 42`, `a = 7` and `t`, an empty tuple. -/
def sampleVars : BindVars := fun k =>
  if k = str "$1" then some (int64BV "42")
  else if k = str "a" then some (int64BV "7")
  else if k = str "t" then some ⟨querypb.SqlType.Type_TUPLE, [], []⟩
  else none

/-- No overrides. -/
def noExtras : Extras := fun _ => none

/-- No bind variables. -/
def noVars : BindVars := fun _ => none

/-- A template with an empty placeholder ahead of a placeholder `bc`. -/
def emptyNamePQ : ParsedQuery := ⟨str "abcd", [⟨0, 0⟩, ⟨1, 2⟩]⟩

/-- A template that is one placeholder in the alternate form, `:a`. -/
def colonPQ : ParsedQuery := ⟨str ":a", [⟨0, 2⟩]⟩

/-- Overrides for the names `a` and `$1`. -/
def sampleExtras : Extras := fun k =>
  if k = str "a" then some ⟨str "X"⟩
  else if k = str "$1" then some ⟨str "Y"⟩
  else none

/-! ### Specification-side definitions for the substitution engine -/

/-- The lookup key of a placeholder name: the name with one leading `:`
removed if present, the name itself otherwise. -/
def lookupKey : Bytes → Bytes
  | [] => []
  | c :: tl => if c = 58 then tl else c :: tl

/-- The bytes of `s` from position `lo` up to, not including, position `hi`. -/
def seg (s : Bytes) (lo hi : Int) : Bytes := (s.drop lo.toNat).take (hi.toNat - lo.toNat)

/-- The placeholder text of a bind location. -/
def placeholder (Query : Bytes) (loc : bindLocation) : Bytes :=
  seg Query loc.offset (loc.offset + loc.length)

/-- The invariant of a compiled template: every location lies within the
text, and the locations are sorted by offset ascending and do not overlap,
each one ending before the next one starts. -/
def ParsedQuery.WellFormed (pq : ParsedQuery) : Prop :=
  (∀ loc ∈ pq.bindLocations,
      0 ≤ loc.offset ∧ 0 ≤ loc.length ∧ loc.offset + loc.length ≤ (pq.Query.length : Int)) ∧
  pq.bindLocations.Pairwise (fun a b => a.offset + a.length ≤ b.offset)

instance (pq : ParsedQuery) : Decidable pq.WellFormed := by
  unfold ParsedQuery.WellFormed; infer_instance

/-- What is written in place of a placeholder: the text of the override if
`extras` has the placeholder name, otherwise `EncodeValue` of the value
`FetchBindVar` returns for it; `none` if the placeholder does not resolve. -/
def rendering (EncodeSQL : ScalarEncoder) (Query : Bytes) (bindVariables : BindVars)
    (extras : Extras) (loc : bindLocation) : Option Bytes :=
  match extras (placeholder Query loc) with
  | some encodable => some encodable.sql
  | none =>
    match FetchBindVar (placeholder Query loc) bindVariables with
    | some (some supplied, none) => some (EncodeValue EncodeSQL [] supplied)
    | _ => none

/-- The substituted text from position `current` on: for each location in
turn the text before it, then what is written in its place; after the last
one the remaining text. -/
def substituted (EncodeSQL : ScalarEncoder) (Query : Bytes) (bindVariables : BindVars)
    (extras : Extras) : Int → List bindLocation → Bytes
  | current, [] => Query.drop current.toNat
  | current, loc :: rest =>
    seg Query current loc.offset
      ++ (rendering EncodeSQL Query bindVariables extras loc).getD []
      ++ substituted EncodeSQL Query bindVariables extras (loc.offset + loc.length) rest

/-- The error `FetchBindVar` produces for a bind location whose placeholder
name is not a key of `extras`; `none` when the location is overridden or
`FetchBindVar` produces no error for it. -/
def failure (Query : Bytes) (bindVariables : BindVars) (extras : Extras)
    (loc : bindLocation) : Option Bytes :=
  match extras (placeholder Query loc) with
  | some _ => none
  | none =>
    match FetchBindVar (placeholder Query loc) bindVariables with
    | some (_, some err) => some err
    | _ => none

/-- The key of the placeholder is missing from `bindVariables`, or bound to a
TUPLE with zero elements. -/
def Unbound (Query : Bytes) (bindVariables : BindVars) (loc : bindLocation) : Prop :=
  bindVariables (lookupKey (placeholder Query loc)) = none ∨
  ∃ v, bindVariables (lookupKey (placeholder Query loc)) = some v ∧
    v.Typ = querypb.SqlType.Type_TUPLE ∧ v.Values.length = 0

/-- The locations from `current` on are in order and within the text. -/
def InOrderFrom (Query : Bytes) : Int → List bindLocation → Prop
  | current, [] => 0 ≤ current ∧ current ≤ (Query.length : Int)
  | current, loc :: rest =>
    0 ≤ current ∧ current ≤ loc.offset ∧ 0 ≤ loc.length ∧
      loc.offset + loc.length ≤ (Query.length : Int) ∧
      InOrderFrom Query (loc.offset + loc.length) rest

/-- A template whose placeholders are `$1` and `:a`. -/
def samplePQ : ParsedQuery := ⟨str "x = $1 and y = :a", [⟨4, 2⟩, ⟨15, 2⟩]⟩

/-- A template whose placeholders are `$1` and `:b`. -/
def overridePQ : ParsedQuery := ⟨str "x = $1 and y = :b", [⟨4, 2⟩, ⟨15, 2⟩]⟩

/-! ### The normalizer and the renderer (modelled from the specification) -/

/-- Modelled from the spec: the kinds of literal node of the AST (design
notes: literal-integer, literal-float, literal-bytes, literal-hex). The AST
node definitions are in another file of the package. -/
inductive LiteralKind where
  | integer
  | float
  | bytes
  | hex
  deriving DecidableEq, Repr

/-- Modelled from the spec: the AST as the closed set of tagged variants of the
design notes. `text` is an other-expression without children, kept as the text
the renderer writes for it (keywords, identifiers, operators); `literal` a
literal with its raw bytes; `bindRef` a bind-variable reference and `listRef` a
list reference (as in `in $5`), both rendered as their name; `tuple` a
parenthesized list; `inPredicate` an `IN` / `NOT IN` predicate; `subquery` a
nested read sub-statement; `other` any other expression, with its children in
document order. -/
inductive SQLNode where
  | text (t : Bytes)
  | literal (kind : LiteralKind) (val : Bytes)
  | bindRef (name : Bytes)
  | listRef (name : Bytes)
  | tuple (elems : List SQLNode)
  | inPredicate (negated : Bool) (left right : SQLNode)
  | subquery (body : List SQLNode)
  | other (children : List SQLNode)
  deriving Repr

/-- Modelled from the spec: a root statement is a plain read (select) or a
mutation statement (insert/update/delete). -/
inductive StatementKind where
  | select
  | insert
  | update
  | delete
  deriving DecidableEq, Repr

/-- Modelled from the spec: a statement, its clauses in document order. -/
structure Statement where
  kind : StatementKind
  body : List SQLNode
  deriving Repr

/-- An ASCII decimal digit. -/
def isDigit (b : UInt8) : Bool := decide (48 ≤ b.toNat ∧ b.toNat ≤ 57)

/-- The number a string of decimal digits denotes. -/
def parseDecimal (val : Bytes) : Nat := val.foldl (fun a b => 10 * a + (b.toNat - 48)) 0

/-- The sign and the digits of a decimal integer literal: `true` with the rest
of the text after a leading `-`, `false` with the rest after a leading `+`,
`false` with the whole text otherwise. -/
def signOf : Bytes → Bool × Bytes
  | [] => (false, [])
  | c :: rest => if c = 45 then (true, rest) else if c = 43 then (false, rest) else (false, c :: rest)

/-- The integer a decimal integer literal denotes: an optional sign followed
by at least one digit; `none` for any other text. -/
def parseInteger (val : Bytes) : Option Int :=
  if (signOf val).2 ≠ [] ∧ (signOf val).2.all isDigit = true then
    some (if (signOf val).1 = true then -(parseDecimal (signOf val).2 : Int)
      else (parseDecimal (signOf val).2 : Int))
  else none

/-- The text is a decimal integer within the signed 64-bit range. -/
def fitsInt64 (val : Bytes) : Bool :=
  match parseInteger val with
  | some n => decide (-(2 ^ 63) ≤ n ∧ n ≤ 2 ^ 63 - 1)
  | none => false

/-- Modelled from the spec: the Value Classifier (§4.2). A string literal is
`Bytes` with its raw content; a decimal integer literal, signed or not, that
fits the signed 64-bit range is `Int64`, one that overflows it is not
substitutable; a floating-point literal is `Float64`; a hexadecimal literal is
not substitutable. -/
def classify (kind : LiteralKind) (val : Bytes) : Option (querypb.SqlType × Bytes) :=
  match kind with
  | LiteralKind.bytes => some (querypb.SqlType.Type_VARBINARY, val)
  | LiteralKind.integer =>
    if fitsInt64 val = true then some (querypb.SqlType.Type_INT64, val) else none
  | LiteralKind.float => some (querypb.SqlType.Type_FLOAT64, val)
  | LiteralKind.hex => none

/-- The decimal digits of `n`, most significant first, ahead of `acc`. -/
def decimalAux : Nat → Nat → Bytes → Bytes
  | 0, _, acc => acc
  | fuel + 1, n, acc =>
    if n / 10 = 0 then UInt8.ofNat (48 + n % 10) :: acc
    else decimalAux fuel (n / 10) (UInt8.ofNat (48 + n % 10) :: acc)

/-- The decimal text of `n`. -/
def decimal (n : Nat) : Bytes := decimalAux (n + 1) n []

/-- Modelled from the spec: the reserved name syntax, `$` followed by a
positive integer. -/
def bvName (n : Nat) : Bytes := 36 :: decimal n

/-- A map with string keys, kept as the list of its entries (keys distinct,
in order of first insertion). -/
abbrev StrMap (β : Type) := List (Bytes × β)

/-- The value bound to a key, if any. -/
def StrMap.get {β : Type} : StrMap β → Bytes → Option β
  | [], _ => none
  | (k1, v1) :: rest, k => if k1 = k then some v1 else StrMap.get rest k

/-- The map with `k` bound to `v`: the entry of `k` is replaced if there is
one, added at the end otherwise. -/
def StrMap.set {β : Type} : StrMap β → Bytes → β → StrMap β
  | [], k, v => [(k, v)]
  | (k1, v1) :: rest, k, v =>
    if k1 = k then (k, v) :: rest else (k1, v1) :: StrMap.set rest k v

mutual
/-- The names of the bind-variable references in a node, in document order. -/
def GetBindvars.node : SQLNode → List Bytes
  | SQLNode.text _ => []
  | SQLNode.literal _ _ => []
  | SQLNode.bindRef name => [name]
  | SQLNode.listRef name => [name]
  | SQLNode.tuple elems => GetBindvars.nodes elems
  | SQLNode.inPredicate _ left right => GetBindvars.node left ++ GetBindvars.node right
  | SQLNode.subquery body => GetBindvars.nodes body
  | SQLNode.other children => GetBindvars.nodes children
/-- The names of the bind-variable references in a list of nodes. -/
def GetBindvars.nodes : List SQLNode → List Bytes
  | [] => []
  | n :: rest => GetBindvars.node n ++ GetBindvars.nodes rest
end

/-- Modelled from the spec: `GetBindvars` (§4.6) walks the AST and returns the
set of all bind-variable reference names already present. -/
def GetBindvars (stmt : Statement) : List Bytes := (GetBindvars.nodes stmt.body).dedup

/-- Modelled from the spec: the Bind-Variable Store, "an accumulator mapping
bind-variable name → typed value, plus a deduplication index and a name
allocator that avoids colliding with bind-variable names already present in
the statement". `reserved` holds the names found by the pre-scan, `counter`
the next number the allocator tries, `vals` the Dedup Key → name table,
`bindVars` the output map. -/
structure normalizer where
  reserved : List Bytes
  counter : Nat
  vals : List ((querypb.SqlType × Bytes) × Bytes)
  bindVars : StrMap querypb.BindVariable
  deriving Repr

/-- The name recorded for a Dedup Key. -/
def lookupVal : List ((querypb.SqlType × Bytes) × Bytes) → querypb.SqlType × Bytes → Option Bytes
  | [], _ => none
  | (k1, name) :: rest, k => if k1 = k then some name else lookupVal rest k

/-- The first number from `counter` on whose name is not reserved; `fuel`
bounds the search by the number of reserved names. -/
def nextUnused (reserved : List Bytes) : Nat → Nat → Nat
  | 0, counter => counter
  | fuel + 1, counter =>
    if bvName counter ∈ reserved then nextUnused reserved fuel (counter + 1) else counter

/-- Modelled from the spec: "allocate the next unused name from the allocator
(skipping any reserved pre-existing names)". -/
def normalizer.newName (nz : normalizer) : Bytes × normalizer :=
  let n := nextUnused nz.reserved nz.reserved.length nz.counter
  (bvName n, { nz with counter := n + 1 })

/-- Modelled from the spec: per-literal handling (§4.1 step 3). A literal that
does not classify is skipped. Otherwise, in `reusable` scope and with at most
256 bytes, the Dedup Key is looked up: if found its name is reused, if not a
name is allocated and recorded; in `fresh` scope or beyond 256 bytes a name is
allocated and not recorded. The literal becomes a reference with that name and
`name → BindVariable` is written into the output map. -/
def normalizer.convertLiteral (reusable : Bool) (kind : LiteralKind) (val : Bytes)
    (nz : normalizer) : SQLNode × normalizer :=
  match classify kind val with
  | none => (SQLNode.literal kind val, nz)
  | some key =>
    if reusable = true ∧ key.2.length ≤ 256 then
      match lookupVal nz.vals key with
      | some name =>
        (SQLNode.bindRef name,
          { nz with bindVars := nz.bindVars.set name ⟨key.1, key.2, []⟩ })
      | none =>
        let r := nz.newName
        (SQLNode.bindRef r.1,
          { r.2 with vals := r.2.vals ++ [(key, r.1)],
                     bindVars := r.2.bindVars.set r.1 ⟨key.1, key.2, []⟩ })
    else
      let r := nz.newName
      (SQLNode.bindRef r.1, { r.2 with bindVars := r.2.bindVars.set r.1 ⟨key.1, key.2, []⟩ })

/-- The values of the elements of a list if every element classifies as a
substitutable scalar literal. -/
def tupleValues : List SQLNode → Option (List querypb.Value)
  | [] => some []
  | SQLNode.literal kind val :: rest =>
    match classify kind val, tupleValues rest with
    | some key, some vs => some (⟨key.1, key.2⟩ :: vs)
    | _, _ => none
  | _ :: _ => none

/-- The values of a parenthesized list all of whose elements are
substitutable scalar literals. -/
def listValues : SQLNode → Option (List querypb.Value)
  | SQLNode.tuple elems => tupleValues elems
  | _ => none

mutual
/-- Modelled from the spec: the traversal of §4.1 in document order, with the
scope flag `reusable`. A nested read sub-statement runs in `reusable` scope
with the one dedup table of the statement. The parenthesized list on the right
of an `IN` / `NOT IN` predicate is collapsed into one `Tuple` bind variable
under a freshly allocated name iff every element classifies as a
substitutable scalar literal; otherwise its elements are handled one by one. -/
def normalizer.walk (reusable : Bool) : SQLNode → normalizer → SQLNode × normalizer
  | SQLNode.text t, nz => (SQLNode.text t, nz)
  | SQLNode.literal kind val, nz => nz.convertLiteral reusable kind val
  | SQLNode.bindRef name, nz => (SQLNode.bindRef name, nz)
  | SQLNode.listRef name, nz => (SQLNode.listRef name, nz)
  | SQLNode.tuple elems, nz =>
    let r := normalizer.walkList reusable elems nz
    (SQLNode.tuple r.1, r.2)
  | SQLNode.inPredicate negated left right, nz =>
    let l := normalizer.walk reusable left nz
    match listValues right with
    | some vs =>
      let r := l.2.newName
      (SQLNode.inPredicate negated l.1 (SQLNode.listRef r.1),
        { r.2 with bindVars := r.2.bindVars.set r.1 ⟨querypb.SqlType.Type_TUPLE, [], vs⟩ })
    | none =>
      let r := normalizer.walk reusable right l.2
      (SQLNode.inPredicate negated l.1 r.1, r.2)
  | SQLNode.subquery body, nz =>
    let r := normalizer.walkList true body nz
    (SQLNode.subquery r.1, r.2)
  | SQLNode.other children, nz =>
    let r := normalizer.walkList reusable children nz
    (SQLNode.other r.1, r.2)
/-- The traversal of a list of nodes, in order. -/
def normalizer.walkList (reusable : Bool) : List SQLNode → normalizer → List SQLNode × normalizer
  | [], nz => ([], nz)
  | n :: rest, nz =>
    let r := normalizer.walk reusable n nz
    let rs := normalizer.walkList reusable rest r.2
    (r.1 :: rs.1, rs.2)
end

/-- Modelled from the spec: `Normalize(ast, outputMap)` (§4.1), whose code is
in another file of the package (its tests are `normalizer_test.go`). The pre-scan
reserves the names already present; a plain read runs in `reusable` scope from
the start, a mutation statement in `fresh` scope at top level; names are
allocated from `$1` on. The mutated AST and the output map are returned. -/
def Normalize (stmt : Statement) (bindVars : StrMap querypb.BindVariable) :
    Statement × StrMap querypb.BindVariable :=
  let nz : normalizer := ⟨GetBindvars stmt, 1, [], bindVars⟩
  let r := normalizer.walkList (decide (stmt.kind = StatementKind.select)) stmt.body nz
  (⟨stmt.kind, r.1⟩, r.2.bindVars)

/-- Modelled from the spec: what the external renderer emits, plain text or a
bind-variable reference token. -/
inductive Token where
  | text (t : Bytes)
  | arg (name : Bytes)
  deriving DecidableEq, Repr

/-- The text the external renderer writes for a literal node; a parameter of
the development. -/
abbrev LiteralFormat := LiteralKind → Bytes → Bytes

mutual
/-- Modelled from the spec: the external renderer. A reference is emitted as a
reference token carrying its name, a parenthesized list as its elements
separated by a comma and a space between parentheses (`in ($1, a)`), an `IN`
predicate as `left in right` or `left not in right`, everything else as its
parts in document order. -/
def SQLNode.Format (fmt : LiteralFormat) : SQLNode → List Token
  | SQLNode.text t => [Token.text t]
  | SQLNode.literal kind val => [Token.text (fmt kind val)]
  | SQLNode.bindRef name => [Token.arg name]
  | SQLNode.listRef name => [Token.arg name]
  | SQLNode.tuple elems =>
    Token.text (str "(") :: (SQLNode.FormatTuple fmt [] elems ++ [Token.text (str ")")])
  | SQLNode.inPredicate negated left right =>
    SQLNode.Format fmt left
      ++ Token.text (if negated = true then str " not in " else str " in ")
      :: SQLNode.Format fmt right
  | SQLNode.subquery body => SQLNode.FormatList fmt body
  | SQLNode.other children => SQLNode.FormatList fmt children
/-- The parts of a list of nodes, one after the other. -/
def SQLNode.FormatList (fmt : LiteralFormat) : List SQLNode → List Token
  | [] => []
  | n :: rest => SQLNode.Format fmt n ++ SQLNode.FormatList fmt rest
/-- The elements of a parenthesized list, each after the separator `sep`,
which is empty for the first one and `, ` from then on. -/
def SQLNode.FormatTuple (fmt : LiteralFormat) : Bytes → List SQLNode → List Token
  | _, [] => []
  | sep, n :: rest =>
    Token.text sep :: (SQLNode.Format fmt n ++ SQLNode.FormatTuple fmt (str ", ") rest)
end

/-- Modelled from the spec: the buffer of the Query Template Compiler, the text
written so far and the bind locations captured so far. -/
structure TrackedBuffer where
  buf : Bytes
  bindLocations : List bindLocation
  deriving DecidableEq, Repr

/-- Modelled from the spec: `NewTrackedBuffer(nil)`, an empty buffer with no
location captured. -/
def NewTrackedBuffer : TrackedBuffer := ⟨[], []⟩

/-- Modelled from the spec: plain text is appended to the text. -/
def TrackedBuffer.WriteString (b : TrackedBuffer) (s : Bytes) : TrackedBuffer :=
  { b with buf := b.buf ++ s }

/-- Modelled from the spec: a reference token is written as its name and its
byte offset and length in the output text are captured. -/
def TrackedBuffer.WriteArg (b : TrackedBuffer) (arg : Bytes) : TrackedBuffer :=
  { buf := b.buf ++ arg,
    bindLocations := b.bindLocations ++ [⟨(b.buf.length : Int), (arg.length : Int)⟩] }

/-- Modelled from the spec: the buffer takes one token of the renderer. -/
def TrackedBuffer.write (b : TrackedBuffer) : Token → TrackedBuffer
  | Token.text t => b.WriteString t
  | Token.arg name => b.WriteArg name

/-- Modelled from the spec: the call `buf.Myprintf(nil, "%v", node)`, in which
the renderer writes the statement into the buffer. -/
def TrackedBuffer.Myprintf (fmt : LiteralFormat) (b : TrackedBuffer) (stmt : Statement) :
    TrackedBuffer :=
  (SQLNode.FormatList fmt stmt.body).foldl TrackedBuffer.write b

/-- Modelled from the spec: `buf.ParsedQuery()`, the template made of the
rendered text and the ordered list of captured locations. -/
def TrackedBuffer.ParsedQuery (b : TrackedBuffer) : ParsedQuery := ⟨b.buf, b.bindLocations⟩

/-- `NewParsedQuery` returns a ParsedQuery of the ast. -/
def NewParsedQuery (fmt : LiteralFormat) (node : Statement) : ParsedQuery :=
  (TrackedBuffer.Myprintf fmt NewTrackedBuffer node).ParsedQuery

/-- Modelled from the spec: `String(node)`, the rendered text of a statement. -/
def Statement.String (fmt : LiteralFormat) (stmt : Statement) : Bytes :=
  (TrackedBuffer.Myprintf fmt NewTrackedBuffer stmt).buf

/-! ### Specification-side definitions for the normalizer -/

/-- A replacement made by `Normalize`: the literal replaced (its kind and raw
bytes), or `none` for a collapsed list, and the name of the reference put in
its place. -/
abbrev Replacement := Option (LiteralKind × Bytes) × Bytes

mutual
/-- The replacements read off a node before and after normalization, in
document order. -/
def replaced : SQLNode → SQLNode → List Replacement
  | SQLNode.literal kind val, SQLNode.bindRef name => [(some (kind, val), name)]
  | SQLNode.tuple _, SQLNode.listRef name => [(none, name)]
  | SQLNode.tuple elems, SQLNode.tuple elems1 => replacedList elems elems1
  | SQLNode.inPredicate _ left right, SQLNode.inPredicate _ left1 right1 =>
    replaced left left1 ++ replaced right right1
  | SQLNode.subquery body, SQLNode.subquery body1 => replacedList body body1
  | SQLNode.other children, SQLNode.other children1 => replacedList children children1
  | _, _ => []
/-- The replacements read off two lists of nodes, position by position. -/
def replacedList : List SQLNode → List SQLNode → List Replacement
  | n :: rest, n1 :: rest1 => replaced n n1 ++ replacedList rest rest1
  | _, _ => []
end

mutual
/-- What a statement offers for replacement, in document order: each
substitutable literal, and `none` for each `IN` list all of whose elements are
substitutable literals. -/
def substitutable : SQLNode → List (Option (LiteralKind × Bytes))
  | SQLNode.text _ => []
  | SQLNode.literal kind val => if (classify kind val).isSome then [some (kind, val)] else []
  | SQLNode.bindRef _ => []
  | SQLNode.listRef _ => []
  | SQLNode.tuple elems => substitutableList elems
  | SQLNode.inPredicate _ left right =>
    substitutable left ++ (if (listValues right).isSome then [none] else substitutable right)
  | SQLNode.subquery body => substitutableList body
  | SQLNode.other children => substitutableList children
/-- What a list of nodes offers for replacement. -/
def substitutableList : List SQLNode → List (Option (LiteralKind × Bytes))
  | [] => []
  | n :: rest => substitutable n ++ substitutableList rest
end

/-- The replacements `Normalize` makes in a statement, given a fresh output
map, read off the statement before and after. -/
def replacements (stmt : Statement) : List Replacement :=
  replacedList stmt.body (Normalize stmt []).1.body

/-- A replacement whose name is never shared: a literal longer than 256
bytes, or a collapsed list. -/
def IsUnique (p : Replacement) : Prop :=
  match p.1 with
  | some (_, val) => 256 < val.length
  | none => True

/-- How a replacement stands to the store once it is made: its name is an
allocated one; a short literal has its name recorded under its Dedup Key; the
name of a long literal or of a list was allocated from `c` on and is not in
the table. -/
def Entry (c : Nat) (nz1 : normalizer) (p : Replacement) : Prop :=
  ∃ n, n < nz1.counter ∧ p.2 = bvName n ∧
    match p.1 with
    | some (kind, val) =>
      ∃ t, classify kind val = some (t, val) ∧
        ((val.length ≤ 256 ∧ lookupVal nz1.vals (t, val) = some p.2) ∨
         (256 < val.length ∧ c ≤ n ∧ ∀ e ∈ nz1.vals, e.2 ≠ p.2))
    | none => c ≤ n ∧ ∀ e ∈ nz1.vals, e.2 ≠ p.2

/-- The invariant of the store: recorded names were allocated, the table has
distinct keys and distinct names, the output map has distinct keys. -/
structure normalizer.Inv (nz : normalizer) : Prop where
  vals_lt : ∀ e ∈ nz.vals, ∃ n, n < nz.counter ∧ e.2 = bvName n
  vals_pw : nz.vals.Pairwise (fun a b => a.1 ≠ b.1 ∧ a.2 ≠ b.2)
  keys_nodup : (nz.bindVars.map Prod.fst).Nodup

/-- The store `nz1` comes from `nz` by making the replacements `ps`. -/
structure Step (nz nz1 : normalizer) (ps : List Replacement) : Prop where
  inv : nz1.Inv
  counter_le : nz.counter ≤ nz1.counter
  lookup_mono : ∀ k nm, lookupVal nz.vals k = some nm → lookupVal nz1.vals k = some nm
  vals_new : ∀ e ∈ nz1.vals, e ∈ nz.vals ∨ ∃ n, nz.counter ≤ n ∧ e.2 = bvName n
  entries : ∀ p ∈ ps, Entry nz.counter nz1 p
  unique_pw : ps.Pairwise (fun p q => (IsUnique p ∨ IsUnique q) → p.2 ≠ q.2)
  keys : ∀ n, n ∈ nz1.bindVars.map Prod.fst ↔ n ∈ nz.bindVars.map Prod.fst ∨ n ∈ ps.map Prod.snd

/-! ### Sample statements (inputs of `normalizer_test.go`) -/

/-- A sample literal format: byte strings between single quotes, everything
else as it is. -/
def sampleFormat : LiteralFormat := fun kind val =>
  if kind = LiteralKind.bytes then str "\x27" ++ val ++ str "\x27" else val

/-- `select * from t where v1 = $1 and v2 = 1` -/
def collisionStmt : Statement :=
  ⟨StatementKind.select,
    [SQLNode.text (str "select * from t where v1 = "), SQLNode.bindRef (str "$1"),
     SQLNode.text (str " and v2 = "), SQLNode.literal LiteralKind.integer (str "1")]⟩

/-- `select * from t where v1 = 1 and v2 = '1' and v3 = 1` -/
def reuseStmt : Statement :=
  ⟨StatementKind.select,
    [SQLNode.text (str "select * from t where v1 = "),
     SQLNode.literal LiteralKind.integer (str "1"),
     SQLNode.text (str " and v2 = "), SQLNode.literal LiteralKind.bytes (str "1"),
     SQLNode.text (str " and v3 = "), SQLNode.literal LiteralKind.integer (str "1")]⟩

/-- `update a set v1=(select 5 from t), v2=5, v3=(select 5 from t), v4=5` -/
def updateStmt : Statement :=
  ⟨StatementKind.update,
    [SQLNode.text (str "update a set v1 = ("),
     SQLNode.subquery [SQLNode.text (str "select "),
       SQLNode.literal LiteralKind.integer (str "5"), SQLNode.text (str " from t")],
     SQLNode.text (str "), v2 = "), SQLNode.literal LiteralKind.integer (str "5"),
     SQLNode.text (str ", v3 = ("),
     SQLNode.subquery [SQLNode.text (str "select "),
       SQLNode.literal LiteralKind.integer (str "5"), SQLNode.text (str " from t")],
     SQLNode.text (str "), v4 = "), SQLNode.literal LiteralKind.integer (str "5")]⟩

/-- `select * from t where v1 not in (1, '2')` -/
def notInStmt : Statement :=
  ⟨StatementKind.select,
    [SQLNode.text (str "select * from t where "),
     SQLNode.inPredicate true (SQLNode.text (str "v1"))
       (SQLNode.tuple [SQLNode.literal LiteralKind.integer (str "1"),
         SQLNode.literal LiteralKind.bytes (str "2")])]⟩

/-- `select * from t where v1 in (1, a)` -/
def mixedInStmt : Statement :=
  ⟨StatementKind.select,
    [SQLNode.text (str "select * from t where "),
     SQLNode.inPredicate false (SQLNode.text (str "v1"))
       (SQLNode.tuple [SQLNode.literal LiteralKind.integer (str "1"),
         SQLNode.text (str "a")])]⟩

/-- `insert into a values(1, 1)` -/
def insertStmt : Statement :=
  ⟨StatementKind.insert,
    [SQLNode.text (str "insert into a values "),
     SQLNode.tuple [SQLNode.literal LiteralKind.integer (str "1"),
       SQLNode.literal LiteralKind.integer (str "1")]]⟩

/-- `update a set v1=5 where v2 in (1, 4, 5)` -/
def updateInStmt : Statement :=
  ⟨StatementKind.update,
    [SQLNode.text (str "update a set v1 = "), SQLNode.literal LiteralKind.integer (str "5"),
     SQLNode.text (str " where "),
     SQLNode.inPredicate false (SQLNode.text (str "v2"))
       (SQLNode.tuple [SQLNode.literal LiteralKind.integer (str "1"),
         SQLNode.literal LiteralKind.integer (str "4"),
         SQLNode.literal LiteralKind.integer (str "5")])]⟩

/-- `select * from t where v1 = 0x1234 and v2 = 12345678901234567890 and v3 = 1.2` -/
def unsupportedStmt : Statement :=
  ⟨StatementKind.select,
    [SQLNode.text (str "select * from t where v1 = "),
     SQLNode.literal LiteralKind.hex (str "0x1234"),
     SQLNode.text (str " and v2 = "),
     SQLNode.literal LiteralKind.integer (str "12345678901234567890"),
     SQLNode.text (str " and v3 = "),
     SQLNode.literal LiteralKind.float (str "1.2")]⟩

/-- A string of `n` bytes: blanks and a final `a`, as `fmt.Sprintf("%256s", "a")`. -/
def padded (n : Nat) : Bytes := List.replicate (n - 1) 32 ++ [97]

/-- `select * from t where v1 = '<s>' and v2 = '<s>'` for the string `s`. -/
def twiceStmt (s : Bytes) : Statement :=
  ⟨StatementKind.select,
    [SQLNode.text (str "select * from t where v1 = "), SQLNode.literal LiteralKind.bytes s,
     SQLNode.text (str " and v2 = "), SQLNode.literal LiteralKind.bytes s]⟩

/-! ### Specification-side definitions for the round trip through a template -/

/-- The text a token is written as. -/
def Token.written : Token → Bytes
  | Token.text t => t
  | Token.arg name => name

/-- The text a sequence of tokens is written as. -/
def textOf : List Token → Bytes
  | [] => []
  | tok :: rest => tok.written ++ textOf rest

/-- The bind locations captured while a sequence of tokens is written from
offset `off` on. -/
def locsOf : List Token → Nat → List bindLocation
  | [], _ => []
  | Token.text t :: rest, off => locsOf rest (off + t.length)
  | Token.arg name :: rest, off =>
    ⟨(off : Int), (name.length : Int)⟩ :: locsOf rest (off + name.length)

/-- A token with its reference resolved: a text stays, a reference becomes the
encoding of the value `FetchBindVar` returns for its name. -/
def expandTok (EncodeSQL : ScalarEncoder) (bv : BindVars) : Token → Option Bytes
  | Token.text t => some t
  | Token.arg name =>
    match FetchBindVar name bv with
    | some (some supplied, none) => some (EncodeValue EncodeSQL [] supplied)
    | _ => none

/-- A sequence of tokens with every reference resolved. -/
def expandToks (EncodeSQL : ScalarEncoder) (bv : BindVars) : List Token → Option Bytes
  | [] => some []
  | tok :: rest =>
    match expandTok EncodeSQL bv tok, expandToks EncodeSQL bv rest with
    | some a, some b => some (a ++ b)
    | _, _ => none

mutual
/-- No `IN` / `NOT IN` predicate of the node has an empty parenthesized list on
its right (the grammar has no empty list). -/
def noEmptyInList : SQLNode → Bool
  | SQLNode.text _ => true
  | SQLNode.literal _ _ => true
  | SQLNode.bindRef _ => true
  | SQLNode.listRef _ => true
  | SQLNode.tuple elems => noEmptyInLists elems
  | SQLNode.inPredicate _ left right =>
    noEmptyInList left && (decide (listValues right ≠ some []) && noEmptyInList right)
  | SQLNode.subquery body => noEmptyInLists body
  | SQLNode.other children => noEmptyInLists children
/-- No `IN` / `NOT IN` predicate of the nodes has an empty list on its right. -/
def noEmptyInLists : List SQLNode → Bool
  | [] => true
  | n :: rest => noEmptyInList n && noEmptyInLists rest
end

/-- The renderer writes each substitutable literal as the value encoder
writes its classified value. -/
def Coherent (fmt : LiteralFormat) (EncodeSQL : ScalarEncoder) : Prop :=
  ∀ kind val key, classify kind val = some key → fmt kind val = EncodeSQL ⟨key.1, key.2⟩

/-- The invariant of the output map: a recorded name is bound to the value of
its Dedup Key, and every key of the map is an allocated name. -/
structure normalizer.Bound (nz : normalizer) : Prop where
  vals_bound : ∀ e ∈ nz.vals, nz.bindVars.get e.2 = some ⟨e.1.1, e.1.2, []⟩
  keys_lt : ∀ k v, nz.bindVars.get k = some v → ∃ n, n < nz.counter ∧ k = bvName n

/-- The store `nz1` is later than `nz`: the counter has not gone back and no
binding has changed. -/
structure Later (nz nz1 : normalizer) : Prop where
  counter_le : nz.counter ≤ nz1.counter
  get_mono : ∀ k v, nz.bindVars.get k = some v → nz1.bindVars.get k = some v

/-- The supplied bind variables `bv` hold every binding of the map `m`. -/
def Holds (bv : BindVars) (m : StrMap querypb.BindVariable) : Prop :=
  ∀ k v, m.get k = some v → bv k = some v

/-! ### Redaction (`redact_query.go`) -/

/-- Modelled from the spec: the leading and trailing comment text split off a
query by the comment splitter. -/
structure MarginComments where
  Leading : Bytes
  Trailing : Bytes
  deriving DecidableEq, Repr

/-- The comment splitter `SplitMarginComments`, an external collaborator: the
text without its margin comments, and the comments. A parameter of the
development. -/
abbrev Splitter := Bytes → Bytes × MarginComments

/-- The parser `Parse`, an external collaborator: a statement, or an error. A
parameter of the development. -/
abbrev Parser := Bytes → Except Bytes Statement

/-- `RedactSQLQuery` returns a sql string with the params stripped out for
display. The result is the Go pair `(string, error)`. -/
def RedactSQLQuery (SplitMarginComments : Splitter) (Parse : Parser) (fmt : LiteralFormat)
    (sql : Bytes) : Bytes × Option Bytes :=
  let bv : StrMap querypb.BindVariable := []
  let split := SplitMarginComments sql
  match Parse split.1 with
  | Except.error err => ([], some err)
  | Except.ok stmt =>
    (split.2.Leading ++ (Normalize stmt bv).1.String fmt ++ split.2.Trailing, none)

/-! ### Further sample inputs -/

/-- The template `a :a`, whose placeholders `a` and `:a` resolve to the same
key. -/
def sharedKeyPQ : ParsedQuery := ⟨str "a :a", [⟨0, 1⟩, ⟨2, 2⟩]⟩

/-- A template whose one placeholder, at offset 1, is empty. -/
def zeroLengthPQ : ParsedQuery := ⟨str "abc", [⟨1, 0⟩]⟩

/-- Overrides that write the placeholder text itself, for `$1` and `:a`. -/
def identityExtras : Extras := fun k =>
  if k = str "$1" then some ⟨str "$1"⟩
  else if k = str ":a" then some ⟨str ":a"⟩
  else none

/-- `select a,b,c from t where x = 1234 and y = 1234 and z = 'apple'` -/
def redactStmt : Statement :=
  ⟨StatementKind.select,
    [SQLNode.text (str "select a, b, c from t where x = "),
     SQLNode.literal LiteralKind.integer (str "1234"),
     SQLNode.text (str " and y = "), SQLNode.literal LiteralKind.integer (str "1234"),
     SQLNode.text (str " and z = "), SQLNode.literal LiteralKind.bytes (str "apple")]⟩

/-- A sample comment splitter: it knows the leading comment `/* c */ `. -/
def sampleSplit : Splitter := fun sql =>
  if sql.take 8 = str "/* c */ " then (sql.drop 8, ⟨str "/* c */ ", []⟩) else (sql, ⟨[], []⟩)

/-- The text `select * from t where v1 = '<s>' and v2 = '<s>'` for the string `s`. -/
def twiceText (s : Bytes) : Bytes :=
  str "select * from t where v1 = \x27" ++ s ++ str "\x27 and v2 = \x27" ++ s ++ str "\x27"

/-- `select * from t where v1 = 1 and v2 in (1, 2)` -/
def eqAndInStmt : Statement :=
  ⟨StatementKind.select,
    [SQLNode.text (str "select * from t where v1 = "),
     SQLNode.literal LiteralKind.integer (str "1"),
     SQLNode.text (str " and "),
     SQLNode.inPredicate false (SQLNode.text (str "v2"))
       (SQLNode.tuple [SQLNode.literal LiteralKind.integer (str "1"),
         SQLNode.literal LiteralKind.integer (str "2")])]⟩

/-- A sample parser: it knows the query of `redact_query_test.go`, a query
with a hexadecimal literal and an integer beyond 64 bits, a query with twice
the same string of 257 bytes, and a query with a literal and a list that holds
an equal literal; it fails on every other text. -/
def sampleParse : Parser := fun sql =>
  if sql = str "select a,b,c from t where x = 1234 and y = 1234 and z = \x27apple\x27" then
    Except.ok redactStmt
  else if sql
      = str "select * from t where v1 = 0x1234 and v2 = 12345678901234567890 and v3 = 1.2" then
    Except.ok unsupportedStmt
  else if sql = twiceText (padded 257) then Except.ok (twiceStmt (padded 257))
  else if sql = str "select * from t where v1 = 1 and v2 in (1, 2)" then Except.ok eqAndInStmt
  else Except.error (str "syntax error")

/-! ### Specification-side definitions for the reference scan -/

/-- A scalar reference or a list reference with the name `name` occurs in the
node, at any depth. -/
inductive Occurs (name : Bytes) : SQLNode → Prop where
  | bindRef : Occurs name (SQLNode.bindRef name)
  | listRef : Occurs name (SQLNode.listRef name)
  | tuple (elems : List SQLNode) (e : SQLNode) :
    e ∈ elems → Occurs name e → Occurs name (SQLNode.tuple elems)
  | inLeft (negated : Bool) (left right : SQLNode) :
    Occurs name left → Occurs name (SQLNode.inPredicate negated left right)
  | inRight (negated : Bool) (left right : SQLNode) :
    Occurs name right → Occurs name (SQLNode.inPredicate negated left right)
  | subquery (body : List SQLNode) (e : SQLNode) :
    e ∈ body → Occurs name e → Occurs name (SQLNode.subquery body)
  | other (children : List SQLNode) (e : SQLNode) :
    e ∈ children → Occurs name e → Occurs name (SQLNode.other children)

/-- `select * from t where $1 = $2 and $2 = $3 and $4 in $5`, the input of
`TestGetBindVars`. -/
def bindVarsStmt : Statement :=
  ⟨StatementKind.select,
    [SQLNode.text (str "select * from t where "),
     SQLNode.other [SQLNode.bindRef (str "$1"), SQLNode.text (str " = "),
       SQLNode.bindRef (str "$2")],
     SQLNode.text (str " and "),
     SQLNode.other [SQLNode.bindRef (str "$2"), SQLNode.text (str " = "),
       SQLNode.bindRef (str "$3")],
     SQLNode.text (str " and "),
     SQLNode.inPredicate false (SQLNode.bindRef (str "$4")) (SQLNode.listRef (str "$5"))]⟩

/-! ### Specification-side definitions for statements without substitutable literals -/

mutual
/-- The literals of a node, each with its kind and raw bytes, in document
order. -/
def literalsOf : SQLNode → List (LiteralKind × Bytes)
  | SQLNode.text _ => []
  | SQLNode.literal kind val => [(kind, val)]
  | SQLNode.bindRef _ => []
  | SQLNode.listRef _ => []
  | SQLNode.tuple elems => literalsOfList elems
  | SQLNode.inPredicate _ left right => literalsOf left ++ literalsOf right
  | SQLNode.subquery body => literalsOfList body
  | SQLNode.other children => literalsOfList children
/-- The literals of a list of nodes. -/
def literalsOfList : List SQLNode → List (LiteralKind × Bytes)
  | [] => []
  | n :: rest => literalsOf n ++ literalsOfList rest
end

/-- The text is a decimal integer outside the signed 64-bit range: below
`-2^63` or above `2^63 - 1`. -/
def beyondInt64 (val : Bytes) : Bool :=
  match parseInteger val with
  | some n => decide (n < -(2 ^ 63) ∨ 2 ^ 63 - 1 < n)
  | none => false

/-- A literal that is hexadecimal, or a decimal integer outside the signed
64-bit range. -/
def Unsupported (kv : LiteralKind × Bytes) : Prop :=
  kv.1 = LiteralKind.hex ∨ (kv.1 = LiteralKind.integer ∧ beyondInt64 kv.2 = true)

instance : DecidablePred Unsupported := fun kv => by
  unfold Unsupported
  infer_instance

/-- `select * from t where v1 = 0x1234 and v2 = 12345678901234567890 and v3 = $1` -/
def hexStmt : Statement :=
  ⟨StatementKind.select,
    [SQLNode.text (str "select * from t where v1 = "),
     SQLNode.literal LiteralKind.hex (str "0x1234"),
     SQLNode.text (str " and v2 = "),
     SQLNode.literal LiteralKind.integer (str "12345678901234567890"),
     SQLNode.text (str " and v3 = "), SQLNode.bindRef (str "$1")]⟩

/-- `select * from t where v1 = -5 and v2 = -5 and v3 = -9223372036854775808
and v4 = -9223372036854775809 and v5 = 9223372036854775807` -/
def signedStmt : Statement :=
  ⟨StatementKind.select,
    [SQLNode.text (str "select * from t where v1 = "),
     SQLNode.literal LiteralKind.integer (str "-5"),
     SQLNode.text (str " and v2 = "),
     SQLNode.literal LiteralKind.integer (str "-5"),
     SQLNode.text (str " and v3 = "),
     SQLNode.literal LiteralKind.integer (str "-9223372036854775808"),
     SQLNode.text (str " and v4 = "),
     SQLNode.literal LiteralKind.integer (str "-9223372036854775809"),
     SQLNode.text (str " and v5 = "),
     SQLNode.literal LiteralKind.integer (str "9223372036854775807")]⟩

/-! ### Specification-side definitions for the allocation of names -/

/-- The names of a list in order of first appearance, after the names `ks`. -/
def addNew (ks : List Bytes) (names : List Bytes) : List Bytes :=
  names.foldl (fun ks n => if n ∈ ks then ks else ks ++ [n]) ks

/-- The names `$n` of the positive integers below `c` whose name is not a
reserved one, in ascending order. -/
def unusedBelow (reserved : List Bytes) (c : Nat) : List Bytes :=
  ((List.range' 1 (c - 1)).filter (fun n => decide (bvName n ∉ reserved))).map bvName

/-- The invariant of the allocator: the keys of the output map, in order of
insertion, are the unused names below the counter, and every recorded name is
a key of the map. -/
structure normalizer.Tight (nz : normalizer) : Prop where
  pos : 1 ≤ nz.counter
  keys_eq : nz.bindVars.map Prod.fst = unusedBelow nz.reserved nz.counter
  vals_keys : ∀ e ∈ nz.vals, e.2 ∈ nz.bindVars.map Prod.fst

/-! ### Specification-side definitions for the scopes -/

mutual
/-- The replacements read off a node before and after normalization, each
with the scope it was made in: `true` for `reusable` (inside a nested read
sub-statement, or anywhere in a select), `false` for `fresh` (the top level of
a mutation statement). -/
def replacedIn (reusable : Bool) : SQLNode → SQLNode → List (Bool × Replacement)
  | SQLNode.literal kind val, SQLNode.bindRef name => [(reusable, (some (kind, val), name))]
  | SQLNode.tuple _, SQLNode.listRef name => [(reusable, (none, name))]
  | SQLNode.tuple elems, SQLNode.tuple elems1 => replacedInList reusable elems elems1
  | SQLNode.inPredicate _ left right, SQLNode.inPredicate _ left1 right1 =>
    replacedIn reusable left left1 ++ replacedIn reusable right right1
  | SQLNode.subquery body, SQLNode.subquery body1 => replacedInList true body body1
  | SQLNode.other children, SQLNode.other children1 => replacedInList reusable children children1
  | _, _ => []
/-- The replacements read off two lists of nodes, with their scopes. -/
def replacedInList (reusable : Bool) : List SQLNode → List SQLNode → List (Bool × Replacement)
  | n :: rest, n1 :: rest1 => replacedIn reusable n n1 ++ replacedInList reusable rest rest1
  | _, _ => []
end

/-- The replacements `Normalize` makes in a statement, given a fresh output
map, each with its scope. -/
def scopedReplacements (stmt : Statement) : List (Bool × Replacement) :=
  replacedInList (decide (stmt.kind = StatementKind.select)) stmt.body (Normalize stmt []).1.body

/-- A replacement as the store sees it: one made in `fresh` scope is not
recorded, whatever its literal is. -/
def mask (p : Bool × Replacement) : Replacement :=
  if p.1 = true then p.2 else (none, p.2.2)

/-- `update a set v1 = (select '<s>' from t), v2 = (select '<s>' from t)` for
the string `s`. -/
def subqueriesStmt (s : Bytes) : Statement :=
  ⟨StatementKind.update,
    [SQLNode.text (str "update a set v1 = ("),
     SQLNode.subquery [SQLNode.text (str "select "),
       SQLNode.literal LiteralKind.bytes s, SQLNode.text (str " from t")],
     SQLNode.text (str "), v2 = ("),
     SQLNode.subquery [SQLNode.text (str "select "),
       SQLNode.literal LiteralKind.bytes s, SQLNode.text (str " from t")],
     SQLNode.text (str ")")]⟩

/-- `update a set v1 = (select 1 from t where v2 in (1, 2))` -/
def subqueryInStmt : Statement :=
  ⟨StatementKind.update,
    [SQLNode.text (str "update a set v1 = ("),
     SQLNode.subquery [SQLNode.text (str "select "),
       SQLNode.literal LiteralKind.integer (str "1"), SQLNode.text (str " from t where "),
       SQLNode.inPredicate false (SQLNode.text (str "v2"))
         (SQLNode.tuple [SQLNode.literal LiteralKind.integer (str "1"),
           SQLNode.literal LiteralKind.integer (str "2")])],
     SQLNode.text (str ")")]⟩

/-! ### Specification-side definitions for the lists of `IN` predicates -/

/-- The right-hand side of an `IN` predicate if it is a parenthesized list,
with what stands in its place after normalization. -/
def listOf : SQLNode → SQLNode → List (List SQLNode × SQLNode)
  | SQLNode.tuple elems, right1 => [(elems, right1)]
  | _, _ => []

mutual
/-- The parenthesized lists on the right of the `IN` / `NOT IN` predicates of
a node, each with what stands in its place after normalization, read off the
node before and after, in document order. -/
def inLists : SQLNode → SQLNode → List (List SQLNode × SQLNode)
  | SQLNode.tuple elems, SQLNode.tuple elems1 => inListsList elems elems1
  | SQLNode.inPredicate _ left right, SQLNode.inPredicate _ left1 right1 =>
    inLists left left1 ++ (listOf right right1 ++ inLists right right1)
  | SQLNode.subquery body, SQLNode.subquery body1 => inListsList body body1
  | SQLNode.other children, SQLNode.other children1 => inListsList children children1
  | _, _ => []
/-- The lists of `IN` predicates read off two lists of nodes. -/
def inListsList : List SQLNode → List SQLNode → List (List SQLNode × SQLNode)
  | n :: rest, n1 :: rest1 => inLists n n1 ++ inListsList rest rest1
  | _, _ => []
end

/-- The elements of a right-hand side that is a parenthesized list. -/
def rightList : SQLNode → List (List SQLNode)
  | SQLNode.tuple elems => [elems]
  | _ => []

mutual
/-- The parenthesized lists on the right of the `IN` / `NOT IN` predicates of
a node, in document order. -/
def inListsOf : SQLNode → List (List SQLNode)
  | SQLNode.text _ => []
  | SQLNode.literal _ _ => []
  | SQLNode.bindRef _ => []
  | SQLNode.listRef _ => []
  | SQLNode.tuple elems => inListsOfList elems
  | SQLNode.inPredicate _ left right => inListsOf left ++ (rightList right ++ inListsOf right)
  | SQLNode.subquery body => inListsOfList body
  | SQLNode.other children => inListsOfList children
/-- The lists of the `IN` predicates of a list of nodes. -/
def inListsOfList : List SQLNode → List (List SQLNode)
  | [] => []
  | n :: rest => inListsOf n ++ inListsOfList rest
end

/-- Every element of the list is a substitutable scalar literal. -/
def AllSubstitutable (elems : List SQLNode) : Prop :=
  ∀ e ∈ elems, ∃ kind val, e = SQLNode.literal kind val ∧ (classify kind val).isSome

/-- The value `v` is the classified value of the literal element `e`. -/
def ValueOf (e : SQLNode) (v : querypb.Value) : Prop :=
  ∃ kind val, e = SQLNode.literal kind val ∧ classify kind val = some (v.Typ, v.Value)

theorem str_missing : str "missing bind var " = 109 :: str "issing bind var " := by decide

theorem str_emptyList : str "empty list supplied for " = 101 :: str "mpty list supplied for " := by
  decide

theorem FetchBindVar_cons (c : UInt8) (tl : Bytes) (bv : BindVars) :
    FetchBindVar (c :: tl) bv =
      match bv (lookupKey (c :: tl)) with
      | none => some (none, some (str "missing bind var " ++ lookupKey (c :: tl)))
      | some supplied =>
        if supplied.Typ = querypb.SqlType.Type_TUPLE ∧ supplied.Values.length = 0 then
          some (none, some (str "empty list supplied for " ++ lookupKey (c :: tl)))
        else some (some supplied, none) := by
  simp only [FetchBindVar, lookupKey]

/-- C3: for a non-empty name, with `key` the name less one leading `:`,
`FetchBindVar` returns the error "missing bind var key" iff `key` is not in the
map, the error "empty list supplied for key" iff `key` is bound to a TUPLE with
zero `Values`, and otherwise returns exactly the value bound to `key` with a
nil error. -/
theorem FetchBindVar_spec (name : Bytes) (bv : BindVars) (hne : name ≠ []) :
    (FetchBindVar name bv = some (none, some (str "missing bind var " ++ lookupKey name))
        ↔ bv (lookupKey name) = none) ∧
    (FetchBindVar name bv = some (none, some (str "empty list supplied for " ++ lookupKey name))
        ↔ ∃ v, bv (lookupKey name) = some v ∧
            v.Typ = querypb.SqlType.Type_TUPLE ∧ v.Values.length = 0) ∧
    (∀ v, bv (lookupKey name) = some v →
        ¬ (v.Typ = querypb.SqlType.Type_TUPLE ∧ v.Values.length = 0) →
        FetchBindVar name bv = some (some v, none)) := by
  cases name with
  | nil => exact absurd rfl hne
  | cons c tl =>
    rw [FetchBindVar_cons]
    cases hk : bv (lookupKey (c :: tl)) with
    | none =>
      refine ⟨by simp, ?_, by simp⟩
      simp [str_missing, str_emptyList]
    | some w =>
      by_cases ht : w.Typ = querypb.SqlType.Type_TUPLE ∧ w.Values.length = 0
      · simp only [if_pos ht]
        refine ⟨?_, ?_, ?_⟩
        · simp [str_missing, str_emptyList]
        · constructor
          · intro _; exact ⟨w, rfl, ht⟩
          · intro _; trivial
        · intro v hv hnot
          cases hv
          exact absurd ht hnot
      · simp only [if_neg ht]
        refine ⟨?_, ?_, ?_⟩
        · constructor
          · intro h; simp at h
          · intro h; simp at h
        · constructor
          · intro h; simp at h
          · rintro ⟨v, hv, h1, h2⟩
            cases hv
            exact absurd ⟨h1, h2⟩ ht
        · intro v hv _
          cases hv
          rfl

theorem FetchBindVar_spec_witness :
    str ":a" ≠ [] ∧
    FetchBindVar (str ":a") sampleVars = some (some (int64BV "7"), none) ∧
    FetchBindVar (str ":t") sampleVars
      = some (none, some (str "empty list supplied for t")) ∧
    FetchBindVar (str "$2") sampleVars = some (none, some (str "missing bind var $2")) :=
  ⟨by decide,
   (FetchBindVar_spec (str ":a") sampleVars (by decide)).2.2 (int64BV "7") (by decide) (by decide),
   (FetchBindVar_spec (str ":t") sampleVars (by decide)).2.1.2
     ⟨⟨querypb.SqlType.Type_TUPLE, [], []⟩, by decide, by decide, by decide⟩,
   (FetchBindVar_spec (str "$2") sampleVars (by decide)).1.2 (by decide)⟩

/-! ### EncodeValue -/

theorem EncodeValue.elems_succ (EncodeSQL : ScalarEncoder) (vs : List querypb.Value) :
    ∀ (i : Nat) (buf : Bytes),
      EncodeValue.elems EncodeSQL (i + 1) vs buf
        = buf ++ (vs.map (fun v => str ", " ++ EncodeSQL (sqltypes.ProtoToValue v))).flatten := by
  induction vs with
  | nil => intro i buf; simp [EncodeValue.elems]
  | cons v rest ih =>
    intro i buf
    simp only [EncodeValue.elems, ih, List.map_cons, List.flatten_cons]
    simp

theorem intercalate_cons_eq (sep x : Bytes) (xs : List Bytes) :
    List.intercalate sep (x :: xs) = x ++ (xs.map (fun y => sep ++ y)).flatten := by
  induction xs generalizing x with
  | nil => simp [List.intercalate]
  | cons y ys ih =>
    have h := ih y
    simp only [List.intercalate, List.intersperse, List.flatten_cons, List.map_cons] at h ⊢
    rw [h]
    simp

theorem EncodeValue.elems_zero (EncodeSQL : ScalarEncoder) (vs : List querypb.Value)
    (buf : Bytes) :
    EncodeValue.elems EncodeSQL 0 vs buf
      = buf ++ List.intercalate (str ", ")
          (vs.map (fun v => EncodeSQL (sqltypes.ProtoToValue v))) := by
  cases vs with
  | nil => simp [EncodeValue.elems, List.intercalate]
  | cons v rest =>
    simp only [EncodeValue.elems, List.map_cons, intercalate_cons_eq, EncodeValue.elems_succ]
    simp [List.map_map, Function.comp_def]

theorem EncodeValue_eq (EncodeSQL : ScalarEncoder) (buf : Bytes)
    (value : querypb.BindVariable) :
    EncodeValue EncodeSQL buf value =
      buf ++ (if value.Typ = querypb.SqlType.Type_TUPLE then
                str "(" ++ List.intercalate (str ", ")
                  (value.Values.map (fun v => EncodeSQL (sqltypes.ProtoToValue v))) ++ str ")"
              else EncodeSQL ⟨value.Typ, value.Value⟩) := by
  unfold EncodeValue
  by_cases h : value.Typ = querypb.SqlType.Type_TUPLE
  · simp [h, EncodeValue.elems_zero]
  · simp [h, sqltypes.BindVariableToValue]

/-- C6: `EncodeValue` appends to the buffer, for a TUPLE with elements
`v_1..v_n` (`n ≥ 0`), exactly `(` then the scalar encodings of the elements in
their order separated by `, ` (never before the first or after the last) then
`)`; for any other bind variable, exactly the scalar encoding of its value,
with no parentheses. -/
theorem EncodeValue_spec (EncodeSQL : ScalarEncoder) (buf : Bytes)
    (value : querypb.BindVariable) :
    EncodeValue EncodeSQL buf value =
      buf ++ (if value.Typ = querypb.SqlType.Type_TUPLE then
                str "(" ++ List.intercalate (str ", ")
                  (value.Values.map (fun v => EncodeSQL (sqltypes.ProtoToValue v))) ++ str ")"
              else EncodeSQL ⟨value.Typ, value.Value⟩) := by
  unfold EncodeValue
  by_cases h : value.Typ = querypb.SqlType.Type_TUPLE
  · simp [h, EncodeValue.elems_zero]
  · simp [h, sqltypes.BindVariableToValue]

theorem EncodeValue_append (EncodeSQL : ScalarEncoder) (buf : Bytes)
    (value : querypb.BindVariable) :
    EncodeValue EncodeSQL buf value = buf ++ EncodeValue EncodeSQL [] value := by
  rw [EncodeValue_eq, EncodeValue_eq EncodeSQL []]
  simp

/-! ### GenerateQuery -/

/-- C7: on a template with an empty bind-location list `GenerateQuery` returns
the bytes of `Query` unchanged with a nil error, whatever `bindVariables` and
`extras` are. -/
theorem GenerateQuery_no_locations (EncodeSQL : ScalarEncoder) (Query : Bytes)
    (bindVariables : BindVars) (extras : Extras) :
    ParsedQuery.GenerateQuery EncodeSQL ⟨Query, []⟩ bindVariables extras
      = some (some Query, none) := by
  simp [ParsedQuery.GenerateQuery]

theorem slice_eq_seg (s : Bytes) (lo hi : Int) (h0 : 0 ≤ lo) (h1 : lo ≤ hi)
    (h2 : hi ≤ (s.length : Int)) : slice s lo hi = some (seg s lo hi) := by
  simp [slice, seg, h0, h1, h2]

theorem sliceFrom_eq_drop (s : Bytes) (lo : Int) (h0 : 0 ≤ lo) (h1 : lo ≤ (s.length : Int)) :
    sliceFrom s lo = some (s.drop lo.toNat) := by
  simp [sliceFrom, h0, h1]

theorem InOrderFrom_of_pairwise (Query : Bytes) :
    ∀ (locs : List bindLocation) (current : Int),
      0 ≤ current → current ≤ (Query.length : Int) →
      (∀ loc ∈ locs, current ≤ loc.offset ∧ 0 ≤ loc.length ∧
          loc.offset + loc.length ≤ (Query.length : Int)) →
      locs.Pairwise (fun a b => a.offset + a.length ≤ b.offset) →
      InOrderFrom Query current locs := by
  intro locs
  induction locs with
  | nil => intro current h0 h1 _ _; exact ⟨h0, h1⟩
  | cons loc rest ih =>
    intro current h0 h1 hin hpw
    have hloc := hin loc (List.mem_cons_self _ _)
    rw [List.pairwise_cons] at hpw
    refine ⟨h0, hloc.1, hloc.2.1, hloc.2.2, ?_⟩
    apply ih
    · omega
    · exact hloc.2.2
    · intro l hl
      have hl2 := hin l (List.mem_cons_of_mem _ hl)
      exact ⟨hpw.1 l hl, hl2.2.1, hl2.2.2⟩
    · exact hpw.2

theorem InOrderFrom_of_WellFormed (pq : ParsedQuery) (h : pq.WellFormed) :
    InOrderFrom pq.Query 0 pq.bindLocations :=
  InOrderFrom_of_pairwise _ _ _ (le_refl 0) (by omega) h.1 h.2

theorem GenerateQuery.step_in_bounds (EncodeSQL : ScalarEncoder) (Query : Bytes)
    (bindVariables : BindVars) (extras : Extras) (buf : Bytes) (current : Int)
    (loc : bindLocation) (h0 : 0 ≤ current) (h1 : current ≤ loc.offset) (h2 : 0 ≤ loc.length)
    (h3 : loc.offset + loc.length ≤ (Query.length : Int)) :
    GenerateQuery.step EncodeSQL Query bindVariables extras buf current loc =
      match extras (placeholder Query loc) with
      | some encodable =>
        LoopState.running (buf ++ seg Query current loc.offset ++ encodable.sql)
          (loc.offset + loc.length)
      | none =>
        match FetchBindVar (placeholder Query loc) bindVariables with
        | none => LoopState.panicked
        | some (_, some err) => LoopState.returned err
        | some (none, none) => LoopState.panicked
        | some (some supplied, none) =>
          LoopState.running
            (buf ++ seg Query current loc.offset ++ EncodeValue EncodeSQL [] supplied)
            (loc.offset + loc.length) := by
  unfold GenerateQuery.step
  rw [slice_eq_seg Query current loc.offset h0 h1 (by omega),
    slice_eq_seg Query loc.offset (loc.offset + loc.length) (by omega) (by omega) h3]
  simp only [placeholder, Encodable.EncodeSQL]
  cases extras (seg Query loc.offset (loc.offset + loc.length)) with
  | some e => rfl
  | none =>
    simp only []
    rcases FetchBindVar (seg Query loc.offset (loc.offset + loc.length)) bindVariables
      with _ | ⟨_ | v, _ | e⟩
    · rfl
    · rfl
    · rfl
    · simp only []
      rw [EncodeValue_append]
    · rfl

theorem GenerateQuery.step_resolved (EncodeSQL : ScalarEncoder) (Query : Bytes)
    (bindVariables : BindVars) (extras : Extras) (buf : Bytes) (current : Int)
    (loc : bindLocation) (h0 : 0 ≤ current) (h1 : current ≤ loc.offset) (h2 : 0 ≤ loc.length)
    (h3 : loc.offset + loc.length ≤ (Query.length : Int)) (r : Bytes)
    (hr : rendering EncodeSQL Query bindVariables extras loc = some r) :
    GenerateQuery.step EncodeSQL Query bindVariables extras buf current loc =
      LoopState.running (buf ++ seg Query current loc.offset ++ r) (loc.offset + loc.length) := by
  rw [GenerateQuery.step_in_bounds _ _ _ _ _ _ _ h0 h1 h2 h3]
  unfold rendering at hr
  cases he : extras (placeholder Query loc) with
  | some e =>
    rw [he] at hr
    simp only [Option.some.injEq] at hr
    simp only [hr]
  | none =>
    rw [he] at hr
    simp only [] at hr ⊢
    rcases hf : FetchBindVar (placeholder Query loc) bindVariables with _ | ⟨_ | v, _ | e⟩ <;>
      rw [hf] at hr <;> simp only [Option.some.injEq, reduceCtorEq] at hr
    simp only [hr]

theorem GenerateQuery.loop_resolved (EncodeSQL : ScalarEncoder) (Query : Bytes)
    (bindVariables : BindVars) (extras : Extras) :
    ∀ (locs : List bindLocation) (buf : Bytes) (current : Int),
      InOrderFrom Query current locs →
      (∀ loc ∈ locs, (rendering EncodeSQL Query bindVariables extras loc).isSome) →
      ∃ buf1 current1,
        GenerateQuery.loop EncodeSQL Query bindVariables extras locs buf current
          = LoopState.running buf1 current1 ∧
        0 ≤ current1 ∧ current1 ≤ (Query.length : Int) ∧
        buf1 ++ Query.drop current1.toNat
          = buf ++ substituted EncodeSQL Query bindVariables extras current locs := by
  intro locs
  induction locs with
  | nil =>
    intro buf current h _
    exact ⟨buf, current, rfl, h.1, h.2, rfl⟩
  | cons loc rest ih =>
    intro buf current h hres
    obtain ⟨h0, h1, h2, h3, hrest⟩ := h
    obtain ⟨r, hr⟩ := Option.isSome_iff_exists.mp (hres loc (List.mem_cons_self _ _))
    obtain ⟨buf1, current1, hloop, hc0, hc1, heq⟩ :=
      ih (buf ++ seg Query current loc.offset ++ r) (loc.offset + loc.length) hrest
        (fun l hl => hres l (List.mem_cons_of_mem _ hl))
    refine ⟨buf1, current1, ?_, hc0, hc1, ?_⟩
    · simp only [GenerateQuery.loop,
        GenerateQuery.step_resolved _ _ _ _ _ _ _ h0 h1 h2 h3 r hr, hloop]
    · rw [heq]
      simp [substituted, hr]

/-- C1: for a template whose bind locations are sorted ascending,
non-overlapping and within the text, and bind variables and overrides for
which every placeholder resolves, `GenerateQuery` returns, with a nil error,
exactly the text before the first placeholder, what is written for it (the
override's text if `extras` has its name, otherwise `EncodeValue` of the value
`FetchBindVar` returns), the text up to the next placeholder, and so on, and
the text after the last placeholder. -/
theorem GenerateQuery_substitutes (EncodeSQL : ScalarEncoder) (pq : ParsedQuery)
    (bindVariables : BindVars) (extras : Extras) (hwf : pq.WellFormed)
    (hres : ∀ loc ∈ pq.bindLocations,
      (rendering EncodeSQL pq.Query bindVariables extras loc).isSome) :
    pq.GenerateQuery EncodeSQL bindVariables extras
      = some (some (substituted EncodeSQL pq.Query bindVariables extras 0 pq.bindLocations),
          none) := by
  unfold ParsedQuery.GenerateQuery
  by_cases hl : pq.bindLocations.length = 0
  · have : pq.bindLocations = [] := List.length_eq_zero.mp hl
    simp [this, substituted]
  · rw [if_neg hl]
    obtain ⟨buf1, current1, hloop, hc0, hc1, heq⟩ :=
      GenerateQuery.loop_resolved EncodeSQL pq.Query bindVariables extras pq.bindLocations [] 0
        (InOrderFrom_of_WellFormed pq hwf) hres
    rw [hloop]
    simp only []
    rw [sliceFrom_eq_drop _ _ hc0 hc1]
    simp only [heq, List.nil_append]

theorem GenerateQuery_substitutes_witness :
    samplePQ.WellFormed ∧
    (∀ loc ∈ samplePQ.bindLocations,
      (rendering sampleEncodeSQL samplePQ.Query sampleVars noExtras loc).isSome) ∧
    samplePQ.GenerateQuery sampleEncodeSQL sampleVars noExtras
      = some (some (str "x = 42 and y = 7"), none) :=
  ⟨by decide, by decide,
   (GenerateQuery_substitutes sampleEncodeSQL samplePQ sampleVars noExtras (by decide)
      (by decide)).trans (by decide)⟩

theorem FetchBindVar_outcome (name : Bytes) (bv : BindVars) (hne : name ≠ []) :
    (∃ v, FetchBindVar name bv = some (some v, none) ∧ bv (lookupKey name) = some v ∧
        ¬ (v.Typ = querypb.SqlType.Type_TUPLE ∧ v.Values.length = 0)) ∨
    (∃ e, FetchBindVar name bv = some (none, some e) ∧
        (bv (lookupKey name) = none ∨
          ∃ v, bv (lookupKey name) = some v ∧
            v.Typ = querypb.SqlType.Type_TUPLE ∧ v.Values.length = 0)) := by
  cases name with
  | nil => exact absurd rfl hne
  | cons c tl =>
    rw [FetchBindVar_cons]
    cases hk : bv (lookupKey (c :: tl)) with
    | none => exact Or.inr ⟨_, rfl, Or.inl rfl⟩
    | some w =>
      by_cases ht : w.Typ = querypb.SqlType.Type_TUPLE ∧ w.Values.length = 0
      · simp only [if_pos ht]
        exact Or.inr ⟨_, rfl, Or.inr ⟨w, rfl, ht⟩⟩
      · simp only [if_neg ht]
        exact Or.inl ⟨w, rfl, rfl, ht⟩

theorem failure_or_rendering (EncodeSQL : ScalarEncoder) (Query : Bytes) (bv : BindVars)
    (extras : Extras) (loc : bindLocation)
    (hne : extras (placeholder Query loc) = none → placeholder Query loc ≠ []) :
    (failure Query bv extras loc = none ∧
        (rendering EncodeSQL Query bv extras loc).isSome ∧
        ¬ (extras (placeholder Query loc) = none ∧ Unbound Query bv loc)) ∨
    (∃ e, failure Query bv extras loc = some e ∧
        extras (placeholder Query loc) = none ∧ Unbound Query bv loc ∧
        FetchBindVar (placeholder Query loc) bv = some (none, some e)) := by
  unfold failure rendering Unbound
  cases he : extras (placeholder Query loc) with
  | some e => left; simp
  | none =>
    rcases FetchBindVar_outcome (placeholder Query loc) bv (hne he) with
      ⟨v, hf, hk, hnot⟩ | ⟨e, hf, hk⟩
    · left
      rw [hf]
      refine ⟨rfl, rfl, ?_⟩
      rintro ⟨_, h | ⟨w, hw, h1, h2⟩⟩
      · rw [hk] at h; cases h
      · rw [hk] at hw; cases hw; exact hnot ⟨h1, h2⟩
    · right
      rw [hf]
      exact ⟨e, rfl, rfl, hk, rfl⟩

theorem GenerateQuery.loop_failure (EncodeSQL : ScalarEncoder) (Query : Bytes)
    (bv : BindVars) (extras : Extras) :
    ∀ (locs : List bindLocation) (buf : Bytes) (current : Int),
      InOrderFrom Query current locs →
      (∀ loc ∈ locs, extras (placeholder Query loc) = none → placeholder Query loc ≠ []) →
      ∀ e, (locs.filterMap (failure Query bv extras)).head? = some e →
        GenerateQuery.loop EncodeSQL Query bv extras locs buf current = LoopState.returned e := by
  intro locs
  induction locs with
  | nil => intro buf current _ _ e he; simp at he
  | cons loc rest ih =>
    intro buf current h hne e he
    obtain ⟨h0, h1, h2, h3, hrest⟩ := h
    rcases failure_or_rendering EncodeSQL Query bv extras loc
        (hne loc (List.mem_cons_self _ _)) with ⟨hf, hr, _⟩ | ⟨e1, hf, hex, _, hfetch⟩
    · obtain ⟨r, hr⟩ := Option.isSome_iff_exists.mp hr
      rw [List.filterMap_cons, hf] at he
      simp only [GenerateQuery.loop, GenerateQuery.step_resolved _ _ _ _ _ _ _ h0 h1 h2 h3 r hr]
      exact ih _ _ hrest (fun l hl => hne l (List.mem_cons_of_mem _ hl)) e he
    · rw [List.filterMap_cons, hf] at he
      simp only [List.head?_cons, Option.some.injEq] at he
      subst he
      simp only [GenerateQuery.loop, GenerateQuery.step_in_bounds _ _ _ _ _ _ _ h0 h1 h2 h3,
        hex, hfetch]

theorem filterMap_failure_nil (EncodeSQL : ScalarEncoder) (Query : Bytes) (bv : BindVars)
    (extras : Extras) (locs : List bindLocation)
    (hne : ∀ loc ∈ locs, extras (placeholder Query loc) = none → placeholder Query loc ≠ [])
    (hnone : (locs.filterMap (failure Query bv extras)).head? = none) :
    ∀ loc ∈ locs, (rendering EncodeSQL Query bv extras loc).isSome ∧
      ¬ (extras (placeholder Query loc) = none ∧ Unbound Query bv loc) := by
  intro loc hloc
  rcases failure_or_rendering EncodeSQL Query bv extras loc (hne loc hloc) with
    ⟨_, hr, hu⟩ | ⟨e1, hf, _, _, _⟩
  · exact ⟨hr, hu⟩
  · exfalso
    have hmem : e1 ∈ locs.filterMap (failure Query bv extras) :=
      List.mem_filterMap.mpr ⟨loc, hloc, hf⟩
    cases hfm : locs.filterMap (failure Query bv extras) with
    | nil => rw [hfm] at hmem; cases hmem
    | cons x xs => rw [hfm] at hnone; simp at hnone

theorem GenerateQuery_cases (EncodeSQL : ScalarEncoder) (pq : ParsedQuery)
    (bv : BindVars) (extras : Extras) (hwf : pq.WellFormed)
    (hne : ∀ loc ∈ pq.bindLocations,
      extras (placeholder pq.Query loc) = none → placeholder pq.Query loc ≠ []) :
    pq.GenerateQuery EncodeSQL bv extras =
      match (pq.bindLocations.filterMap (failure pq.Query bv extras)).head? with
      | some e => some (none, some e)
      | none => some (some (substituted EncodeSQL pq.Query bv extras 0 pq.bindLocations), none) := by
  cases hh : (pq.bindLocations.filterMap (failure pq.Query bv extras)).head? with
  | none =>
    simp only []
    unfold ParsedQuery.GenerateQuery
    by_cases hl : pq.bindLocations.length = 0
    · have : pq.bindLocations = [] := List.length_eq_zero.mp hl
      simp [this, substituted]
    · rw [if_neg hl]
      obtain ⟨buf1, current1, hloop, hc0, hc1, heq⟩ :=
        GenerateQuery.loop_resolved EncodeSQL pq.Query bv extras pq.bindLocations [] 0
          (InOrderFrom_of_WellFormed pq hwf)
          (fun l hl => (filterMap_failure_nil EncodeSQL _ _ _ _ hne hh l hl).1)
      rw [hloop]
      simp only []
      rw [sliceFrom_eq_drop _ _ hc0 hc1]
      simp only [heq, List.nil_append]
  | some e =>
    simp only []
    unfold ParsedQuery.GenerateQuery
    have hl : ¬ pq.bindLocations.length = 0 := by
      intro hl
      have : pq.bindLocations = [] := List.length_eq_zero.mp hl
      rw [this] at hh
      simp at hh
    rw [if_neg hl,
      GenerateQuery.loop_failure EncodeSQL pq.Query bv extras pq.bindLocations [] 0
        (InOrderFrom_of_WellFormed pq hwf) hne e hh]

theorem head?_filterMap_split {α β : Type} (f : α → Option β) :
    ∀ (l : List α) (e : β), (l.filterMap f).head? = some e →
      ∃ before x after, l = before ++ x :: after ∧ (∀ y ∈ before, f y = none) ∧ f x = some e := by
  intro l
  induction l with
  | nil => intro e h; simp at h
  | cons a rest ih =>
    intro e h
    cases hfa : f a with
    | some b =>
      rw [List.filterMap_cons, hfa] at h
      simp only [List.head?_cons, Option.some.injEq] at h
      subst h
      exact ⟨[], a, rest, rfl, by simp, hfa⟩
    | none =>
      rw [List.filterMap_cons, hfa] at h
      obtain ⟨before, x, after, hl, hb, hx⟩ := ih e h
      refine ⟨a :: before, x, after, by simp [hl], ?_, hx⟩
      intro y hy
      rcases List.mem_cons.mp hy with rfl | hy
      · exact hfa
      · exact hb y hy

/-- C2 (amended): for a template satisfying the location invariant in which
every placeholder that is not a key of `extras` is non-empty, `GenerateQuery`
does return; it returns an error iff some bind location has a placeholder
name that is not a key of `extras` and whose key is missing from
`bindVariables` or bound to a TUPLE with zero elements; the byte slice
returned with an error is nil, and the error is the one `FetchBindVar` gives
for the first such location. -/
theorem GenerateQuery_error_iff (EncodeSQL : ScalarEncoder) (pq : ParsedQuery)
    (bv : BindVars) (extras : Extras) (hwf : pq.WellFormed)
    (hne : ∀ loc ∈ pq.bindLocations,
      extras (placeholder pq.Query loc) = none → placeholder pq.Query loc ≠ []) :
    pq.GenerateQuery EncodeSQL bv extras ≠ none ∧
    ((∃ b e, pq.GenerateQuery EncodeSQL bv extras = some (b, some e)) ↔
      ∃ loc ∈ pq.bindLocations,
        extras (placeholder pq.Query loc) = none ∧ Unbound pq.Query bv loc) ∧
    (∀ b e, pq.GenerateQuery EncodeSQL bv extras = some (b, some e) →
      b = none ∧
      ∃ before loc after, pq.bindLocations = before ++ loc :: after ∧
        (∀ l ∈ before, ¬ (extras (placeholder pq.Query l) = none ∧ Unbound pq.Query bv l)) ∧
        extras (placeholder pq.Query loc) = none ∧ Unbound pq.Query bv loc ∧
        FetchBindVar (placeholder pq.Query loc) bv = some (none, some e)) := by
  have hcases := GenerateQuery_cases EncodeSQL pq bv extras hwf hne
  cases hh : (pq.bindLocations.filterMap (failure pq.Query bv extras)).head? with
  | none =>
    rw [hh] at hcases
    simp only [] at hcases
    rw [hcases]
    refine ⟨by simp, ?_, ?_⟩
    · constructor
      · rintro ⟨b, e, h⟩
        simp at h
      · rintro ⟨loc, hloc, hu⟩
        exact absurd hu (filterMap_failure_nil EncodeSQL _ _ _ _ hne hh loc hloc).2
    · intro b e h
      simp at h
  | some e0 =>
    rw [hh] at hcases
    simp only [] at hcases
    rw [hcases]
    obtain ⟨before, x, after, hl, hb, hx⟩ := head?_filterMap_split _ _ _ hh
    have hxmem : x ∈ pq.bindLocations := by rw [hl]; simp
    have hxfacts : extras (placeholder pq.Query x) = none ∧ Unbound pq.Query bv x ∧
        FetchBindVar (placeholder pq.Query x) bv = some (none, some e0) := by
      rcases failure_or_rendering EncodeSQL pq.Query bv extras x (hne x hxmem) with
        ⟨hf, _, _⟩ | ⟨e1, hf, h1, h2, h3⟩
      · rw [hf] at hx; cases hx
      · rw [hf] at hx; cases hx; exact ⟨h1, h2, h3⟩
    refine ⟨by simp, ?_, ?_⟩
    · constructor
      · intro _
        exact ⟨x, hxmem, hxfacts.1, hxfacts.2.1⟩
      · intro _
        exact ⟨none, e0, rfl⟩
    · intro b e h
      simp only [Option.some.injEq, Prod.mk.injEq] at h
      obtain ⟨hb1, he1⟩ := h
      subst hb1 he1
      refine ⟨rfl, before, x, after, hl, ?_, hxfacts⟩
      intro l hlmem
      have hlmem2 : l ∈ pq.bindLocations := by rw [hl]; simp [hlmem]
      rcases failure_or_rendering EncodeSQL pq.Query bv extras l (hne l hlmem2) with
        ⟨_, _, hu⟩ | ⟨e1, hf, _, _, _⟩
      · exact hu
      · rw [hb l hlmem] at hf; cases hf

theorem GenerateQuery_error_iff_witness :
    samplePQ.WellFormed ∧
    (∀ loc ∈ samplePQ.bindLocations,
      noExtras (placeholder samplePQ.Query loc) = none → placeholder samplePQ.Query loc ≠ []) ∧
    samplePQ.GenerateQuery sampleEncodeSQL noVars noExtras
      = some (none, some (str "missing bind var $1")) ∧
    ∃ loc ∈ samplePQ.bindLocations,
      noExtras (placeholder samplePQ.Query loc) = none ∧ Unbound samplePQ.Query noVars loc :=
  ⟨by decide, by decide, by decide,
   (GenerateQuery_error_iff sampleEncodeSQL samplePQ noVars noExtras (by decide)
      (by decide)).2.1.1 ⟨none, str "missing bind var $1", by decide⟩⟩

/-- C2 (as stated) fails: the template `abcd` with the locations `(0,0)` and
`(1,2)` satisfies the location invariant, the placeholder `bc` is in neither
map and `FetchBindVar` gives the error "missing bind var bc" for it, yet
`GenerateQuery` returns no error: it panics on the empty name ahead of it. -/
theorem GenerateQuery_error_iff_fails_on_empty_name :
    emptyNamePQ.WellFormed ∧
    (∃ loc ∈ emptyNamePQ.bindLocations,
      noExtras (placeholder emptyNamePQ.Query loc) = none ∧
      noVars (lookupKey (placeholder emptyNamePQ.Query loc)) = none ∧
      FetchBindVar (placeholder emptyNamePQ.Query loc) noVars
        = some (none, some (str "missing bind var bc"))) ∧
    emptyNamePQ.GenerateQuery sampleEncodeSQL noVars noExtras = none ∧
    ¬ ∃ b e, emptyNamePQ.GenerateQuery sampleEncodeSQL noVars noExtras = some (b, some e) := by
  refine ⟨by decide, ⟨⟨1, 2⟩, by decide, by decide, by decide, by decide⟩, by decide, ?_⟩
  rintro ⟨b, e, h⟩
  have h2 : emptyNamePQ.GenerateQuery sampleEncodeSQL noVars noExtras = none := by decide
  rw [h2] at h
  cases h

theorem slice_some_eq (s : Bytes) (lo hi : Int) (x : Bytes) (h : slice s lo hi = some x) :
    x = seg s lo hi := by
  unfold slice at h
  split at h
  · simp only [Option.some.injEq] at h
    exact h.symm
  · cases h

theorem FetchBindVar_congr (name : Bytes) (bv1 bv2 : BindVars)
    (h : bv1 (lookupKey name) = bv2 (lookupKey name)) :
    FetchBindVar name bv1 = FetchBindVar name bv2 := by
  cases name with
  | nil => rfl
  | cons c tl => rw [FetchBindVar_cons, FetchBindVar_cons, h]

theorem GenerateQuery.step_congr (EncodeSQL : ScalarEncoder) (Query : Bytes)
    (bv1 bv2 : BindVars) (extras : Extras) (buf : Bytes) (current : Int) (loc : bindLocation)
    (h : extras (placeholder Query loc) = none →
      bv1 (lookupKey (placeholder Query loc)) = bv2 (lookupKey (placeholder Query loc))) :
    GenerateQuery.step EncodeSQL Query bv1 extras buf current loc
      = GenerateQuery.step EncodeSQL Query bv2 extras buf current loc := by
  unfold GenerateQuery.step
  cases slice Query current loc.offset with
  | none => rfl
  | some pre =>
    simp only []
    cases hn : slice Query loc.offset (loc.offset + loc.length) with
    | none => rfl
    | some name =>
      simp only []
      have hname : name = placeholder Query loc := slice_some_eq _ _ _ _ hn
      cases he : extras name with
      | some e => rfl
      | none =>
        simp only []
        rw [hname] at he ⊢
        rw [FetchBindVar_congr _ bv1 bv2 (h he)]

theorem GenerateQuery.loop_congr (EncodeSQL : ScalarEncoder) (Query : Bytes)
    (bv1 bv2 : BindVars) (extras : Extras) :
    ∀ (locs : List bindLocation) (buf : Bytes) (current : Int),
      (∀ loc ∈ locs, extras (placeholder Query loc) = none →
        bv1 (lookupKey (placeholder Query loc)) = bv2 (lookupKey (placeholder Query loc))) →
      GenerateQuery.loop EncodeSQL Query bv1 extras locs buf current
        = GenerateQuery.loop EncodeSQL Query bv2 extras locs buf current := by
  intro locs
  induction locs with
  | nil => intro buf current _; rfl
  | cons loc rest ih =>
    intro buf current h
    simp only [GenerateQuery.loop]
    rw [GenerateQuery.step_congr EncodeSQL Query bv1 bv2 extras buf current loc
      (h loc (List.mem_cons_self _ _))]
    cases GenerateQuery.step EncodeSQL Query bv2 extras buf current loc with
    | panicked => rfl
    | returned e => rfl
    | running b c => exact ih b c (fun l hl => h l (List.mem_cons_of_mem _ hl))

theorem GenerateQuery_congr (EncodeSQL : ScalarEncoder) (pq : ParsedQuery)
    (bv1 bv2 : BindVars) (extras : Extras)
    (h : ∀ loc ∈ pq.bindLocations, extras (placeholder pq.Query loc) = none →
      bv1 (lookupKey (placeholder pq.Query loc)) = bv2 (lookupKey (placeholder pq.Query loc))) :
    pq.GenerateQuery EncodeSQL bv1 extras = pq.GenerateQuery EncodeSQL bv2 extras := by
  unfold ParsedQuery.GenerateQuery
  rw [GenerateQuery.loop_congr EncodeSQL pq.Query bv1 bv2 extras pq.bindLocations [] 0 h]

theorem GenerateQuery.step_extras (EncodeSQL : ScalarEncoder) (Query : Bytes)
    (bv : BindVars) (extras : Extras) (buf : Bytes) (current : Int)
    (loc : bindLocation) (h0 : 0 ≤ current) (h1 : current ≤ loc.offset) (h2 : 0 ≤ loc.length)
    (h3 : loc.offset + loc.length ≤ (Query.length : Int)) (e : Encodable)
    (he : extras (placeholder Query loc) = some e) :
    GenerateQuery.step EncodeSQL Query bv extras buf current loc =
      LoopState.running (buf ++ seg Query current loc.offset ++ e.sql)
        (loc.offset + loc.length) := by
  rw [GenerateQuery.step_in_bounds _ _ _ _ _ _ _ h0 h1 h2 h3, he]

/-- C4, amended: at a bind location (within the text) whose placeholder text is a key
of `extras`, the turn of the loop of `GenerateQuery` appends the text before
the placeholder and exactly what that `Encodable` writes, and goes on past the
placeholder, without error, whatever `bindVariables` is; and the result of
`GenerateQuery` does not change when `bindVariables` is changed at the key of
that placeholder (left out, bound to an empty tuple or to anything else), as
long as no placeholder that is not overridden resolves to the same key. -/
theorem GenerateQuery_override (EncodeSQL : ScalarEncoder) (pq : ParsedQuery)
    (extras : Extras) (loc : bindLocation) (e : Encodable)
    (_hloc : loc ∈ pq.bindLocations)
    (hin : 0 ≤ loc.offset ∧ 0 ≤ loc.length ∧ loc.offset + loc.length ≤ (pq.Query.length : Int))
    (he : extras (placeholder pq.Query loc) = some e) :
    (∀ (bv : BindVars) (buf : Bytes) (current : Int), 0 ≤ current → current ≤ loc.offset →
      GenerateQuery.step EncodeSQL pq.Query bv extras buf current loc
        = LoopState.running (buf ++ seg pq.Query current loc.offset ++ e.sql)
            (loc.offset + loc.length)) ∧
    ((∀ l ∈ pq.bindLocations, extras (placeholder pq.Query l) = none →
        lookupKey (placeholder pq.Query l) ≠ lookupKey (placeholder pq.Query loc)) →
      ∀ (bv : BindVars) (x : Option querypb.BindVariable),
        pq.GenerateQuery EncodeSQL
            (Function.update bv (lookupKey (placeholder pq.Query loc)) x) extras
          = pq.GenerateQuery EncodeSQL bv extras) := by
  constructor
  · intro bv buf current h0 h1
    exact GenerateQuery.step_extras _ _ _ _ _ _ _ h0 h1 hin.2.1 hin.2.2 e he
  · intro hother bv x
    apply GenerateQuery_congr
    intro l hl hex
    exact Function.update_noteq (hother l hl hex) x bv

theorem GenerateQuery_override_witness :
    (⟨4, 2⟩ : bindLocation) ∈ overridePQ.bindLocations ∧
    sampleExtras (placeholder overridePQ.Query ⟨4, 2⟩) = some ⟨str "Y"⟩ ∧
    GenerateQuery.step sampleEncodeSQL overridePQ.Query noVars sampleExtras [] 0 ⟨4, 2⟩
      = LoopState.running (str "x = Y") 6 ∧
    overridePQ.GenerateQuery sampleEncodeSQL
        (Function.update (Function.update noVars (str "b") (some (int64BV "7")))
          (str "$1") (some ⟨querypb.SqlType.Type_TUPLE, [], []⟩)) sampleExtras
      = some (some (str "x = Y and y = 7"), none) :=
  ⟨by decide, by decide,
   ((GenerateQuery_override sampleEncodeSQL overridePQ sampleExtras ⟨4, 2⟩ ⟨str "Y"⟩
      (by decide) (by decide) (by decide)).1 noVars [] 0 (by decide) (by decide)).trans
      (by decide),
   ((GenerateQuery_override sampleEncodeSQL overridePQ sampleExtras ⟨4, 2⟩ ⟨str "Y"⟩
      (by decide) (by decide) (by decide)).2 (by decide)
      (Function.update noVars (str "b") (some (int64BV "7")))
      (some ⟨querypb.SqlType.Type_TUPLE, [], []⟩)).trans (by decide)⟩

/-- C5 (amended): the override is looked up under the full placeholder text.
At a bind location (within the text) whose placeholder text is exactly `k`,
with `k` a key of `extras`, the turn of the loop of `GenerateQuery` writes what
`extras[k]` writes, whatever `bindVariables` binds `k` to. At a location whose
text is `:` followed by `k`, when `extras` has no key `:k`, the turn writes the
encoding of `bindVariables[k]` (a value `FetchBindVar` accepts), whether or not
`extras` has the key `k`. -/
theorem GenerateQuery_override_precedence (EncodeSQL : ScalarEncoder) (Query : Bytes)
    (bv : BindVars) (extras : Extras) (loc : bindLocation) (k : Bytes)
    (buf : Bytes) (current : Int) (h0 : 0 ≤ current) (h1 : current ≤ loc.offset)
    (h2 : 0 ≤ loc.length) (h3 : loc.offset + loc.length ≤ (Query.length : Int)) :
    (∀ e, placeholder Query loc = k → extras k = some e →
      GenerateQuery.step EncodeSQL Query bv extras buf current loc
        = LoopState.running (buf ++ seg Query current loc.offset ++ e.sql)
            (loc.offset + loc.length)) ∧
    (∀ v, placeholder Query loc = 58 :: k → extras (58 :: k) = none → bv k = some v →
      ¬ (v.Typ = querypb.SqlType.Type_TUPLE ∧ v.Values.length = 0) →
      GenerateQuery.step EncodeSQL Query bv extras buf current loc
        = LoopState.running (buf ++ seg Query current loc.offset ++ EncodeValue EncodeSQL [] v)
            (loc.offset + loc.length)) := by
  constructor
  · intro e hk he
    rw [← hk] at he
    exact GenerateQuery.step_extras _ _ _ _ _ _ _ h0 h1 h2 h3 e he
  · intro v hk he hv hnot
    rw [GenerateQuery.step_in_bounds _ _ _ _ _ _ _ h0 h1 h2 h3, hk, he]
    simp only []
    rw [FetchBindVar_cons]
    have hkey : lookupKey (58 :: k) = k := by simp [lookupKey]
    rw [hkey, hv]
    simp only [if_neg hnot]

theorem GenerateQuery_override_precedence_witness :
    colonPQ.bindLocations = [⟨0, 2⟩] ∧ (0 : Int) + 2 ≤ (colonPQ.Query.length : Int) ∧
    sampleExtras (str "a") = some ⟨str "X"⟩ ∧ sampleExtras (str ":a") = none ∧
    GenerateQuery.step sampleEncodeSQL colonPQ.Query sampleVars sampleExtras [] 0 ⟨0, 2⟩
      = LoopState.running (str "7") 2 :=
  ⟨by decide, by decide, by decide, by decide,
   ((GenerateQuery_override_precedence sampleEncodeSQL colonPQ.Query sampleVars sampleExtras
      ⟨0, 2⟩ (str "a") [] 0 (by decide) (by decide) (by decide) (by decide)).2
      (int64BV "7") (by decide) (by decide) (by decide) (by decide)).trans (by decide)⟩

/-- C5 (as stated) fails: `a` is a key of both `extras` and `bindVariables`,
the placeholder `:a` is resolved by `FetchBindVar` to `bindVariables[a]`, and
`GenerateQuery` renders it with the encoding of `bindVariables[a]`, `7`, not
with what `extras[a]` writes, `X`. -/
theorem GenerateQuery_override_ignored_for_colon_form :
    colonPQ.WellFormed ∧
    placeholder colonPQ.Query ⟨0, 2⟩ = 58 :: str "a" ∧
    sampleExtras (str "a") = some ⟨str "X"⟩ ∧
    sampleVars (str "a") = some (int64BV "7") ∧
    FetchBindVar (placeholder colonPQ.Query ⟨0, 2⟩) sampleVars
      = some (some (int64BV "7"), none) ∧
    colonPQ.GenerateQuery sampleEncodeSQL sampleVars sampleExtras
      = some (some (EncodeValue sampleEncodeSQL [] (int64BV "7")), none) ∧
    colonPQ.GenerateQuery sampleEncodeSQL sampleVars sampleExtras
      ≠ some (some (str "X"), none) := by
  decide

/-! ### The normalizer -/

theorem parseDecimal_foldl (xs : Bytes) : ∀ a : Nat,
    xs.foldl (fun a b => 10 * a + (b.toNat - 48)) a
      = a * 10 ^ xs.length + xs.foldl (fun a b => 10 * a + (b.toNat - 48)) 0 := by
  induction xs with
  | nil => intro a; simp
  | cons x rest ih =>
    intro a
    simp only [List.foldl_cons, List.length_cons]
    rw [ih (10 * a + (x.toNat - 48)), ih (10 * 0 + (x.toNat - 48))]
    ring

theorem digit_toNat (n : Nat) : (UInt8.ofNat (48 + n % 10)).toNat - 48 = n % 10 := by
  have h : n % 10 < 10 := Nat.mod_lt _ (by decide)
  have h2 : (UInt8.ofNat (48 + n % 10)).toNat = 48 + n % 10 := by
    show (48 + n % 10) % 256 = 48 + n % 10
    omega
  omega

theorem parseDecimal_decimalAux : ∀ (fuel n : Nat) (acc : Bytes), n < fuel →
    parseDecimal (decimalAux fuel n acc) = n * 10 ^ acc.length + parseDecimal acc := by
  intro fuel
  induction fuel with
  | zero => intro n acc h; omega
  | succ fuel ih =>
    intro n acc h
    unfold decimalAux
    by_cases h10 : n / 10 = 0
    · rw [if_pos h10]
      have hn : n % 10 = n := by omega
      unfold parseDecimal
      rw [List.foldl_cons, parseDecimal_foldl]
      simp only [Nat.mul_zero, Nat.zero_add]
      rw [digit_toNat, hn]
    · rw [if_neg h10]
      rw [ih (n / 10) _ (by omega)]
      unfold parseDecimal
      rw [List.foldl_cons, parseDecimal_foldl acc]
      simp only [Nat.mul_zero, Nat.zero_add, List.length_cons]
      rw [digit_toNat]
      have hdm : n = 10 * (n / 10) + n % 10 := (Nat.div_add_mod n 10).symm
      generalize n / 10 = q at *
      generalize n % 10 = r at *
      subst hdm
      ring

theorem parseDecimal_decimal (n : Nat) : parseDecimal (decimal n) = n := by
  unfold decimal
  rw [parseDecimal_decimalAux (n + 1) n [] (by omega)]
  simp [parseDecimal]

theorem bvName_injective (m n : Nat) (h : bvName m = bvName n) : m = n := by
  unfold bvName at h
  have h2 : decimal m = decimal n := by injection h
  have := congrArg parseDecimal h2
  rwa [parseDecimal_decimal, parseDecimal_decimal] at this

theorem le_nextUnused (reserved : List Bytes) : ∀ (fuel counter : Nat),
    counter ≤ nextUnused reserved fuel counter := by
  intro fuel
  induction fuel with
  | zero => intro c; exact le_refl _
  | succ fuel ih =>
    intro c
    unfold nextUnused
    split
    · exact le_trans (Nat.le_succ c) (ih (c + 1))
    · exact le_refl _


theorem nextUnused_fresh (reserved : List Bytes) :
    ∀ (fuel c : Nat) (l : List Bytes), l.Nodup → l ⊆ reserved →
      (∀ x ∈ l, ∃ i, i < c ∧ x = bvName i) →
      reserved.dedup.length ≤ l.length + fuel →
      bvName (nextUnused reserved fuel c) ∉ reserved := by
  intro fuel
  induction fuel with
  | zero =>
    intro c l hnd hsub hlt hlen hmem
    simp only [nextUnused] at hmem
    have hsub2 : l ⊆ reserved.dedup := fun x hx => List.mem_dedup.mpr (hsub hx)
    have hperm := (List.subperm_of_subset hnd hsub2).perm_of_length_le (by simpa using hlen)
    have hin : bvName c ∈ l := hperm.mem_iff.mpr (List.mem_dedup.mpr hmem)
    obtain ⟨i, hi, heq⟩ := hlt _ hin
    have := bvName_injective _ _ heq
    omega
  | succ fuel ih =>
    intro c l hnd hsub hlt hlen
    unfold nextUnused
    by_cases hc : bvName c ∈ reserved
    · rw [if_pos hc]
      have hnotin : bvName c ∉ l := by
        intro hin
        obtain ⟨i, hi, heq⟩ := hlt _ hin
        have := bvName_injective _ _ heq
        omega
      apply ih (c + 1) (bvName c :: l) (List.nodup_cons.mpr ⟨hnotin, hnd⟩)
      · intro x hx
        rcases List.mem_cons.mp hx with rfl | hx
        · exact hc
        · exact hsub hx
      · intro x hx
        rcases List.mem_cons.mp hx with rfl | hx
        · exact ⟨c, by omega, rfl⟩
        · obtain ⟨i, hi, heq⟩ := hlt x hx
          exact ⟨i, by omega, heq⟩
      · simp only [List.length_cons]; omega
    · rw [if_neg hc]
      exact hc

/-- The allocator has fuel enough: the name it returns is not a reserved one. -/
theorem normalizer.newName_not_reserved (nz : normalizer) : nz.newName.1 ∉ nz.reserved := by
  simp only [normalizer.newName]
  apply nextUnused_fresh nz.reserved nz.reserved.length nz.counter [] List.nodup_nil
    (List.nil_subset _) (fun x hx => absurd hx (List.not_mem_nil x))
  have := (List.dedup_sublist nz.reserved).length_le
  simpa using this

theorem lookupVal_mem : ∀ (vals : List ((querypb.SqlType × Bytes) × Bytes))
    (k : querypb.SqlType × Bytes) (nm : Bytes), lookupVal vals k = some nm → (k, nm) ∈ vals := by
  intro vals
  induction vals with
  | nil => intro k nm h; simp [lookupVal] at h
  | cons e rest ih =>
    intro k nm h
    obtain ⟨k1, n1⟩ := e
    unfold lookupVal at h
    by_cases hk : k1 = k
    · rw [if_pos hk] at h
      simp only [Option.some.injEq] at h
      subst hk h
      exact List.mem_cons_self _ _
    · rw [if_neg hk] at h
      exact List.mem_cons_of_mem _ (ih k nm h)

theorem lookupVal_none : ∀ (vals : List ((querypb.SqlType × Bytes) × Bytes))
    (k : querypb.SqlType × Bytes), lookupVal vals k = none → ∀ e ∈ vals, e.1 ≠ k := by
  intro vals
  induction vals with
  | nil => intro k _ e he; cases he
  | cons e0 rest ih =>
    intro k h e he
    obtain ⟨k1, n1⟩ := e0
    unfold lookupVal at h
    by_cases hk : k1 = k
    · rw [if_pos hk] at h; cases h
    · rw [if_neg hk] at h
      rcases List.mem_cons.mp he with rfl | he
      · exact hk
      · exact ih k h e he

theorem lookupVal_append : ∀ (vals : List ((querypb.SqlType × Bytes) × Bytes))
    (k : querypb.SqlType × Bytes) (x : (querypb.SqlType × Bytes) × Bytes),
    lookupVal (vals ++ [x]) k =
      match lookupVal vals k with
      | some nm => some nm
      | none => if x.1 = k then some x.2 else none := by
  intro vals
  induction vals with
  | nil => intro k x; simp [lookupVal]
  | cons e rest ih =>
    intro k x
    obtain ⟨k1, n1⟩ := e
    simp only [List.cons_append, lookupVal]
    by_cases hk : k1 = k
    · simp [hk]
    · simp only [if_neg hk]
      exact ih k x

theorem lookupVal_inj (vals : List ((querypb.SqlType × Bytes) × Bytes))
    (hpw : vals.Pairwise (fun a b => a.1 ≠ b.1 ∧ a.2 ≠ b.2))
    (k1 k2 : querypb.SqlType × Bytes) (nm : Bytes)
    (h1 : lookupVal vals k1 = some nm) (h2 : lookupVal vals k2 = some nm) : k1 = k2 := by
  have m1 := lookupVal_mem _ _ _ h1
  have m2 := lookupVal_mem _ _ _ h2
  by_contra hne
  have := List.Pairwise.forall_of_forall
    (R := fun a b : (querypb.SqlType × Bytes) × Bytes => a = b ∨ (a.1 ≠ b.1 ∧ a.2 ≠ b.2))
    (l := vals) ?_ ?_ ?_ m1 m2
  · rcases this with h | h
    · exact hne (congrArg Prod.fst h)
    · exact h.2 rfl
  · intro a b h
    rcases h with h | h
    · exact Or.inl h.symm
    · exact Or.inr ⟨fun e => h.1 e.symm, fun e => h.2 e.symm⟩
  · intro a _; exact Or.inl rfl
  · exact hpw.imp (fun h => Or.inr h)

theorem StrMap.keys_set {β : Type} : ∀ (m : StrMap β) (k : Bytes) (v : β) (n : Bytes),
    n ∈ (m.set k v).map Prod.fst ↔ n ∈ m.map Prod.fst ∨ n = k := by
  intro m
  induction m with
  | nil => intro k v n; simp [StrMap.set]
  | cons e rest ih =>
    intro k v n
    obtain ⟨k1, v1⟩ := e
    unfold StrMap.set
    by_cases hk : k1 = k
    · rw [if_pos hk]
      subst hk
      simp only [List.map_cons, List.mem_cons]
      tauto
    · rw [if_neg hk]
      simp only [List.map_cons, List.mem_cons, ih]
      tauto

theorem StrMap.nodup_set {β : Type} : ∀ (m : StrMap β) (k : Bytes) (v : β),
    (m.map Prod.fst).Nodup → ((m.set k v).map Prod.fst).Nodup := by
  intro m
  induction m with
  | nil => intro k v _; simp [StrMap.set]
  | cons e rest ih =>
    intro k v h
    obtain ⟨k1, v1⟩ := e
    unfold StrMap.set
    simp only [List.map_cons, List.nodup_cons] at h
    by_cases hk : k1 = k
    · rw [if_pos hk]
      subst hk
      simp only [List.map_cons, List.nodup_cons]
      exact h
    · rw [if_neg hk]
      simp only [List.map_cons, List.nodup_cons]
      refine ⟨?_, ih k v h.2⟩
      intro hmem
      rcases (StrMap.keys_set rest k v k1).mp hmem with h1 | h1
      · exact h.1 h1
      · exact hk h1

theorem classify_val (kind : LiteralKind) (val : Bytes) (key : querypb.SqlType × Bytes)
    (h : classify kind val = some key) : key.2 = val := by
  unfold classify at h
  cases kind with
  | integer =>
    simp only [] at h
    split at h
    · simp only [Option.some.injEq] at h; rw [← h]
    · cases h
  | float => simp only [Option.some.injEq] at h; rw [← h]
  | bytes => simp only [Option.some.injEq] at h; rw [← h]
  | hex => cases h


theorem Step.refl (nz : normalizer) (h : nz.Inv) : Step nz nz [] where
  inv := h
  counter_le := le_refl _
  lookup_mono := fun _ _ h => h
  vals_new := fun e he => Or.inl he
  entries := fun p hp => by cases hp
  unique_pw := List.Pairwise.nil
  keys := fun n => by simp

theorem Entry.lift (c0 c1 : Nat) (nz1 nz2 : normalizer) (qs : List Replacement)
    (p : Replacement) (hc : c0 ≤ c1) (hs : Step nz1 nz2 qs) (hp : Entry c1 nz1 p) :
    Entry c0 nz2 p := by
  obtain ⟨n, hn, hname, hrest⟩ := hp
  refine ⟨n, lt_of_lt_of_le hn hs.counter_le, hname, ?_⟩
  have hfresh : ∀ e ∈ nz2.vals, (∀ e1 ∈ nz1.vals, e1.2 ≠ p.2) → e.2 ≠ p.2 := by
    intro e he hold
    rcases hs.vals_new e he with h1 | ⟨m, hm, hem⟩
    · exact hold e h1
    · rw [hem, hname]
      intro heq
      have := bvName_injective _ _ heq
      omega
  rcases hsrc : p.1 with _ | ⟨kind, val⟩
  · rw [hsrc] at hrest
    simp only [] at hrest ⊢
    exact ⟨le_trans hc hrest.1, fun e he => hfresh e he hrest.2⟩
  · rw [hsrc] at hrest
    simp only [] at hrest ⊢
    obtain ⟨t, hcl, hcase⟩ := hrest
    refine ⟨t, hcl, ?_⟩
    rcases hcase with ⟨hlen, hlook⟩ | ⟨hlen, hcn, hnot⟩
    · exact Or.inl ⟨hlen, hs.lookup_mono _ _ hlook⟩
    · exact Or.inr ⟨hlen, le_trans hc hcn, fun e he => hfresh e he hnot⟩

theorem Entry.weaken (c0 c1 : Nat) (nz2 : normalizer) (p : Replacement)
    (hc : c0 ≤ c1) (hp : Entry c1 nz2 p) : Entry c0 nz2 p := by
  obtain ⟨n, hn, hname, hrest⟩ := hp
  refine ⟨n, hn, hname, ?_⟩
  rcases hsrc : p.1 with _ | ⟨kind, val⟩
  · rw [hsrc] at hrest
    simp only [] at hrest ⊢
    exact ⟨le_trans hc hrest.1, hrest.2⟩
  · rw [hsrc] at hrest
    simp only [] at hrest ⊢
    obtain ⟨t, hcl, hcase⟩ := hrest
    refine ⟨t, hcl, ?_⟩
    rcases hcase with h | ⟨hlen, hcn, hnot⟩
    · exact Or.inl h
    · exact Or.inr ⟨hlen, le_trans hc hcn, hnot⟩

theorem Entry.unique_fresh (c : Nat) (nz1 : normalizer) (p : Replacement)
    (hp : Entry c nz1 p) (hu : IsUnique p) :
    ∃ n, c ≤ n ∧ p.2 = bvName n ∧ ∀ e ∈ nz1.vals, e.2 ≠ p.2 := by
  obtain ⟨n, _, hname, hrest⟩ := hp
  unfold IsUnique at hu
  rcases hsrc : p.1 with _ | ⟨kind, val⟩
  · rw [hsrc] at hrest
    simp only [] at hrest
    exact ⟨n, hrest.1, hname, hrest.2⟩
  · rw [hsrc] at hrest hu
    simp only [] at hrest hu
    obtain ⟨t, _, hcase⟩ := hrest
    rcases hcase with ⟨hlen, _⟩ | ⟨_, hcn, hnot⟩
    · omega
    · exact ⟨n, hcn, hname, hnot⟩

theorem Entry.shared_mem (c : Nat) (nz1 : normalizer) (p : Replacement)
    (hp : Entry c nz1 p) (hu : ¬ IsUnique p) : ∃ e ∈ nz1.vals, e.2 = p.2 := by
  obtain ⟨n, _, _, hrest⟩ := hp
  unfold IsUnique at hu
  rcases hsrc : p.1 with _ | ⟨kind, val⟩
  · rw [hsrc] at hu; exact absurd trivial hu
  · rw [hsrc] at hrest hu
    simp only [] at hrest hu
    obtain ⟨t, _, hcase⟩ := hrest
    rcases hcase with ⟨_, hlook⟩ | ⟨hlen, _, _⟩
    · exact ⟨_, lookupVal_mem _ _ _ hlook, rfl⟩
    · omega

theorem Step.trans (a b c : normalizer) (ps qs : List Replacement)
    (h1 : Step a b ps) (h2 : Step b c qs) : Step a c (ps ++ qs) where
  inv := h2.inv
  counter_le := le_trans h1.counter_le h2.counter_le
  lookup_mono := fun k nm h => h2.lookup_mono k nm (h1.lookup_mono k nm h)
  vals_new := by
    intro e he
    rcases h2.vals_new e he with h | ⟨n, hn, hen⟩
    · exact h1.vals_new e h
    · exact Or.inr ⟨n, le_trans h1.counter_le hn, hen⟩
  entries := by
    intro p hp
    rcases List.mem_append.mp hp with hp | hp
    · exact Entry.lift _ _ _ _ _ _ (le_refl _) h2 (h1.entries p hp)
    · exact Entry.weaken _ _ _ _ h1.counter_le (h2.entries p hp)
  unique_pw := by
    rw [List.pairwise_append]
    refine ⟨h1.unique_pw, h2.unique_pw, ?_⟩
    intro p hp q hq hu
    have hpe := h1.entries p hp
    have hqe := h2.entries q hq
    by_cases hqu : IsUnique q
    · obtain ⟨m, hm, hqn, _⟩ := Entry.unique_fresh _ _ _ hqe hqu
      obtain ⟨n, hn, hpn, _⟩ := hpe
      rw [hpn, hqn]
      intro heq
      have := bvName_injective _ _ heq
      omega
    · have hpu : IsUnique p := by tauto
      obtain ⟨e, he, heq⟩ := Entry.shared_mem _ _ _ hqe hqu
      have hpl := Entry.lift _ _ _ _ _ _ (le_refl _) h2 hpe
      obtain ⟨_, _, _, hnot⟩ := Entry.unique_fresh _ _ _ hpl hpu
      intro h
      exact hnot e he (heq.trans h.symm)
  keys := by
    intro n
    rw [h2.keys n, h1.keys n]
    simp only [List.map_append, List.mem_append]
    tauto


theorem normalizer.Inv.name_ne (nz : normalizer) (h : nz.Inv) (n : Nat) (hn : nz.counter ≤ n) :
    ∀ e ∈ nz.vals, e.2 ≠ bvName n := by
  intro e he heq
  obtain ⟨m, hm, hem⟩ := h.vals_lt e he
  rw [hem] at heq
  have := bvName_injective _ _ heq
  omega

/-- A name allocated for a source that is never shared: a long literal or a
collapsed list. -/
theorem Step.fresh (nz : normalizer) (h : nz.Inv) (n : Nat) (hn : nz.counter ≤ n)
    (bval : querypb.BindVariable) (src : Option (LiteralKind × Bytes))
    (hsrc : match src with
      | some (kind, val) => ∃ t, classify kind val = some (t, val) ∧ 256 < val.length
      | none => True) :
    Step nz { nz with counter := n + 1, bindVars := nz.bindVars.set (bvName n) bval }
      [(src, bvName n)] where
  inv := {
    vals_lt := by
      intro e he
      obtain ⟨m, hm, hem⟩ := h.vals_lt e he
      exact ⟨m, by simp only []; omega, hem⟩
    vals_pw := h.vals_pw
    keys_nodup := StrMap.nodup_set _ _ _ h.keys_nodup }
  counter_le := by simp only []; omega
  lookup_mono := fun _ _ h => h
  vals_new := fun e he => Or.inl he
  entries := by
    intro p hp
    simp only [List.mem_singleton] at hp
    subst hp
    refine ⟨n, by simp only []; omega, rfl, ?_⟩
    cases src with
    | none => exact ⟨hn, normalizer.Inv.name_ne nz h n hn⟩
    | some kv =>
      obtain ⟨kind, val⟩ := kv
      simp only [] at hsrc ⊢
      obtain ⟨t, hcl, hlen⟩ := hsrc
      exact ⟨t, hcl, Or.inr ⟨hlen, hn, normalizer.Inv.name_ne nz h n hn⟩⟩
  unique_pw := List.pairwise_singleton _ _
  keys := by
    intro m
    simp only [StrMap.keys_set, List.map_cons, List.map_nil, List.mem_singleton]

/-- A name allocated for a short literal seen for the first time. -/
theorem Step.record (nz : normalizer) (h : nz.Inv) (n : Nat) (hn : nz.counter ≤ n)
    (kind : LiteralKind) (val : Bytes) (t : querypb.SqlType)
    (hcl : classify kind val = some (t, val)) (hlen : val.length ≤ 256)
    (hnone : lookupVal nz.vals (t, val) = none) (bval : querypb.BindVariable) :
    Step nz { nz with counter := n + 1, vals := nz.vals ++ [((t, val), bvName n)],
                      bindVars := nz.bindVars.set (bvName n) bval }
      [(some (kind, val), bvName n)] where
  inv := {
    vals_lt := by
      intro e he
      simp only [List.mem_append, List.mem_singleton] at he
      rcases he with he | he
      · obtain ⟨m, hm, hem⟩ := h.vals_lt e he
        exact ⟨m, by simp only []; omega, hem⟩
      · subst he
        exact ⟨n, by simp only []; omega, rfl⟩
    vals_pw := by
      simp only [List.pairwise_append, List.pairwise_singleton, List.mem_singleton, true_and]
      refine ⟨h.vals_pw, ?_⟩
      intro a ha b hb
      subst hb
      exact ⟨lookupVal_none _ _ hnone a ha, normalizer.Inv.name_ne nz h n hn a ha⟩
    keys_nodup := StrMap.nodup_set _ _ _ h.keys_nodup }
  counter_le := by simp only []; omega
  lookup_mono := by
    intro k nm hk
    simp only [lookupVal_append, hk]
  vals_new := by
    intro e he
    simp only [List.mem_append, List.mem_singleton] at he
    rcases he with he | he
    · exact Or.inl he
    · subst he
      exact Or.inr ⟨n, hn, rfl⟩
  entries := by
    intro p hp
    simp only [List.mem_singleton] at hp
    subst hp
    refine ⟨n, by simp only []; omega, rfl, t, hcl, Or.inl ⟨hlen, ?_⟩⟩
    simp only [lookupVal_append, hnone, if_true]
  unique_pw := List.pairwise_singleton _ _
  keys := by
    intro m
    simp only [StrMap.keys_set, List.map_cons, List.map_nil, List.mem_singleton]

/-- A short literal whose key is in the table reuses the recorded name. -/
theorem Step.reuse (nz : normalizer) (h : nz.Inv)
    (kind : LiteralKind) (val : Bytes) (t : querypb.SqlType)
    (hcl : classify kind val = some (t, val)) (hlen : val.length ≤ 256) (name : Bytes)
    (hsome : lookupVal nz.vals (t, val) = some name) (bval : querypb.BindVariable) :
    Step nz { nz with bindVars := nz.bindVars.set name bval } [(some (kind, val), name)] where
  inv := ⟨h.vals_lt, h.vals_pw, StrMap.nodup_set _ _ _ h.keys_nodup⟩
  counter_le := le_refl _
  lookup_mono := fun _ _ h => h
  vals_new := fun e he => Or.inl he
  entries := by
    intro p hp
    simp only [List.mem_singleton] at hp
    subst hp
    obtain ⟨m, hm, hem⟩ := h.vals_lt _ (lookupVal_mem _ _ _ hsome)
    exact ⟨m, hm, hem, t, hcl, Or.inl ⟨hlen, hsome⟩⟩
  unique_pw := List.pairwise_singleton _ _
  keys := by
    intro m
    simp only [StrMap.keys_set, List.map_cons, List.map_nil, List.mem_singleton]

theorem Step.convertLiteral (nz : normalizer) (h : nz.Inv) (kind : LiteralKind) (val : Bytes) :
    Step nz (nz.convertLiteral true kind val).2
      (replaced (SQLNode.literal kind val) (nz.convertLiteral true kind val).1) ∧
    (replaced (SQLNode.literal kind val) (nz.convertLiteral true kind val).1).map Prod.fst
      = substitutable (SQLNode.literal kind val) := by
  unfold normalizer.convertLiteral
  cases hcl : classify kind val with
  | none =>
    simp only [replaced, substitutable, hcl]
    exact ⟨Step.refl nz h, by simp⟩
  | some key =>
    obtain ⟨t, v⟩ := key
    have hv : v = val := classify_val kind val (t, v) hcl
    subst hv
    simp only [substitutable, hcl, Option.isSome_some, if_true]
    by_cases hlen : v.length ≤ 256
    · simp only [hlen, and_self, if_true]
      cases hl : lookupVal nz.vals (t, v) with
      | some name =>
        simp only [replaced, List.map_cons, List.map_nil, and_true]
        exact Step.reuse nz h kind v t hcl hlen name hl _
      | none =>
        simp only [replaced, normalizer.newName, List.map_cons, List.map_nil, and_true]
        exact Step.record nz h _ (le_nextUnused _ _ _) kind v t hcl hlen hl _
    · simp only [hlen, and_false, if_false]
      simp only [replaced, normalizer.newName, List.map_cons, List.map_nil, and_true]
      exact Step.fresh nz h _ (le_nextUnused _ _ _) _ (some (kind, v))
        ⟨t, hcl, by omega⟩


theorem listValues_some (right : SQLNode) (vs : List querypb.Value)
    (h : listValues right = some vs) : ∃ elems, right = SQLNode.tuple elems := by
  cases right <;> simp [listValues] at h
  exact ⟨_, rfl⟩

theorem normalizer.walk_step (node : SQLNode) :
    ∀ nz : normalizer, nz.Inv →
      Step nz (normalizer.walk true node nz).2 (replaced node (normalizer.walk true node nz).1) ∧
      (replaced node (normalizer.walk true node nz).1).map Prod.fst = substitutable node := by
  induction node using SQLNode.rec
    (motive_2 := fun l => ∀ nz : normalizer, nz.Inv →
      Step nz (normalizer.walkList true l nz).2
        (replacedList l (normalizer.walkList true l nz).1) ∧
      (replacedList l (normalizer.walkList true l nz).1).map Prod.fst = substitutableList l) with
  | text t =>
    intro nz h
    simp only [normalizer.walk, replaced, substitutable]
    exact ⟨Step.refl nz h, rfl⟩
  | literal kind val =>
    intro nz h
    simp only [normalizer.walk]
    exact Step.convertLiteral nz h kind val
  | bindRef name =>
    intro nz h
    simp only [normalizer.walk, replaced, substitutable]
    exact ⟨Step.refl nz h, rfl⟩
  | listRef name =>
    intro nz h
    simp only [normalizer.walk, replaced, substitutable]
    exact ⟨Step.refl nz h, rfl⟩
  | tuple elems ih =>
    intro nz h
    simp only [normalizer.walk, replaced, substitutable]
    exact ih nz h
  | inPredicate negated left right ihl ihr =>
    intro nz h
    obtain ⟨hsl, hml⟩ := ihl nz h
    simp only [normalizer.walk, substitutable]
    cases hlv : listValues right with
    | some vs =>
      obtain ⟨elems, hr⟩ := listValues_some right vs hlv
      subst hr
      simp only [replaced, normalizer.newName, List.map_append, hml, Option.isSome_some,
        if_true, List.map_cons, List.map_nil]
      refine ⟨?_, trivial⟩
      exact Step.trans _ _ _ _ _ hsl
        (Step.fresh _ hsl.inv _ (le_nextUnused _ _ _) _ none trivial)
    | none =>
      obtain ⟨hsr, hmr⟩ := ihr (normalizer.walk true left nz).2 hsl.inv
      simp only [replaced, List.map_append, hml, hmr, Option.isSome_none, Bool.false_eq_true,
        if_false]
      exact ⟨Step.trans _ _ _ _ _ hsl hsr, trivial⟩
  | subquery body ih =>
    intro nz h
    simp only [normalizer.walk, replaced, substitutable]
    exact ih nz h
  | other children ih =>
    intro nz h
    simp only [normalizer.walk, replaced, substitutable]
    exact ih nz h
  | nil =>
    rename_i nz h
    simp only [normalizer.walkList, replacedList, substitutableList]
    exact ⟨Step.refl nz h, rfl⟩
  | cons n rest ihn ihr =>
    rename_i nz h
    obtain ⟨hsn, hmn⟩ := ihn nz h
    obtain ⟨hsr, hmr⟩ := ihr (normalizer.walk true n nz).2 hsn.inv
    simp only [normalizer.walkList, replacedList, substitutableList, List.map_append, hmn, hmr]
    exact ⟨Step.trans _ _ _ _ _ hsn hsr, trivial⟩


theorem Entry.pair_iff (c : Nat) (nz1 : normalizer) (hinv : nz1.Inv) (p q : Replacement)
    (hp : Entry c nz1 p) (hq : Entry c nz1 q)
    (hu : (IsUnique p ∨ IsUnique q) → p.2 ≠ q.2)
    (k1 : LiteralKind) (v1 : Bytes) (k2 : LiteralKind) (v2 : Bytes)
    (h1 : p.1 = some (k1, v1)) (h2 : q.1 = some (k2, v2)) :
    ∃ t1 t2, classify k1 v1 = some (t1, v1) ∧ classify k2 v2 = some (t2, v2) ∧
      (p.2 = q.2 ↔ (t1 = t2 ∧ v1 = v2 ∧ v1.length ≤ 256)) := by
  obtain ⟨n1, _, _, hr1⟩ := hp
  obtain ⟨n2, _, _, hr2⟩ := hq
  rw [h1] at hr1
  rw [h2] at hr2
  simp only [] at hr1 hr2
  obtain ⟨t1, hc1, hcase1⟩ := hr1
  obtain ⟨t2, hc2, hcase2⟩ := hr2
  refine ⟨t1, t2, hc1, hc2, ?_⟩
  have hu1 : IsUnique p ↔ 256 < v1.length := by unfold IsUnique; rw [h1]
  have hu2 : IsUnique q ↔ 256 < v2.length := by unfold IsUnique; rw [h2]
  rcases hcase1 with ⟨hl1, hlook1⟩ | ⟨hl1, _, _⟩
  · rcases hcase2 with ⟨hl2, hlook2⟩ | ⟨hl2, _, _⟩
    · constructor
      · intro hname
        rw [hname] at hlook1
        have := lookupVal_inj _ hinv.vals_pw _ _ _ hlook1 hlook2
        simp only [Prod.mk.injEq] at this
        exact ⟨this.1, this.2, hl1⟩
      · rintro ⟨ht, hv, _⟩
        subst ht hv
        rw [hlook1] at hlook2
        simpa using hlook2
    · have hne := hu (Or.inr (hu2.mpr hl2))
      constructor
      · intro h; exact absurd h hne
      · rintro ⟨_, hv, _⟩
        subst hv
        omega
  · have hne := hu (Or.inl (hu1.mpr hl1))
    constructor
    · intro h; exact absurd h hne
    · rintro ⟨_, _, hl⟩
      omega

theorem replacements_select_pairwise (body : List SQLNode) :
    (replacements ⟨StatementKind.select, body⟩).Pairwise (fun p q =>
      ((p.1 = none ∨ q.1 = none) → p.2 ≠ q.2) ∧
      ∀ k1 v1 k2 v2, p.1 = some (k1, v1) → q.1 = some (k2, v2) →
        ∃ t1 t2, classify k1 v1 = some (t1, v1) ∧ classify k2 v2 = some (t2, v2) ∧
          (p.2 = q.2 ↔ (t1 = t2 ∧ v1 = v2 ∧ v1.length ≤ 256))) := by
  have hinit : normalizer.Inv ⟨GetBindvars ⟨StatementKind.select, body⟩, 1, [], []⟩ :=
    ⟨fun e he => absurd he (List.not_mem_nil e), List.Pairwise.nil, List.nodup_nil⟩
  obtain ⟨hstep, _⟩ := (normalizer.walk_step (SQLNode.other body)) _ hinit
  simp only [normalizer.walk, replaced] at hstep
  have hrep : replacements ⟨StatementKind.select, body⟩ =
      replacedList body (normalizer.walkList true body
        ⟨GetBindvars ⟨StatementKind.select, body⟩, 1, [], []⟩).1 := by
    simp [replacements, Normalize]
  rw [hrep]
  have hpw := (List.Pairwise.and_mem).mp hstep.unique_pw
  refine hpw.imp ?_
  rintro p q ⟨hp, hq, hu⟩
  refine ⟨?_, ?_⟩
  · rintro (h | h)
    · exact hu (Or.inl (by unfold IsUnique; rw [h]; trivial))
    · exact hu (Or.inr (by unfold IsUnique; rw [h]; trivial))
  · intro k1 v1 k2 v2 h1 h2
    exact Entry.pair_iff _ _ hstep.inv p q (hstep.entries p hp) (hstep.entries q hq) hu
      k1 v1 k2 v2 h1 h2

/-- C10, amended: in a select statement normalized into a fresh map, every
substitutable literal that is not an element of a collapsed `IN` list is
replaced by a reference, and every collapsed list by one reference; two such
literals get the same name iff they have the same type tag and identical raw
bytes of length at most 256 (so equal literals of 257 bytes or more get
different names, and an integer and a string with the same bytes get different
names); the name of a collapsed list is the name of no other replacement; and
the output map has exactly one entry for each name given out. -/
theorem Normalize_dedup (body : List SQLNode) :
    (replacements ⟨StatementKind.select, body⟩).map Prod.fst = substitutableList body ∧
    (replacements ⟨StatementKind.select, body⟩).Pairwise (fun p q =>
      ((p.1 = none ∨ q.1 = none) → p.2 ≠ q.2) ∧
      ∀ k1 v1 k2 v2, p.1 = some (k1, v1) → q.1 = some (k2, v2) →
        ∃ t1 t2, classify k1 v1 = some (t1, v1) ∧ classify k2 v2 = some (t2, v2) ∧
          (p.2 = q.2 ↔ (t1 = t2 ∧ v1 = v2 ∧ v1.length ≤ 256))) ∧
    ((Normalize ⟨StatementKind.select, body⟩ []).2.map Prod.fst).Nodup ∧
    (∀ name, name ∈ (Normalize ⟨StatementKind.select, body⟩ []).2.map Prod.fst ↔
      name ∈ (replacements ⟨StatementKind.select, body⟩).map Prod.snd) := by
  have hinit : normalizer.Inv ⟨GetBindvars ⟨StatementKind.select, body⟩, 1, [], []⟩ :=
    ⟨fun e he => absurd he (List.not_mem_nil e), List.Pairwise.nil, List.nodup_nil⟩
  obtain ⟨hstep, hsrc⟩ := (normalizer.walk_step (SQLNode.other body)) _ hinit
  simp only [normalizer.walk, replaced, substitutable] at hstep hsrc
  have hrep : replacements ⟨StatementKind.select, body⟩ =
      replacedList body (normalizer.walkList true body
        ⟨GetBindvars ⟨StatementKind.select, body⟩, 1, [], []⟩).1 := by
    simp [replacements, Normalize]
  have hmap : (Normalize ⟨StatementKind.select, body⟩ []).2 =
      (normalizer.walkList true body
        ⟨GetBindvars ⟨StatementKind.select, body⟩, 1, [], []⟩).2.bindVars := by
    simp [Normalize]
  refine ⟨by rw [hrep]; exact hsrc, replacements_select_pairwise body, ?_, ?_⟩
  · rw [hmap]
    exact hstep.inv.keys_nodup
  · intro name
    rw [hrep, hmap, hstep.keys name]
    simp


/-- The model of `Normalize` on inputs of `normalizer_test.go`: a value is
reused within a select, an integer and a string differ, a name already present
is skipped, a subquery of a mutation shares names while its top level does
not, and a list of literals is collapsed. -/
theorem Normalize_test_cases :
    (Normalize reuseStmt []).1.String sampleFormat
      = str "select * from t where v1 = $1 and v2 = $2 and v3 = $1" ∧
    (Normalize reuseStmt []).2
      = [(str "$1", ⟨querypb.SqlType.Type_INT64, str "1", []⟩),
         (str "$2", ⟨querypb.SqlType.Type_VARBINARY, str "1", []⟩)] ∧
    (Normalize collisionStmt []).1.String sampleFormat
      = str "select * from t where v1 = $1 and v2 = $2" ∧
    (Normalize collisionStmt []).2 = [(str "$2", ⟨querypb.SqlType.Type_INT64, str "1", []⟩)] ∧
    (Normalize updateStmt []).1.String sampleFormat
      = str "update a set v1 = (select $1 from t), v2 = $2, v3 = (select $1 from t), v4 = $3" ∧
    (Normalize notInStmt []).1.String sampleFormat
      = str "select * from t where v1 not in $1" ∧
    (Normalize notInStmt []).2
      = [(str "$1", ⟨querypb.SqlType.Type_TUPLE, [],
          [⟨querypb.SqlType.Type_INT64, str "1"⟩, ⟨querypb.SqlType.Type_VARBINARY, str "2"⟩]⟩)] ∧
    (Normalize mixedInStmt []).1.String sampleFormat
      = str "select * from t where v1 in ($1, a)" := by
  decide

/-- The model of `Normalize` on further inputs of `normalizer_test.go`: no
reuse at the top level of an insert, a list of a mutation is collapsed, a
hexadecimal literal and an integer beyond 64 bits are left alone. -/
theorem Normalize_more_test_cases :
    (Normalize insertStmt []).1.String sampleFormat = str "insert into a values ($1, $2)" ∧
    (Normalize insertStmt []).2
      = [(str "$1", ⟨querypb.SqlType.Type_INT64, str "1", []⟩),
         (str "$2", ⟨querypb.SqlType.Type_INT64, str "1", []⟩)] ∧
    (Normalize updateInStmt []).1.String sampleFormat
      = str "update a set v1 = $1 where v2 in $2" ∧
    (Normalize unsupportedStmt []).1.String sampleFormat
      = str "select * from t where v1 = 0x1234 and v2 = 12345678901234567890 and v3 = $1" := by
  decide

set_option maxRecDepth 20000 in
/-- The model of `Normalize` on the inputs of `normalizer_test.go` about the
length limit: values up to 256 bytes are reused, longer ones are not. -/
theorem Normalize_length_test_cases :
    (Normalize (twiceStmt (padded 256)) []).1.String sampleFormat
      = str "select * from t where v1 = $1 and v2 = $1" ∧
    (Normalize (twiceStmt (padded 257)) []).1.String sampleFormat
      = str "select * from t where v1 = $1 and v2 = $2" := by
  decide

/-! ### Generate after Compile after Normalize -/

theorem textOf_append (l1 l2 : List Token) : textOf (l1 ++ l2) = textOf l1 ++ textOf l2 := by
  induction l1 with
  | nil => rfl
  | cons tok rest ih => simp [textOf, ih]

theorem expandToks_append (EncodeSQL : ScalarEncoder) (bv : BindVars) (l1 l2 : List Token)
    (a b : Bytes) (h1 : expandToks EncodeSQL bv l1 = some a)
    (h2 : expandToks EncodeSQL bv l2 = some b) :
    expandToks EncodeSQL bv (l1 ++ l2) = some (a ++ b) := by
  induction l1 generalizing a with
  | nil =>
    simp only [expandToks, Option.some.injEq] at h1
    subst h1
    simpa using h2
  | cons tok rest ih =>
    simp only [List.cons_append, expandToks] at h1 ⊢
    cases ht : expandTok EncodeSQL bv tok with
    | none => rw [ht] at h1; cases h1
    | some x =>
      rw [ht] at h1
      cases hr : expandToks EncodeSQL bv rest with
      | none => rw [hr] at h1; cases h1
      | some y =>
        rw [hr] at h1
        simp only [Option.some.injEq] at h1
        subst h1
        have hih := ih y hr
        simp only [List.append_eq] at hih ⊢
        rw [hih]
        simp

theorem foldl_write (toks : List Token) : ∀ b : TrackedBuffer,
    toks.foldl TrackedBuffer.write b
      = ⟨b.buf ++ textOf toks, b.bindLocations ++ locsOf toks b.buf.length⟩ := by
  induction toks with
  | nil => intro b; simp [textOf, locsOf]
  | cons tok rest ih =>
    intro b
    cases tok with
    | text t =>
      simp only [List.foldl_cons, TrackedBuffer.write, TrackedBuffer.WriteString, ih, textOf,
        Token.written, locsOf, List.length_append, List.append_assoc]
    | arg name =>
      simp only [List.foldl_cons, TrackedBuffer.write, TrackedBuffer.WriteArg, ih, textOf,
        Token.written, locsOf, List.length_append, List.append_assoc, List.singleton_append]

theorem seg_nat (s : Bytes) (a b : Nat) :
    seg s (a : Int) (b : Int) = (s.drop a).take (b - a) := by
  simp [seg]

theorem seg_split (s : Bytes) (a b c : Nat) (hab : a ≤ b) (hbc : b ≤ c) :
    seg s (a : Int) (c : Int) = seg s (a : Int) (b : Int) ++ seg s (b : Int) (c : Int) := by
  rw [seg_nat, seg_nat, seg_nat]
  have h1 : c - a = (b - a) + (c - b) := by omega
  rw [h1, List.take_add]
  congr 2
  rw [List.drop_drop]
  congr 1
  omega

theorem seg_mid (pre t suf : Bytes) :
    seg (pre ++ t ++ suf) (pre.length : Int) ((pre.length + t.length : Nat) : Int) = t := by
  rw [seg_nat]
  simp

theorem seg_to_end (s : Bytes) (a : Nat) : seg s (a : Int) (s.length : Int) = s.drop a := by
  rw [seg_nat]
  apply List.take_of_length_le
  simp

theorem expandToks_cons (EncodeSQL : ScalarEncoder) (bv : BindVars) (tok : Token)
    (rest : List Token) (out : Bytes)
    (h : expandToks EncodeSQL bv (tok :: rest) = some out) :
    ∃ a b, expandTok EncodeSQL bv tok = some a ∧ expandToks EncodeSQL bv rest = some b ∧
      out = a ++ b := by
  simp only [expandToks] at h
  cases ht : expandTok EncodeSQL bv tok with
  | none => rw [ht] at h; cases h
  | some x =>
    rw [ht] at h
    cases hr : expandToks EncodeSQL bv rest with
    | none => rw [hr] at h; cases h
    | some y =>
      rw [hr] at h
      simp only [Option.some.injEq] at h
      exact ⟨x, y, rfl, rfl, h.symm⟩

theorem expandTok_arg (EncodeSQL : ScalarEncoder) (bv : BindVars) (name a : Bytes)
    (h : expandTok EncodeSQL bv (Token.arg name) = some a) :
    ∃ v, FetchBindVar name bv = some (some v, none) ∧ a = EncodeValue EncodeSQL [] v := by
  simp only [expandTok] at h
  rcases hf : FetchBindVar name bv with _ | ⟨_ | v, _ | e⟩ <;> rw [hf] at h <;>
    simp only [Option.some.injEq, reduceCtorEq] at h
  exact ⟨v, rfl, h.symm⟩

/-- The loop of `GenerateQuery` over the locations captured while tokens were
written at offset `|pre|` of the text: it runs through, and the buffer then
holds what it held, the text up to `|pre|` and the tokens with their
references resolved, short of the text from `current` on. -/
theorem GenerateQuery.loop_tokens (EncodeSQL : ScalarEncoder) (bv : BindVars) :
    ∀ (toks : List Token) (Query pre suf buf : Bytes) (cur : Nat) (out : Bytes),
      Query = pre ++ textOf toks ++ suf →
      expandToks EncodeSQL bv toks = some out →
      cur ≤ pre.length →
      ∃ (buf1 : Bytes) (cur1 : Nat),
        GenerateQuery.loop EncodeSQL Query bv noExtras (locsOf toks pre.length) buf (cur : Int)
          = LoopState.running buf1 (cur1 : Int) ∧
        cur1 ≤ pre.length + (textOf toks).length ∧
        buf1 ++ seg Query (cur1 : Int) ((pre.length + (textOf toks).length : Nat) : Int)
          = buf ++ seg Query (cur : Int) (pre.length : Int) ++ out := by
  intro toks
  induction toks with
  | nil =>
    intro Query pre suf buf cur out hQ hout hcur
    simp only [expandToks, Option.some.injEq] at hout
    subst hout
    exact ⟨buf, cur, rfl, by simp [textOf]; exact hcur, by simp [textOf]⟩
  | cons tok rest ih =>
    intro Query pre suf buf cur out hQ hout hcur
    obtain ⟨a, b, ha, hb, hab⟩ := expandToks_cons _ _ _ _ _ hout
    subst hab
    cases tok with
    | text t =>
      simp only [expandTok, Option.some.injEq] at ha
      subst ha
      have hQ2 : Query = (pre ++ t) ++ textOf rest ++ suf := by
        rw [hQ]; simp [textOf, Token.written]
      obtain ⟨buf1, cur1, hloop, hc1, heq⟩ :=
        ih Query (pre ++ t) suf buf cur b hQ2 hb (by simp; omega)
      refine ⟨buf1, cur1, ?_, ?_, ?_⟩
      · simpa [locsOf] using hloop
      · simp only [textOf, Token.written, List.length_append] at hc1 ⊢; omega
      · have hlen : pre.length + (textOf (Token.text t :: rest)).length
            = (pre ++ t).length + (textOf rest).length := by
          simp [textOf, Token.written]; omega
        rw [hlen, heq]
        have hsplit := seg_split Query cur pre.length (pre ++ t).length hcur (by simp)
        have hmid : seg Query (pre.length : Int) ((pre ++ t).length : Int) = t := by
          rw [hQ2]
          have := seg_mid pre t (textOf rest ++ suf)
          simpa [List.append_assoc] using this
        rw [hsplit, hmid]
        simp
    | arg name =>
      obtain ⟨v, hfetch, hav⟩ := expandTok_arg _ _ _ _ ha
      subst hav
      have hQ2 : Query = (pre ++ name) ++ textOf rest ++ suf := by
        rw [hQ]; simp [textOf, Token.written]
      have hQlen : pre.length + name.length ≤ Query.length := by
        rw [hQ2]; simp
      have hph : placeholder Query ⟨(pre.length : Int), (name.length : Int)⟩ = name := by
        unfold placeholder
        simp only []
        rw [hQ2]
        have := seg_mid pre name (textOf rest ++ suf)
        simpa [List.append_assoc] using this
      have hstep : GenerateQuery.step EncodeSQL Query bv noExtras buf (cur : Int)
          ⟨(pre.length : Int), (name.length : Int)⟩
          = LoopState.running
              (buf ++ seg Query (cur : Int) (pre.length : Int) ++ EncodeValue EncodeSQL [] v)
              (((pre ++ name).length : Nat) : Int) := by
        rw [GenerateQuery.step_in_bounds _ _ _ _ _ _ _ (by omega) (by simp only []; omega)
          (by simp only []; omega) (by simp only []; omega)]
        rw [hph]
        simp only [noExtras, hfetch]
        simp
      obtain ⟨buf1, cur1, hloop, hc1, heq⟩ :=
        ih Query (pre ++ name) suf
          (buf ++ seg Query (cur : Int) (pre.length : Int) ++ EncodeValue EncodeSQL [] v)
          (pre ++ name).length b hQ2 hb (le_refl _)
      refine ⟨buf1, cur1, ?_, ?_, ?_⟩
      · simp only [locsOf, GenerateQuery.loop, hstep]
        simpa using hloop
      · simp only [textOf, Token.written, List.length_append] at hc1 ⊢; omega
      · have hlen : pre.length + (textOf (Token.arg name :: rest)).length
            = (pre ++ name).length + (textOf rest).length := by
          simp [textOf, Token.written]; omega
        rw [hlen, heq]
        have hself : seg Query ((pre ++ name).length : Int) ((pre ++ name).length : Int) = [] := by
          rw [seg_nat]; simp
        rw [hself]
        simp

/-- `GenerateQuery` on the template compiled from a statement, when every
reference of its rendering resolves: the rendering with each reference
replaced by the encoding of its value. -/
theorem GenerateQuery_NewParsedQuery (fmt : LiteralFormat) (EncodeSQL : ScalarEncoder)
    (stmt : Statement) (bv : BindVars) (out : Bytes)
    (h : expandToks EncodeSQL bv (SQLNode.FormatList fmt stmt.body) = some out) :
    (NewParsedQuery fmt stmt).GenerateQuery EncodeSQL bv noExtras = some (some out, none) := by
  have hpq : NewParsedQuery fmt stmt
      = ⟨textOf (SQLNode.FormatList fmt stmt.body),
         locsOf (SQLNode.FormatList fmt stmt.body) 0⟩ := by
    simp [NewParsedQuery, TrackedBuffer.Myprintf, TrackedBuffer.ParsedQuery, foldl_write,
      NewTrackedBuffer]
  rw [hpq]
  obtain ⟨buf1, cur1, hloop, hc1, heq⟩ :=
    GenerateQuery.loop_tokens EncodeSQL bv (SQLNode.FormatList fmt stmt.body)
      (textOf (SQLNode.FormatList fmt stmt.body)) [] [] [] 0 out (by simp) h (le_refl _)
  simp only [List.length_nil, Nat.zero_add, Nat.cast_zero, List.nil_append] at hloop hc1 heq
  have hseg0 : seg (textOf (SQLNode.FormatList fmt stmt.body)) 0 0 = [] := by
    have := seg_nat (textOf (SQLNode.FormatList fmt stmt.body)) 0 0
    simpa using this
  rw [hseg0, seg_to_end] at heq
  simp only [List.nil_append] at heq
  unfold ParsedQuery.GenerateQuery
  simp only []
  split
  · rename_i hl
    have hnil : locsOf (SQLNode.FormatList fmt stmt.body) 0 = [] := List.length_eq_zero.mp hl
    rw [hnil] at hloop
    simp only [GenerateQuery.loop, LoopState.running.injEq] at hloop
    obtain ⟨hb, hc⟩ := hloop
    subst hb
    have hc0 : cur1 = 0 := by exact_mod_cast hc.symm
    subst hc0
    simp only [List.nil_append, List.drop_zero] at heq
    rw [heq]
  · rw [hloop]
    simp only []
    rw [sliceFrom_eq_drop _ _ (by omega) (by exact_mod_cast hc1)]
    simp only [Int.toNat_ofNat, heq]

theorem StrMap.get_set {β : Type} : ∀ (m : StrMap β) (k : Bytes) (v : β) (k1 : Bytes),
    (m.set k v).get k1 = if k = k1 then some v else m.get k1 := by
  intro m
  induction m with
  | nil => intro k v k1; simp [StrMap.set, StrMap.get]
  | cons e rest ih =>
    intro k v k1
    obtain ⟨k0, v0⟩ := e
    unfold StrMap.set
    by_cases hk : k0 = k
    · subst hk
      simp only [if_true, StrMap.get]
      by_cases h01 : k0 = k1 <;> simp [h01]
    · rw [if_neg hk]
      simp only [StrMap.get, ih]
      by_cases h01 : k0 = k1
      · subst h01
        simp [hk, Ne.symm hk]
      · simp [h01]

theorem lookupKey_bvName (n : Nat) : lookupKey (bvName n) = bvName n := by
  simp [lookupKey, bvName]

theorem classify_typ (kind : LiteralKind) (val : Bytes) (key : querypb.SqlType × Bytes)
    (h : classify kind val = some key) : key.1 ≠ querypb.SqlType.Type_TUPLE := by
  unfold classify at h
  cases kind with
  | integer =>
    simp only [] at h
    split at h
    · simp only [Option.some.injEq] at h; rw [← h]; simp
    · cases h
  | float => simp only [Option.some.injEq] at h; rw [← h]; simp
  | bytes => simp only [Option.some.injEq] at h; rw [← h]; simp
  | hex => cases h

theorem expandTok_bound (EncodeSQL : ScalarEncoder) (bv : BindVars) (n : Nat)
    (v : querypb.BindVariable) (hbv : bv (bvName n) = some v)
    (hok : ¬ (v.Typ = querypb.SqlType.Type_TUPLE ∧ v.Values.length = 0)) :
    expandTok EncodeSQL bv (Token.arg (bvName n)) = some (EncodeValue EncodeSQL [] v) := by
  have hf : FetchBindVar (bvName n) bv = some (some v, none) := by
    have hcons : bvName n = 36 :: decimal n := rfl
    rw [hcons, FetchBindVar_cons, ← hcons, lookupKey_bvName, hbv]
    simp only [if_neg hok]
  simp only [expandTok, hf]

theorem Later.same (nz : normalizer) : Later nz nz := ⟨le_refl _, fun _ _ h => h⟩

theorem Later.chain (a b c : normalizer) (h1 : Later a b) (h2 : Later b c) : Later a c :=
  ⟨le_trans h1.counter_le h2.counter_le, fun k v h => h2.get_mono k v (h1.get_mono k v h)⟩

theorem Holds.earlier (bv : BindVars) (a b : normalizer) (h : Later a b)
    (hb : Holds bv b.bindVars) : Holds bv a.bindVars :=
  fun k v hk => hb k v (h.get_mono k v hk)

theorem normalizer.Bound.get_fresh (nz : normalizer) (h : nz.Bound) (n : Nat)
    (hn : nz.counter ≤ n) : nz.bindVars.get (bvName n) = none := by
  cases hg : nz.bindVars.get (bvName n) with
  | none => rfl
  | some v =>
    obtain ⟨m, hm, hname⟩ := h.keys_lt _ _ hg
    have := bvName_injective _ _ hname
    omega

/-- Writing a value under a freshly allocated name, the table left alone. -/
theorem normalizer.Bound.write_fresh (nz : normalizer) (h : nz.Bound) (n : Nat)
    (hn : nz.counter ≤ n) (bval : querypb.BindVariable) :
    normalizer.Bound { nz with counter := n + 1, bindVars := nz.bindVars.set (bvName n) bval } ∧
    Later nz { nz with counter := n + 1, bindVars := nz.bindVars.set (bvName n) bval } := by
  have hfresh := normalizer.Bound.get_fresh nz h n hn
  have hmono : ∀ k v, nz.bindVars.get k = some v →
      (nz.bindVars.set (bvName n) bval).get k = some v := by
    intro k v hk
    rw [StrMap.get_set]
    by_cases hkn : bvName n = k
    · subst hkn; rw [hfresh] at hk; cases hk
    · rw [if_neg hkn]; exact hk
  refine ⟨⟨?_, ?_⟩, ⟨by simp only []; omega, hmono⟩⟩
  · intro e he
    exact hmono _ _ (h.vals_bound e he)
  · intro k v hk
    simp only [StrMap.get_set] at hk
    by_cases hkn : bvName n = k
    · exact ⟨n, by simp only []; omega, hkn.symm⟩
    · rw [if_neg hkn] at hk
      obtain ⟨m, hm, hname⟩ := h.keys_lt k v hk
      exact ⟨m, by simp only []; omega, hname⟩

/-- Writing the value of a Dedup Key under a freshly allocated name and
recording the name. -/
theorem normalizer.Bound.write_record (nz : normalizer) (h : nz.Bound) (n : Nat)
    (hn : nz.counter ≤ n) (key : querypb.SqlType × Bytes) :
    normalizer.Bound { nz with counter := n + 1, vals := nz.vals ++ [(key, bvName n)],
                               bindVars := nz.bindVars.set (bvName n) ⟨key.1, key.2, []⟩ } ∧
    Later nz { nz with counter := n + 1, vals := nz.vals ++ [(key, bvName n)],
                       bindVars := nz.bindVars.set (bvName n) ⟨key.1, key.2, []⟩ } := by
  obtain ⟨hb, hl⟩ := normalizer.Bound.write_fresh nz h n hn ⟨key.1, key.2, []⟩
  refine ⟨⟨?_, hb.keys_lt⟩, ⟨hl.counter_le, hl.get_mono⟩⟩
  intro e he
  simp only [List.mem_append, List.mem_singleton] at he
  rcases he with he | he
  · exact hb.vals_bound e he
  · subst he
    simp only [StrMap.get_set, if_true]

/-- Writing the value of a Dedup Key again under its recorded name. -/
theorem normalizer.Bound.write_reuse (nz : normalizer) (h : nz.Bound)
    (key : querypb.SqlType × Bytes) (name : Bytes) (hl : lookupVal nz.vals key = some name) :
    normalizer.Bound { nz with bindVars := nz.bindVars.set name ⟨key.1, key.2, []⟩ } ∧
    Later nz { nz with bindVars := nz.bindVars.set name ⟨key.1, key.2, []⟩ } ∧
    ∃ n, name = bvName n := by
  have hold := h.vals_bound _ (lookupVal_mem _ _ _ hl)
  simp only [] at hold
  have hmono : ∀ k v, nz.bindVars.get k = some v →
      (nz.bindVars.set name ⟨key.1, key.2, []⟩).get k = some v := by
    intro k v hk
    rw [StrMap.get_set]
    by_cases hkn : name = k
    · subst hkn; rw [if_pos rfl, ← hk, hold]
    · rw [if_neg hkn]; exact hk
  obtain ⟨n, hn, hname⟩ := h.keys_lt _ _ hold
  refine ⟨⟨?_, ?_⟩, ⟨le_refl _, hmono⟩, ⟨n, hname⟩⟩
  · intro e he
    exact hmono _ _ (h.vals_bound e he)
  · intro k v hk
    simp only [StrMap.get_set] at hk
    by_cases hkn : name = k
    · exact ⟨n, hn, hkn ▸ hname⟩
    · rw [if_neg hkn] at hk
      exact h.keys_lt k v hk

theorem expandToks_scalar (EncodeSQL : ScalarEncoder) (bv : BindVars) (n : Nat)
    (t : querypb.SqlType) (v : Bytes) (hbv : bv (bvName n) = some ⟨t, v, []⟩)
    (ht : t ≠ querypb.SqlType.Type_TUPLE) :
    expandToks EncodeSQL bv [Token.arg (bvName n)] = some (EncodeSQL ⟨t, v⟩) := by
  have h := expandTok_bound EncodeSQL bv n ⟨t, v, []⟩ hbv (fun hc => ht hc.1)
  simp only [expandToks, h, EncodeValue_eq, if_neg ht, List.nil_append, List.append_nil]

theorem expandToks_tuple (EncodeSQL : ScalarEncoder) (bv : BindVars) (n : Nat)
    (vs : List querypb.Value)
    (hbv : bv (bvName n) = some ⟨querypb.SqlType.Type_TUPLE, [], vs⟩) (hvs : vs ≠ []) :
    expandToks EncodeSQL bv [Token.arg (bvName n)]
      = some (str "(" ++ List.intercalate (str ", ")
          (vs.map (fun v => EncodeSQL (sqltypes.ProtoToValue v))) ++ str ")") := by
  have h := expandTok_bound EncodeSQL bv n ⟨querypb.SqlType.Type_TUPLE, [], vs⟩ hbv
    (fun hc => hvs (List.length_eq_zero.mp hc.2))
  simp only [expandToks, h, EncodeValue_eq, if_true, List.nil_append, List.append_nil]

theorem textOf_FormatTuple (fmt : LiteralFormat) (EncodeSQL : ScalarEncoder)
    (hcoh : Coherent fmt EncodeSQL) :
    ∀ (elems : List SQLNode) (vs : List querypb.Value) (sep : Bytes),
      tupleValues elems = some vs →
      textOf (SQLNode.FormatTuple fmt sep elems) =
        match vs with
        | [] => []
        | v :: rest =>
          sep ++ EncodeSQL (sqltypes.ProtoToValue v)
            ++ (rest.map (fun w => str ", " ++ EncodeSQL (sqltypes.ProtoToValue w))).flatten := by
  intro elems
  induction elems with
  | nil =>
    intro vs sep h
    simp only [tupleValues, Option.some.injEq] at h
    subst h
    simp [SQLNode.FormatTuple, textOf]
  | cons e rest ih =>
    intro vs sep h
    cases e with
    | literal kind val =>
      simp only [tupleValues] at h
      cases hc : classify kind val with
      | none => rw [hc] at h; cases h
      | some key =>
        rw [hc] at h
        cases hr : tupleValues rest with
        | none => rw [hr] at h; cases h
        | some ws =>
          rw [hr] at h
          simp only [Option.some.injEq] at h
          subst h
          have hrest := ih ws (str ", ") hr
          cases ws with
          | nil =>
            simp only [] at hrest
            simp only [SQLNode.FormatTuple, SQLNode.Format, textOf, Token.written,
              List.cons_append, List.append_eq, List.nil_append, hcoh kind val key hc]
            rw [hrest]
            simp [sqltypes.ProtoToValue]
          | cons w ws2 =>
            simp only [] at hrest
            simp only [SQLNode.FormatTuple, SQLNode.Format, textOf, Token.written,
              List.cons_append, List.append_eq, List.nil_append, hcoh kind val key hc]
            rw [hrest]
            simp [sqltypes.ProtoToValue]
    | text t => simp [tupleValues] at h
    | bindRef name => simp [tupleValues] at h
    | listRef name => simp [tupleValues] at h
    | tuple es => simp [tupleValues] at h
    | inPredicate ng l r => simp [tupleValues] at h
    | subquery b => simp [tupleValues] at h
    | other c => simp [tupleValues] at h

theorem normalizer.convertLiteral_holds (fmt : LiteralFormat) (EncodeSQL : ScalarEncoder)
    (hcoh : Coherent fmt EncodeSQL) (reusable : Bool) (kind : LiteralKind) (val : Bytes)
    (nz : normalizer) (h : nz.Bound) :
    (nz.convertLiteral reusable kind val).2.Bound ∧
    Later nz (nz.convertLiteral reusable kind val).2 ∧
    ∀ bv, Holds bv (nz.convertLiteral reusable kind val).2.bindVars →
      expandToks EncodeSQL bv (SQLNode.Format fmt (nz.convertLiteral reusable kind val).1)
        = some (textOf (SQLNode.Format fmt (SQLNode.literal kind val))) := by
  have htext : textOf (SQLNode.Format fmt (SQLNode.literal kind val)) = fmt kind val := by
    simp [SQLNode.Format, textOf, Token.written]
  rw [htext]
  unfold normalizer.convertLiteral
  cases hcl : classify kind val with
  | none =>
    simp only []
    refine ⟨h, Later.same nz, ?_⟩
    intro bv _
    simp [SQLNode.Format, expandToks, expandTok]
  | some key =>
    have hty := classify_typ kind val key hcl
    have hfmt := hcoh kind val key hcl
    simp only []
    by_cases hshort : reusable = true ∧ key.2.length ≤ 256
    · rw [if_pos hshort]
      cases hl : lookupVal nz.vals key with
      | some name =>
        simp only []
        obtain ⟨hb, hlater, n, hname⟩ := normalizer.Bound.write_reuse nz h key name hl
        refine ⟨hb, hlater, ?_⟩
        intro bv hbv
        subst hname
        simp only [SQLNode.Format]
        rw [hfmt]
        apply expandToks_scalar EncodeSQL bv n key.1 key.2 _ hty
        apply hbv
        simp only [StrMap.get_set, if_true]
      | none =>
        simp only [normalizer.newName]
        obtain ⟨hb, hlater⟩ := normalizer.Bound.write_record nz h _ (le_nextUnused _ _ nz.counter) key
        refine ⟨hb, hlater, ?_⟩
        intro bv hbv
        simp only [SQLNode.Format]
        rw [hfmt]
        apply expandToks_scalar EncodeSQL bv _ key.1 key.2 _ hty
        apply hbv
        simp only [StrMap.get_set, if_true]
    · rw [if_neg hshort]
      simp only [normalizer.newName]
      obtain ⟨hb, hlater⟩ := normalizer.Bound.write_fresh nz h _ (le_nextUnused _ _ nz.counter)
        ⟨key.1, key.2, []⟩
      refine ⟨hb, hlater, ?_⟩
      intro bv hbv
      simp only [SQLNode.Format]
      rw [hfmt]
      apply expandToks_scalar EncodeSQL bv _ key.1 key.2 _ hty
      apply hbv
      simp only [StrMap.get_set, if_true]

theorem expandToks_text_cons (EncodeSQL : ScalarEncoder) (bv : BindVars) (t : Bytes)
    (l : List Token) (a : Bytes) (h : expandToks EncodeSQL bv l = some a) :
    expandToks EncodeSQL bv (Token.text t :: l) = some (t ++ a) := by
  simp only [expandToks, expandTok, h]

theorem expandToks_text_single (EncodeSQL : ScalarEncoder) (bv : BindVars) (t : Bytes) :
    expandToks EncodeSQL bv [Token.text t] = some t := by
  simp [expandToks, expandTok]

theorem normalizer.walk_holds (fmt : LiteralFormat) (EncodeSQL : ScalarEncoder)
    (hcoh : Coherent fmt EncodeSQL) (node : SQLNode) :
    ∀ (reusable : Bool) (nz : normalizer), nz.Bound →
      GetBindvars.node node = [] → noEmptyInList node = true →
      (normalizer.walk reusable node nz).2.Bound ∧
      Later nz (normalizer.walk reusable node nz).2 ∧
      ∀ bv, Holds bv (normalizer.walk reusable node nz).2.bindVars →
        expandToks EncodeSQL bv (SQLNode.Format fmt (normalizer.walk reusable node nz).1)
          = some (textOf (SQLNode.Format fmt node)) := by
  induction node using SQLNode.rec
    (motive_2 := fun l => ∀ (reusable : Bool) (nz : normalizer), nz.Bound →
      GetBindvars.nodes l = [] → noEmptyInLists l = true →
      (normalizer.walkList reusable l nz).2.Bound ∧
      Later nz (normalizer.walkList reusable l nz).2 ∧
      ∀ bv, Holds bv (normalizer.walkList reusable l nz).2.bindVars →
        expandToks EncodeSQL bv (SQLNode.FormatList fmt (normalizer.walkList reusable l nz).1)
          = some (textOf (SQLNode.FormatList fmt l)) ∧
        ∀ sep, expandToks EncodeSQL bv
            (SQLNode.FormatTuple fmt sep (normalizer.walkList reusable l nz).1)
          = some (textOf (SQLNode.FormatTuple fmt sep l))) with
  | text t =>
    intro reusable nz h _ _
    refine ⟨h, Later.same nz, ?_⟩
    intro bv _
    simp [normalizer.walk, SQLNode.Format, expandToks, expandTok, textOf, Token.written]
  | literal kind val =>
    intro reusable nz h _ _
    simp only [normalizer.walk]
    exact normalizer.convertLiteral_holds fmt EncodeSQL hcoh reusable kind val nz h
  | bindRef name =>
    intro reusable nz h href _
    simp [GetBindvars.node] at href
  | listRef name =>
    intro reusable nz h href _
    simp [GetBindvars.node] at href
  | tuple elems ih =>
    intro reusable nz h href hne
    simp only [GetBindvars.node] at href
    simp only [noEmptyInList] at hne
    obtain ⟨hb, hl, hex⟩ := ih reusable nz h href hne
    simp only [normalizer.walk]
    refine ⟨hb, hl, ?_⟩
    intro bv hbv
    have h1 := (hex bv hbv).2 []
    simp only [SQLNode.Format]
    rw [expandToks_text_cons _ _ _ _ _
      (expandToks_append _ _ _ _ _ _ h1 (expandToks_text_single _ _ (str ")")))]
    simp [textOf, textOf_append, Token.written]
  | inPredicate negated left right ihl ihr =>
    intro reusable nz h href hne
    simp only [GetBindvars.node, List.append_eq_nil] at href
    simp only [noEmptyInList, Bool.and_eq_true, decide_eq_true_eq] at hne
    obtain ⟨hbl, hll, hexl⟩ := ihl reusable nz h href.1 hne.1
    simp only [normalizer.walk]
    cases hlv : listValues right with
    | some vs =>
      obtain ⟨elems, hr⟩ := listValues_some right vs hlv
      subst hr
      have hvs : vs ≠ [] := by
        intro hnil
        rw [hnil] at hlv
        exact hne.2.1 hlv
      simp only [normalizer.newName]
      have hN := le_nextUnused (normalizer.walk reusable left nz).2.reserved
        (normalizer.walk reusable left nz).2.reserved.length
        (normalizer.walk reusable left nz).2.counter
      generalize nextUnused (normalizer.walk reusable left nz).2.reserved
        (normalizer.walk reusable left nz).2.reserved.length
        (normalizer.walk reusable left nz).2.counter = N at hN ⊢
      obtain ⟨hb, hlater⟩ := normalizer.Bound.write_fresh _ hbl N hN
        ⟨querypb.SqlType.Type_TUPLE, [], vs⟩
      refine ⟨hb, Later.chain _ _ _ hll hlater, ?_⟩
      intro bv hbv
      have hleft := hexl bv (Holds.earlier bv _ _ hlater hbv)
      have hname : bv (bvName N) = some ⟨querypb.SqlType.Type_TUPLE, [], vs⟩ := by
        apply hbv
        simp only [StrMap.get_set, if_true]
      have htup := expandToks_tuple EncodeSQL bv _ vs hname hvs
      simp only [SQLNode.Format]
      rw [expandToks_append _ _ _ _ _ _ hleft (expandToks_text_cons _ _ _ _ _ htup)]
      have htext := textOf_FormatTuple fmt EncodeSQL hcoh elems vs [] hlv
      cases vs with
      | nil => exact absurd rfl hvs
      | cons v rest =>
        simp only [] at htext
        simp only [textOf_append, textOf, Token.written, htext, intercalate_cons_eq,
          List.map_cons, List.map_map, Function.comp_def]
        simp
    | none =>
      simp only []
      obtain ⟨hbr, hlr, hexr⟩ := ihr reusable _ hbl href.2 hne.2.2
      refine ⟨hbr, Later.chain _ _ _ hll hlr, ?_⟩
      intro bv hbv
      have hleft := hexl bv (Holds.earlier bv _ _ hlr hbv)
      have hright := hexr bv hbv
      simp only [SQLNode.Format]
      rw [expandToks_append _ _ _ _ _ _ hleft (expandToks_text_cons _ _ _ _ _ hright)]
      simp [textOf_append, textOf, Token.written]
  | subquery body ih =>
    intro reusable nz h href hne
    simp only [GetBindvars.node] at href
    simp only [noEmptyInList] at hne
    obtain ⟨hb, hl, hex⟩ := ih true nz h href hne
    simp only [normalizer.walk]
    refine ⟨hb, hl, ?_⟩
    intro bv hbv
    simp only [SQLNode.Format]
    exact (hex bv hbv).1
  | other children ih =>
    intro reusable nz h href hne
    simp only [GetBindvars.node] at href
    simp only [noEmptyInList] at hne
    obtain ⟨hb, hl, hex⟩ := ih reusable nz h href hne
    simp only [normalizer.walk]
    refine ⟨hb, hl, ?_⟩
    intro bv hbv
    simp only [SQLNode.Format]
    exact (hex bv hbv).1
  | nil =>
    rename_i reusable nz h _ _
    refine ⟨h, Later.same nz, ?_⟩
    intro bv _
    simp [normalizer.walkList, SQLNode.FormatList, SQLNode.FormatTuple, expandToks, textOf]
  | cons n rest ihn ihr =>
    rename_i reusable nz h href hne
    simp only [GetBindvars.nodes, List.append_eq_nil] at href
    simp only [noEmptyInLists, Bool.and_eq_true] at hne
    obtain ⟨hbn, hln, hexn⟩ := ihn reusable nz h href.1 hne.1
    obtain ⟨hbr, hlr, hexr⟩ := ihr reusable _ hbn href.2 hne.2
    simp only [normalizer.walkList]
    refine ⟨hbr, Later.chain _ _ _ hln hlr, ?_⟩
    intro bv hbv
    have hhead := hexn bv (Holds.earlier bv _ _ hlr hbv)
    have htail := hexr bv hbv
    constructor
    · simp only [SQLNode.FormatList]
      rw [expandToks_append _ _ _ _ _ _ hhead htail.1]
      simp [textOf_append]
    · intro sep
      simp only [SQLNode.FormatTuple]
      rw [expandToks_text_cons _ _ _ _ _
        (expandToks_append _ _ _ _ _ _ hhead (htail.2 (str ", ")))]
      simp [textOf, textOf_append, Token.written]

theorem sample_coherent : Coherent sampleFormat sampleEncodeSQL := by
  intro kind val key h
  have hv := classify_val kind val key h
  unfold classify at h
  cases kind with
  | integer =>
    simp only [] at h
    split at h
    · simp only [Option.some.injEq] at h
      subst h
      simp [sampleFormat, sampleEncodeSQL]
    · cases h
  | float =>
    simp only [Option.some.injEq] at h
    subst h
    simp [sampleFormat, sampleEncodeSQL]
  | bytes =>
    simp only [Option.some.injEq] at h
    subst h
    simp [sampleFormat, sampleEncodeSQL]
  | hex => cases h

/-- C8 (amended): for a statement without bind-variable references (and, as
the grammar has it, without an empty `IN` list), rendered by a renderer that
writes each substitutable literal as the value encoder writes its classified
value: normalizing it into a fresh map, compiling the normalized statement
with `NewParsedQuery` and calling `GenerateQuery` with that map and no extras
succeeds and returns exactly the rendering of the original statement. -/
theorem Generate_Compile_inverse (fmt : LiteralFormat) (EncodeSQL : ScalarEncoder)
    (hcoh : Coherent fmt EncodeSQL) (stmt : Statement)
    (hrefs : GetBindvars stmt = []) (hlists : noEmptyInLists stmt.body = true) :
    (NewParsedQuery fmt (Normalize stmt []).1).GenerateQuery EncodeSQL
        (Normalize stmt []).2.get noExtras
      = some (some (stmt.String fmt), none) := by
  have hnodes : GetBindvars.nodes stmt.body = [] := by
    unfold GetBindvars at hrefs
    exact (List.dedup_eq_nil _).mp hrefs
  have hinit : normalizer.Bound ⟨GetBindvars stmt, 1, [], []⟩ :=
    ⟨fun e he => absurd he (List.not_mem_nil e), fun k v hk => by simp [StrMap.get] at hk⟩
  obtain ⟨_, _, hex⟩ := normalizer.walk_holds fmt EncodeSQL hcoh (SQLNode.other stmt.body)
    (decide (stmt.kind = StatementKind.select)) _ hinit
    (by simpa [GetBindvars.node] using hnodes) (by simpa [noEmptyInList] using hlists)
  have hexp := hex (Normalize stmt []).2.get (fun k v hk => by
    simpa [Normalize, normalizer.walk] using hk)
  simp only [normalizer.walk, SQLNode.Format] at hexp
  have hstr : stmt.String fmt = textOf (SQLNode.FormatList fmt stmt.body) := by
    simp [Statement.String, TrackedBuffer.Myprintf, foldl_write, NewTrackedBuffer]
  rw [hstr]
  apply GenerateQuery_NewParsedQuery
  simpa [Normalize] using hexp

theorem Generate_Compile_inverse_witness :
    Coherent sampleFormat sampleEncodeSQL ∧ GetBindvars notInStmt = [] ∧
    noEmptyInLists notInStmt.body = true ∧
    (NewParsedQuery sampleFormat (Normalize notInStmt []).1).GenerateQuery sampleEncodeSQL
        (Normalize notInStmt []).2.get noExtras
      = some (some (str "select * from t where v1 not in (1, \x272\x27)"), none) :=
  ⟨sample_coherent, by decide, by decide,
   (Generate_Compile_inverse sampleFormat sampleEncodeSQL sample_coherent notInStmt
      (by decide) (by decide)).trans (by decide)⟩

/-- C8 (as stated) fails: `select * from t where v1 = $1 and v2 = 1` (an input
of `normalizer_test.go`) is normalized to `... v1 = $1 and v2 = $2` with the
map `{$2: 1}`; the template compiled from it has the locations of `$1` and
`$2`, and `GenerateQuery` with that map returns the error "missing bind var
$1" and no text. -/
theorem Generate_Compile_inverse_fails_with_reference :
    (Normalize collisionStmt []).2 = [(str "$2", ⟨querypb.SqlType.Type_INT64, str "1", []⟩)] ∧
    NewParsedQuery sampleFormat (Normalize collisionStmt []).1
      = ⟨str "select * from t where v1 = $1 and v2 = $2", [⟨27, 2⟩, ⟨39, 2⟩]⟩ ∧
    (NewParsedQuery sampleFormat (Normalize collisionStmt []).1).GenerateQuery sampleEncodeSQL
        (Normalize collisionStmt []).2.get noExtras
      = some (none, some (str "missing bind var $1")) ∧
    (NewParsedQuery sampleFormat (Normalize collisionStmt []).1).GenerateQuery sampleEncodeSQL
        (Normalize collisionStmt []).2.get noExtras
      ≠ some (some (collisionStmt.String sampleFormat), none) := by
  decide

/-! ### FetchBindVar and GenerateQuery, further properties -/

/-- C18: for a non-empty name `n` that does not start with `:`,
`FetchBindVar(":" ++ n, m)` and `FetchBindVar(n, m)` return the same value or
the same error, message included; only one sigil is removed, so
`FetchBindVar("::" ++ n, m)` looks up the key `":" ++ n`. -/
theorem FetchBindVar_colon (n : Bytes) (bv : BindVars) (hne : n ≠ [])
    (hcolon : n.head? ≠ some 58) :
    FetchBindVar (58 :: n) bv = FetchBindVar n bv ∧
    lookupKey (58 :: 58 :: n) = 58 :: n ∧
    FetchBindVar (58 :: 58 :: n) bv =
      match bv (58 :: n) with
      | none => some (none, some (str "missing bind var " ++ 58 :: n))
      | some supplied =>
        if supplied.Typ = querypb.SqlType.Type_TUPLE ∧ supplied.Values.length = 0 then
          some (none, some (str "empty list supplied for " ++ 58 :: n))
        else some (some supplied, none) := by
  cases n with
  | nil => exact absurd rfl hne
  | cons c tl =>
    have hc : c ≠ 58 := by
      intro h
      apply hcolon
      simp [h]
    refine ⟨?_, by simp [lookupKey], ?_⟩
    · rw [FetchBindVar_cons, FetchBindVar_cons]
      simp [lookupKey, hc]
    · cases hb : bv (58 :: c :: tl) <;> simp [FetchBindVar, lookupKey, hb]

theorem FetchBindVar_colon_witness :
    str "a" ≠ [] ∧ (str "a").head? ≠ some 58 ∧
    FetchBindVar (str ":a") sampleVars = FetchBindVar (str "a") sampleVars ∧
    FetchBindVar (str "a") sampleVars = some (some (int64BV "7"), none) ∧
    FetchBindVar (str "::a") sampleVars = some (none, some (str "missing bind var :a")) :=
  ⟨by decide, by decide,
   (FetchBindVar_colon (str "a") sampleVars (by decide) (by decide)).1,
   by decide,
   (FetchBindVar_colon (str "a") sampleVars (by decide) (by decide)).2.2.trans (by decide)⟩

theorem seg_append_drop (s : Bytes) (a b : Int) (h1 : a ≤ b) :
    seg s a b ++ s.drop b.toNat = s.drop a.toNat := by
  unfold seg
  have hxy : a.toNat ≤ b.toNat := by omega
  obtain ⟨d, hd⟩ := Nat.exists_eq_add_of_le hxy
  have h : s.drop (a.toNat + d) = (s.drop a.toNat).drop d := by
    rw [List.drop_drop, Nat.add_comm]
  rw [hd, Nat.add_sub_cancel_left, h]
  exact List.take_append_drop _ _

theorem substituted_identity (EncodeSQL : ScalarEncoder) (Query : Bytes) (bv : BindVars)
    (extras : Extras) :
    ∀ (locs : List bindLocation) (current : Int),
      InOrderFrom Query current locs →
      (∀ loc ∈ locs, rendering EncodeSQL Query bv extras loc = some (placeholder Query loc)) →
      substituted EncodeSQL Query bv extras current locs = Query.drop current.toNat := by
  intro locs
  induction locs with
  | nil => intro current _ _; rfl
  | cons loc rest ih =>
    intro current hin hr
    obtain ⟨_, h1, h2, _, hrest⟩ := hin
    simp only [substituted]
    rw [hr loc (List.mem_cons_self _ _), ih _ hrest (fun l hl => hr l (List.mem_cons_of_mem _ hl))]
    simp only [Option.getD_some, placeholder, List.append_assoc]
    rw [seg_append_drop _ _ _ (by omega), seg_append_drop _ _ _ h1]

/-- C20: for a template satisfying the data-model invariant, if `extras` maps
the text of every placeholder to an `Encodable` that writes exactly that
placeholder text, then `GenerateQuery` returns exactly `Query`, with a nil
error, whatever the bind variables are. -/
theorem GenerateQuery_identity (EncodeSQL : ScalarEncoder) (pq : ParsedQuery)
    (bv : BindVars) (extras : Extras) (hwf : pq.WellFormed)
    (hid : ∀ loc ∈ pq.bindLocations, ∃ e, extras (placeholder pq.Query loc) = some e ∧
      e.sql = placeholder pq.Query loc) :
    pq.GenerateQuery EncodeSQL bv extras = some (some pq.Query, none) := by
  have hr : ∀ loc ∈ pq.bindLocations,
      rendering EncodeSQL pq.Query bv extras loc = some (placeholder pq.Query loc) := by
    intro loc hl
    obtain ⟨e, he, hs⟩ := hid loc hl
    simp only [rendering, he, hs]
  have hf : pq.bindLocations.filterMap (failure pq.Query bv extras) = [] := by
    rw [List.filterMap_eq_nil_iff]
    intro loc hl
    obtain ⟨e, he, _⟩ := hid loc hl
    simp only [failure, he]
  rw [GenerateQuery_cases EncodeSQL pq bv extras hwf
    (fun loc hl hn => by obtain ⟨e, he, _⟩ := hid loc hl; rw [he] at hn; cases hn), hf]
  simp only [List.head?_nil]
  rw [substituted_identity EncodeSQL pq.Query bv extras _ 0 (InOrderFrom_of_WellFormed pq hwf) hr]
  rfl

theorem GenerateQuery_identity_witness :
    samplePQ.WellFormed ∧
    samplePQ.GenerateQuery sampleEncodeSQL noVars identityExtras
      = some (some (str "x = $1 and y = :a"), none) :=
  ⟨by decide,
   GenerateQuery_identity sampleEncodeSQL samplePQ noVars identityExtras (by decide)
     (by decide)⟩

/-- C4, as stated, fails: in the template `a :a` the placeholder `a` is a
key of `extras`, and yet the result of `GenerateQuery` is not the same whether
`bindVariables` binds `a` or lacks it, because the other placeholder, `:a`,
which is not overridden, resolves to the same key: with `a = 7` the result is
`X 7`, without it the error `missing bind var a`. -/
theorem GenerateQuery_override_shares_key :
    sharedKeyPQ.WellFormed ∧
    sampleExtras (placeholder sharedKeyPQ.Query ⟨0, 1⟩) = some ⟨str "X"⟩ ∧
    sampleExtras (placeholder sharedKeyPQ.Query ⟨2, 2⟩) = none ∧
    sharedKeyPQ.GenerateQuery sampleEncodeSQL sampleVars sampleExtras
      = some (some (str "X 7"), none) ∧
    sharedKeyPQ.GenerateQuery sampleEncodeSQL noVars sampleExtras
      = some (none, some (str "missing bind var a")) := by
  decide

/-- C19, as stated, fails: the template `abc` with one empty placeholder at
offset 1 satisfies the data-model invariant, and with non-nil values and no
override `GenerateQuery` panics, reading `name[0]` of the empty name. -/
theorem GenerateQuery_panics_on_zero_length :
    zeroLengthPQ.WellFormed ∧
    placeholder zeroLengthPQ.Query ⟨1, 0⟩ = [] ∧
    FetchBindVar [] sampleVars = none ∧
    zeroLengthPQ.GenerateQuery sampleEncodeSQL sampleVars noExtras = none := by
  decide

/-- C19, amended: for a template satisfying the data-model invariant whose
placeholders that `extras` does not override are all non-empty,
`GenerateQuery` performs no out-of-range index or slice access: it returns
either a byte string with a nil error or a nil result with an error. -/
theorem GenerateQuery_no_panic (EncodeSQL : ScalarEncoder) (pq : ParsedQuery)
    (bv : BindVars) (extras : Extras) (hwf : pq.WellFormed)
    (hne : ∀ loc ∈ pq.bindLocations,
      extras (placeholder pq.Query loc) = none → placeholder pq.Query loc ≠ []) :
    (∃ out, pq.GenerateQuery EncodeSQL bv extras = some (some out, none)) ∨
    (∃ err, pq.GenerateQuery EncodeSQL bv extras = some (none, some err)) := by
  rw [GenerateQuery_cases EncodeSQL pq bv extras hwf hne]
  cases (pq.bindLocations.filterMap (failure pq.Query bv extras)).head? with
  | none => exact Or.inl ⟨_, rfl⟩
  | some e => exact Or.inr ⟨e, rfl⟩

theorem GenerateQuery_no_panic_witness :
    samplePQ.WellFormed ∧
    ((∃ out, samplePQ.GenerateQuery sampleEncodeSQL sampleVars noExtras = some (some out, none)) ∨
     (∃ err, samplePQ.GenerateQuery sampleEncodeSQL sampleVars noExtras = some (none, some err))) :=
  ⟨by decide,
   GenerateQuery_no_panic sampleEncodeSQL samplePQ sampleVars noExtras (by decide) (by decide)⟩

/-! ### RedactSQLQuery -/

/-- C15: `RedactSQLQuery` returns an error exactly when parsing the text
without its margin comments fails, and then the error is the parser's,
unchanged, with an empty string; otherwise it returns, with a nil error,
`Leading` followed by the rendering of the normalized statement followed by
`Trailing`. -/
theorem RedactSQLQuery_spec (SplitMarginComments : Splitter) (Parse : Parser)
    (fmt : LiteralFormat) (sql : Bytes) :
    ((RedactSQLQuery SplitMarginComments Parse fmt sql).2 ≠ none ↔
      ∃ err, Parse (SplitMarginComments sql).1 = Except.error err) ∧
    (∀ err, Parse (SplitMarginComments sql).1 = Except.error err →
      RedactSQLQuery SplitMarginComments Parse fmt sql = ([], some err)) ∧
    (∀ stmt, Parse (SplitMarginComments sql).1 = Except.ok stmt →
      RedactSQLQuery SplitMarginComments Parse fmt sql =
        ((SplitMarginComments sql).2.Leading ++ (Normalize stmt []).1.String fmt
          ++ (SplitMarginComments sql).2.Trailing, none)) := by
  unfold RedactSQLQuery
  cases h : Parse (SplitMarginComments sql).1 with
  | error err => simp [h]
  | ok stmt => simp [h]

/-- The model of `RedactSQLQuery` on the input of `redact_query_test.go`, on
the same input after a leading comment, and on a text the parser rejects. -/
theorem RedactSQLQuery_test_cases :
    RedactSQLQuery sampleSplit sampleParse sampleFormat
        (str "select a,b,c from t where x = 1234 and y = 1234 and z = \x27apple\x27")
      = (str "select a, b, c from t where x = $1 and y = $1 and z = $2", none) ∧
    RedactSQLQuery sampleSplit sampleParse sampleFormat
        (str "/* c */ select a,b,c from t where x = 1234 and y = 1234 and z = \x27apple\x27")
      = (str "/* c */ select a, b, c from t where x = $1 and y = $1 and z = $2", none) ∧
    RedactSQLQuery sampleSplit sampleParse sampleFormat (str "select from")
      = ([], some (str "syntax error")) := by
  decide

/-! ### GetBindvars -/

theorem GetBindvars.node_mem (name : Bytes) (node : SQLNode) :
    name ∈ GetBindvars.node node ↔ Occurs name node := by
  induction node using SQLNode.rec
    (motive_2 := fun l => name ∈ GetBindvars.nodes l ↔ ∃ e ∈ l, Occurs name e) with
  | text t =>
    simp only [GetBindvars.node, List.not_mem_nil, false_iff]
    intro h; cases h
  | literal kind val =>
    simp only [GetBindvars.node, List.not_mem_nil, false_iff]
    intro h; cases h
  | bindRef n =>
    simp only [GetBindvars.node, List.mem_singleton]
    constructor
    · rintro rfl; exact Occurs.bindRef
    · intro h; cases h; rfl
  | listRef n =>
    simp only [GetBindvars.node, List.mem_singleton]
    constructor
    · rintro rfl; exact Occurs.listRef
    · intro h; cases h; rfl
  | tuple elems ih =>
    simp only [GetBindvars.node]
    rw [ih]
    constructor
    · rintro ⟨e, he, ho⟩; exact Occurs.tuple elems e he ho
    · intro h; cases h with
      | tuple _ e he ho => exact ⟨e, he, ho⟩
  | inPredicate negated left right ihl ihr =>
    simp only [GetBindvars.node, List.mem_append]
    rw [ihl, ihr]
    constructor
    · rintro (h | h)
      · exact Occurs.inLeft negated left right h
      · exact Occurs.inRight negated left right h
    · intro h; cases h with
      | inLeft _ _ _ h => exact Or.inl h
      | inRight _ _ _ h => exact Or.inr h
  | subquery body ih =>
    simp only [GetBindvars.node]
    rw [ih]
    constructor
    · rintro ⟨e, he, ho⟩; exact Occurs.subquery body e he ho
    · intro h; cases h with
      | subquery _ e he ho => exact ⟨e, he, ho⟩
  | other children ih =>
    simp only [GetBindvars.node]
    rw [ih]
    constructor
    · rintro ⟨e, he, ho⟩; exact Occurs.other children e he ho
    · intro h; cases h with
      | other _ e he ho => exact ⟨e, he, ho⟩
  | nil => simp [GetBindvars.nodes]
  | cons n rest ihn ihr =>
    simp only [GetBindvars.nodes, List.mem_append, List.mem_cons, exists_eq_or_imp]
    rw [ihn, ihr]

theorem GetBindvars.nodes_mem (name : Bytes) : ∀ l : List SQLNode,
    name ∈ GetBindvars.nodes l ↔ ∃ e ∈ l, Occurs name e := by
  intro l
  induction l with
  | nil => simp [GetBindvars.nodes]
  | cons n rest ih =>
    simp only [GetBindvars.nodes, List.mem_append, List.mem_cons, exists_eq_or_imp,
      GetBindvars.node_mem, ih]

/-- C17: for every statement, a name is in the result of `GetBindvars` iff a
scalar reference or a list reference with that name occurs somewhere in the
statement, and no name is reported twice. -/
theorem GetBindvars_spec (stmt : Statement) :
    (∀ name, name ∈ GetBindvars stmt ↔ ∃ e ∈ stmt.body, Occurs name e) ∧
    (GetBindvars stmt).Nodup := by
  refine ⟨fun name => ?_, List.nodup_dedup _⟩
  unfold GetBindvars
  rw [List.mem_dedup, GetBindvars.nodes_mem]

/-- The model of `GetBindvars` on the input of `TestGetBindVars`. -/
theorem GetBindvars_test_case :
    GetBindvars bindVarsStmt = [str "$1", str "$2", str "$3", str "$4", str "$5"] := by
  decide

/-! ### Statements without substitutable literals -/

theorem classify_unsupported (kv : LiteralKind × Bytes) (h : Unsupported kv) :
    classify kv.1 kv.2 = none := by
  obtain ⟨kind, val⟩ := kv
  rcases h with h | ⟨h, hbig⟩
  · simp only [] at h
    subst h
    rfl
  · simp only [] at h hbig
    subst h
    simp only [classify]
    rw [if_neg]
    intro hc
    unfold beyondInt64 at hbig
    unfold fitsInt64 at hc
    cases hp : parseInteger val with
    | none => rw [hp] at hc; cases hc
    | some n =>
      rw [hp] at hc hbig
      simp only [decide_eq_true_eq] at hc hbig
      omega

theorem tupleValues_cons (elems : List SQLNode) (vs : List querypb.Value)
    (h : tupleValues elems = some vs) (hne : vs ≠ []) :
    ∃ kind val rest, elems = SQLNode.literal kind val :: rest ∧ (classify kind val).isSome := by
  cases elems with
  | nil =>
    simp only [tupleValues, Option.some.injEq] at h
    exact absurd h.symm hne
  | cons e rest =>
    cases e with
    | literal kind val =>
      refine ⟨kind, val, rest, rfl, ?_⟩
      simp only [tupleValues] at h
      cases hc : classify kind val with
      | none => rw [hc] at h; simp at h
      | some key => rfl
    | _ => simp [tupleValues] at h

theorem substitutable_nil (node : SQLNode) :
    (∀ kv ∈ literalsOf node, classify kv.1 kv.2 = none) → noEmptyInList node = true →
      substitutable node = [] := by
  induction node using SQLNode.rec
    (motive_2 := fun l => (∀ kv ∈ literalsOfList l, classify kv.1 kv.2 = none) →
      noEmptyInLists l = true → substitutableList l = []) with
  | text t => intro _ _; rfl
  | literal kind val =>
    intro h _
    have := h (kind, val) (by simp [literalsOf])
    simp only [] at this
    simp [substitutable, this]
  | bindRef name => intro _ _; rfl
  | listRef name => intro _ _; rfl
  | tuple elems ih =>
    intro h hg
    simp only [literalsOf, noEmptyInList, substitutable] at h hg ⊢
    exact ih h hg
  | inPredicate negated left right ihl ihr =>
    intro h hg
    simp only [literalsOf, noEmptyInList, Bool.and_eq_true, decide_eq_true_eq,
      List.mem_append] at h hg
    obtain ⟨hgl, hne, hgr⟩ := hg
    simp only [substitutable]
    rw [ihl (fun kv hkv => h kv (Or.inl hkv)) hgl,
      ihr (fun kv hkv => h kv (Or.inr hkv)) hgr]
    cases hlv : listValues right with
    | none => simp
    | some vs =>
      exfalso
      obtain ⟨elems, hr⟩ := listValues_some right vs hlv
      subst hr
      have hvs : vs ≠ [] := by
        intro hv
        apply hne
        rw [hlv, hv]
      obtain ⟨kind, val, rest, he, hc⟩ := tupleValues_cons elems vs hlv hvs
      subst he
      have := h (kind, val) (Or.inr (by simp [literalsOf, literalsOfList]))
      simp only [] at this
      rw [this] at hc
      cases hc
  | subquery body ih =>
    intro h hg
    simp only [literalsOf, noEmptyInList, substitutable] at h hg ⊢
    exact ih h hg
  | other children ih =>
    intro h hg
    simp only [literalsOf, noEmptyInList, substitutable] at h hg ⊢
    exact ih h hg
  | nil => rfl
  | cons n rest ihn ihr =>
    rename_i h hg
    simp only [literalsOfList, noEmptyInLists, Bool.and_eq_true, List.mem_append] at h hg
    simp only [substitutableList]
    rw [ihn (fun kv hkv => h kv (Or.inl hkv)) hg.1,
      ihr (fun kv hkv => h kv (Or.inr hkv)) hg.2]
    rfl

theorem normalizer.walk_unchanged (node : SQLNode) :
    ∀ (reusable : Bool) (nz : normalizer), substitutable node = [] →
      normalizer.walk reusable node nz = (node, nz) := by
  induction node using SQLNode.rec
    (motive_2 := fun l => ∀ (reusable : Bool) (nz : normalizer), substitutableList l = [] →
      normalizer.walkList reusable l nz = (l, nz)) with
  | text t => intro r nz _; rfl
  | literal kind val =>
    intro r nz h
    simp only [substitutable] at h
    cases hc : classify kind val with
    | none => simp only [normalizer.walk, normalizer.convertLiteral, hc]
    | some key => rw [hc] at h; simp at h
  | bindRef name => intro r nz _; rfl
  | listRef name => intro r nz _; rfl
  | tuple elems ih =>
    intro r nz h
    simp only [substitutable] at h
    simp only [normalizer.walk, ih r nz h]
  | inPredicate negated left right ihl ihr =>
    intro r nz h
    simp only [substitutable, List.append_eq_nil] at h
    obtain ⟨hl, hr⟩ := h
    cases hlv : listValues right with
    | some vs => rw [hlv] at hr; simp at hr
    | none =>
      rw [hlv] at hr
      simp only [Option.isSome_none, Bool.false_eq_true, if_false] at hr
      simp only [normalizer.walk, hlv, ihl r nz hl, ihr r nz hr]
  | subquery body ih =>
    intro r nz h
    simp only [substitutable] at h
    simp only [normalizer.walk, ih true nz h]
  | other children ih =>
    intro r nz h
    simp only [substitutable] at h
    simp only [normalizer.walk, ih r nz h]
  | nil => rfl
  | cons n rest ihn ihr =>
    rename_i r nz h
    simp only [substitutableList, List.append_eq_nil] at h
    simp only [normalizer.walkList, ihn r nz h.1, ihr r nz h.2]

theorem normalizer.walkList_unchanged (reusable : Bool) : ∀ (l : List SQLNode) (nz : normalizer),
    substitutableList l = [] → normalizer.walkList reusable l nz = (l, nz) := by
  intro l nz h
  have := normalizer.walk_unchanged (SQLNode.other l) reusable nz (by simpa [substitutable] using h)
  simp only [normalizer.walk, Prod.mk.injEq, SQLNode.other.injEq] at this
  exact Prod.ext this.1 this.2

/-- C14: for every statement, select or mutation, whose literals are all
hexadecimal literals or decimal integers outside the signed 64-bit range (a
statement without literals included), `Normalize` leaves the rendered text
unchanged and leaves the output map as it was, so a fresh map stays empty.
The statement is an AST of the grammar: no `IN` predicate has an empty list
(an empty `IN (...)` list is not valid SQL). -/
theorem Normalize_round_trip (fmt : LiteralFormat) (stmt : Statement)
    (hlit : ∀ kv ∈ literalsOfList stmt.body, Unsupported kv)
    (hgram : noEmptyInLists stmt.body = true) :
    (Normalize stmt []).1.String fmt = stmt.String fmt ∧
    (Normalize stmt []).2 = [] ∧
    ∀ m, (Normalize stmt m).2 = m := by
  have hsub : substitutableList stmt.body = [] := by
    have := substitutable_nil (SQLNode.other stmt.body)
      (by simpa [literalsOf] using fun a b h => classify_unsupported (a, b) (hlit (a, b) h))
      (by simpa [noEmptyInList] using hgram)
    simpa [substitutable] using this
  have hN : ∀ m, Normalize stmt m = (stmt, m) := by
    intro m
    simp only [Normalize, normalizer.walkList_unchanged _ _ _ hsub]
  refine ⟨by rw [hN], by rw [hN], fun m => by rw [hN]⟩

theorem Normalize_round_trip_witness :
    (∀ kv ∈ literalsOfList hexStmt.body, Unsupported kv) ∧
    (Normalize hexStmt []).1.String sampleFormat
      = str "select * from t where v1 = 0x1234 and v2 = 12345678901234567890 and v3 = $1" ∧
    (Normalize hexStmt []).2 = [] :=
  ⟨by decide,
   (Normalize_round_trip sampleFormat hexStmt (by decide) (by decide)).1.trans (by decide),
   (Normalize_round_trip sampleFormat hexStmt (by decide) (by decide)).2.1⟩

/-! ### Allocation of names -/

theorem StrMap.keys_set_list {β : Type} : ∀ (m : StrMap β) (k : Bytes) (v : β),
    (m.set k v).map Prod.fst
      = if k ∈ m.map Prod.fst then m.map Prod.fst else m.map Prod.fst ++ [k] := by
  intro m
  induction m with
  | nil => intro k v; simp [StrMap.set]
  | cons e rest ih =>
    intro k v
    obtain ⟨k1, v1⟩ := e
    unfold StrMap.set
    by_cases hk : k1 = k
    · subst hk
      simp
    · rw [if_neg hk]
      simp only [List.map_cons, ih, List.mem_cons]
      by_cases hmem : k ∈ rest.map Prod.fst
      · simp [hmem]
      · simp [hmem, Ne.symm hk]

theorem addNew_append (ks a b : List Bytes) : addNew ks (a ++ b) = addNew (addNew ks a) b := by
  simp only [addNew, List.foldl_append]

theorem addNew_subset (names : List Bytes) : ∀ ks : List Bytes, ∀ n, n ∈ addNew ks names ↔
    n ∈ ks ∨ n ∈ names := by
  induction names with
  | nil => intro ks n; simp [addNew]
  | cons x rest ih =>
    intro ks n
    have h : addNew ks (x :: rest) = addNew (if x ∈ ks then ks else ks ++ [x]) rest := rfl
    rw [h, ih]
    by_cases hx : x ∈ ks
    · rw [if_pos hx]
      simp only [List.mem_cons]
      constructor
      · rintro (h | h)
        · exact Or.inl h
        · exact Or.inr (Or.inr h)
      · rintro (h | h | h)
        · exact Or.inl h
        · subst h; exact Or.inl hx
        · exact Or.inr h
    · rw [if_neg hx]
      simp only [List.mem_append, List.mem_singleton, List.mem_cons]
      tauto

theorem normalizer.walk_keys (node : SQLNode) :
    ∀ (reusable : Bool) (nz : normalizer),
      (normalizer.walk reusable node nz).2.bindVars.map Prod.fst
        = addNew (nz.bindVars.map Prod.fst)
            ((replaced node (normalizer.walk reusable node nz).1).map Prod.snd) := by
  induction node using SQLNode.rec
    (motive_2 := fun l => ∀ (reusable : Bool) (nz : normalizer),
      (normalizer.walkList reusable l nz).2.bindVars.map Prod.fst
        = addNew (nz.bindVars.map Prod.fst)
            ((replacedList l (normalizer.walkList reusable l nz).1).map Prod.snd)) with
  | text t => intro r nz; rfl
  | literal kind val =>
    intro r nz
    simp only [normalizer.walk, normalizer.convertLiteral]
    cases hc : classify kind val with
    | none => rfl
    | some key =>
      simp only []
      split
      · cases hl : lookupVal nz.vals key with
        | some name =>
          simp only [replaced, List.map_cons, List.map_nil, StrMap.keys_set_list]
          rfl
        | none =>
          simp only [replaced, List.map_cons, List.map_nil, StrMap.keys_set_list]
          rfl
      · simp only [replaced, List.map_cons, List.map_nil, StrMap.keys_set_list]
        rfl
  | bindRef name => intro r nz; rfl
  | listRef name => intro r nz; rfl
  | tuple elems ih =>
    intro r nz
    simp only [normalizer.walk, replaced]
    exact ih r nz
  | inPredicate negated left right ihl ihr =>
    intro r nz
    simp only [normalizer.walk]
    cases hlv : listValues right with
    | some vs =>
      obtain ⟨elems, hr⟩ := listValues_some right vs hlv
      subst hr
      simp only [replaced, List.map_append, List.map_cons, List.map_nil, addNew_append,
        StrMap.keys_set_list, ← ihl r nz]
      rfl
    | none =>
      simp only [replaced, List.map_append, addNew_append, ← ihl r nz]
      exact ihr r _
  | subquery body ih =>
    intro r nz
    simp only [normalizer.walk, replaced]
    exact ih true nz
  | other children ih =>
    intro r nz
    simp only [normalizer.walk, replaced]
    exact ih r nz
  | nil => rfl
  | cons n rest ihn ihr =>
    rename_i r nz
    simp only [normalizer.walkList, replacedList, List.map_append, addNew_append, ← ihn r nz]
    exact ihr r _

theorem nextUnused_skips (reserved : List Bytes) : ∀ (fuel c k : Nat),
    c ≤ k → k < nextUnused reserved fuel c → bvName k ∈ reserved := by
  intro fuel
  induction fuel with
  | zero =>
    intro c k h1 h2
    simp only [nextUnused] at h2
    omega
  | succ fuel ih =>
    intro c k h1 h2
    unfold nextUnused at h2
    by_cases hc : bvName c ∈ reserved
    · rw [if_pos hc] at h2
      by_cases hk : k = c
      · subst hk; exact hc
      · exact ih (c + 1) k (by omega) h2
    · rw [if_neg hc] at h2
      omega

theorem unusedBelow_succ (reserved : List Bytes) (c n : Nat) (hc : 1 ≤ c) (hn : c ≤ n)
    (hskip : ∀ k, c ≤ k → k < n → bvName k ∈ reserved) (hfree : bvName n ∉ reserved) :
    unusedBelow reserved (n + 1) = unusedBelow reserved c ++ [bvName n] := by
  unfold unusedBelow
  have h0 : ∀ a b : Nat, List.range' 1 (a + b + 1)
      = List.range' 1 a ++ (List.range' (1 + a) b ++ [1 + a + b]) := by
    intro a b
    rw [← List.range'_1_concat, List.range'_append_1]
    congr 1
    omega
  have h1 : n + 1 - 1 = (c - 1) + (n - c) + 1 := by omega
  have h2 : List.range' 1 (n + 1 - 1)
      = List.range' 1 (c - 1) ++ (List.range' c (n - c) ++ [n]) := by
    rw [h1, h0]
    have e1 : 1 + (c - 1) = c := by omega
    have e2 : c + (n - c) = n := by omega
    rw [e1, e2]
  rw [h2, List.filter_append, List.filter_append, List.map_append, List.map_append]
  have h3 : (List.range' c (n - c)).filter (fun n => decide (bvName n ∉ reserved)) = [] := by
    rw [List.filter_eq_nil_iff]
    intro k hk
    simp only [List.mem_range'_1] at hk
    simp only [decide_eq_true_eq, not_not]
    exact hskip k hk.1 (by omega)
  rw [h3]
  simp [hfree]

theorem unusedBelow_lt (reserved : List Bytes) (c : Nat) (k : Bytes)
    (hk : k ∈ unusedBelow reserved c) : (∃ n, 1 ≤ n ∧ n < c ∧ k = bvName n) ∧ k ∉ reserved := by
  unfold unusedBelow at hk
  simp only [List.mem_map, List.mem_filter, List.mem_range'_1, decide_eq_true_eq] at hk
  obtain ⟨n, ⟨⟨h1, h2⟩, hfree⟩, rfl⟩ := hk
  exact ⟨⟨n, h1, by omega, rfl⟩, hfree⟩

/-- Allocating a name keeps the invariant of the allocator, whatever is
bound to the name, and whether or not the name is recorded. -/
theorem normalizer.Tight.alloc (nz : normalizer) (h : nz.Tight)
    (vals1 : List ((querypb.SqlType × Bytes) × Bytes)) (bval : querypb.BindVariable)
    (hvals : ∀ e ∈ vals1, e ∈ nz.vals ∨
      e.2 = bvName (nextUnused nz.reserved nz.reserved.length nz.counter)) :
    normalizer.Tight
      { reserved := nz.reserved,
        counter := nextUnused nz.reserved nz.reserved.length nz.counter + 1,
        vals := vals1,
        bindVars := nz.bindVars.set
          (bvName (nextUnused nz.reserved nz.reserved.length nz.counter)) bval } := by
  have hfree : bvName (nextUnused nz.reserved nz.reserved.length nz.counter) ∉ nz.reserved :=
    normalizer.newName_not_reserved nz
  have hle := le_nextUnused nz.reserved nz.reserved.length nz.counter
  have hskip := nextUnused_skips nz.reserved nz.reserved.length nz.counter
  generalize nextUnused nz.reserved nz.reserved.length nz.counter = N at hfree hle hvals hskip ⊢
  have hnot : bvName N ∉ nz.bindVars.map Prod.fst := by
    intro hmem
    rw [h.keys_eq] at hmem
    obtain ⟨⟨n, _, hn, heq⟩, _⟩ := unusedBelow_lt _ _ _ hmem
    have := bvName_injective _ _ heq
    omega
  have hkeys : (nz.bindVars.set (bvName N) bval).map Prod.fst
      = nz.bindVars.map Prod.fst ++ [bvName N] := by
    rw [StrMap.keys_set_list, if_neg hnot]
  refine ⟨by simp only []; omega, ?_, ?_⟩
  · simp only []
    rw [hkeys, h.keys_eq]
    exact (unusedBelow_succ nz.reserved nz.counter N h.pos hle hskip hfree).symm
  · intro e he
    simp only []
    rw [hkeys]
    rcases hvals e he with h1 | h1
    · exact List.mem_append_left _ (h.vals_keys e h1)
    · rw [h1]; simp

/-- Writing under a recorded name keeps the invariant of the allocator. -/
theorem normalizer.Tight.rewrite (nz : normalizer) (h : nz.Tight) (name : Bytes)
    (bval : querypb.BindVariable) (hname : name ∈ nz.bindVars.map Prod.fst) :
    normalizer.Tight { nz with bindVars := nz.bindVars.set name bval } := by
  have hkeys : (nz.bindVars.set name bval).map Prod.fst = nz.bindVars.map Prod.fst := by
    rw [StrMap.keys_set_list, if_pos hname]
  refine ⟨h.pos, ?_, ?_⟩
  · simp only []
    rw [hkeys]
    exact h.keys_eq
  · intro e he
    simp only []
    rw [hkeys]
    exact h.vals_keys e he

theorem normalizer.convertLiteral_tight (reusable : Bool) (kind : LiteralKind) (val : Bytes)
    (nz : normalizer) (h : nz.Tight) :
    (nz.convertLiteral reusable kind val).2.Tight ∧
    (nz.convertLiteral reusable kind val).2.reserved = nz.reserved := by
  unfold normalizer.convertLiteral
  cases hc : classify kind val with
  | none => exact ⟨h, rfl⟩
  | some key =>
    simp only []
    split
    · cases hl : lookupVal nz.vals key with
      | some name =>
        exact ⟨normalizer.Tight.rewrite nz h name _
          (h.vals_keys _ (lookupVal_mem _ _ _ hl)), rfl⟩
      | none =>
        refine ⟨normalizer.Tight.alloc nz h _ _ ?_, rfl⟩
        intro e he
        simp only [normalizer.newName, List.mem_append, List.mem_singleton] at he
        rcases he with he | he
        · exact Or.inl he
        · subst he; exact Or.inr rfl
    · exact ⟨normalizer.Tight.alloc nz h _ _ (fun e he => Or.inl he), rfl⟩

theorem normalizer.walk_tight (node : SQLNode) :
    ∀ (reusable : Bool) (nz : normalizer), nz.Tight →
      (normalizer.walk reusable node nz).2.Tight ∧
      (normalizer.walk reusable node nz).2.reserved = nz.reserved := by
  induction node using SQLNode.rec
    (motive_2 := fun l => ∀ (reusable : Bool) (nz : normalizer), nz.Tight →
      (normalizer.walkList reusable l nz).2.Tight ∧
      (normalizer.walkList reusable l nz).2.reserved = nz.reserved) with
  | text t => intro r nz h; exact ⟨h, rfl⟩
  | literal kind val =>
    intro r nz h
    simp only [normalizer.walk]
    exact normalizer.convertLiteral_tight r kind val nz h
  | bindRef name => intro r nz h; exact ⟨h, rfl⟩
  | listRef name => intro r nz h; exact ⟨h, rfl⟩
  | tuple elems ih =>
    intro r nz h
    simp only [normalizer.walk]
    exact ih r nz h
  | inPredicate negated left right ihl ihr =>
    intro r nz h
    obtain ⟨hl, hlr⟩ := ihl r nz h
    simp only [normalizer.walk]
    cases hlv : listValues right with
    | some vs =>
      simp only []
      exact ⟨normalizer.Tight.alloc _ hl _ _ (fun e he => Or.inl he), hlr⟩
    | none =>
      simp only []
      obtain ⟨hr, hrr⟩ := ihr r _ hl
      exact ⟨hr, hrr.trans hlr⟩
  | subquery body ih =>
    intro r nz h
    simp only [normalizer.walk]
    exact ih true nz h
  | other children ih =>
    intro r nz h
    simp only [normalizer.walk]
    exact ih r nz h
  | nil => rename_i r nz h; exact ⟨h, rfl⟩
  | cons n rest ihn ihr =>
    rename_i r nz h
    obtain ⟨hn, hnr⟩ := ihn r nz h
    obtain ⟨hr, hrr⟩ := ihr r _ hn
    simp only [normalizer.walkList]
    exact ⟨hr, hrr.trans hnr⟩

theorem normalizer.walk_sources (node : SQLNode) :
    ∀ (reusable : Bool) (nz : normalizer),
      (replaced node (normalizer.walk reusable node nz).1).map Prod.fst = substitutable node := by
  induction node using SQLNode.rec
    (motive_2 := fun l => ∀ (reusable : Bool) (nz : normalizer),
      (replacedList l (normalizer.walkList reusable l nz).1).map Prod.fst
        = substitutableList l) with
  | text t => intro r nz; rfl
  | literal kind val =>
    intro r nz
    simp only [normalizer.walk, normalizer.convertLiteral, substitutable]
    cases hc : classify kind val with
    | none => rfl
    | some key =>
      simp only []
      split
      · cases hl : lookupVal nz.vals key <;> rfl
      · rfl
  | bindRef name => intro r nz; rfl
  | listRef name => intro r nz; rfl
  | tuple elems ih =>
    intro r nz
    simp only [normalizer.walk, replaced, substitutable]
    exact ih r nz
  | inPredicate negated left right ihl ihr =>
    intro r nz
    simp only [normalizer.walk, substitutable]
    cases hlv : listValues right with
    | some vs =>
      obtain ⟨elems, hr⟩ := listValues_some right vs hlv
      subst hr
      simp only [replaced, List.map_append, ihl r nz, Option.isSome_some, if_true,
        List.map_cons, List.map_nil]
    | none =>
      simp only [replaced, List.map_append, ihl r nz, ihr r _, Option.isSome_none,
        Bool.false_eq_true, if_false]
  | subquery body ih =>
    intro r nz
    simp only [normalizer.walk, replaced, substitutable]
    exact ih true nz
  | other children ih =>
    intro r nz
    simp only [normalizer.walk, replaced, substitutable]
    exact ih r nz
  | nil => rfl
  | cons n rest ihn ihr =>
    rename_i r nz
    simp only [normalizer.walkList, replacedList, substitutableList, List.map_append,
      ihn r nz, ihr r _]

theorem normalizer.Tight.initial (reserved : List Bytes) :
    normalizer.Tight ⟨reserved, 1, [], []⟩ :=
  ⟨le_refl _, rfl, fun e he => absurd he (List.not_mem_nil e)⟩

/-- C12: for every statement normalized into a fresh map, no name put in
place of a literal or a list is the name of a reference already present, the
output map has no such name as a key, and the keys of the output map, in the
order the names first appear in the document, are the names `$n` of the
smallest positive integers `n` whose name is not already present, in
ascending order. Every substitutable literal or list is given a name. -/
theorem Normalize_collision_free (stmt : Statement) :
    (replacements stmt).map Prod.fst = substitutableList stmt.body ∧
    (∀ p ∈ replacements stmt, p.2 ∉ GetBindvars stmt) ∧
    (∀ k ∈ (Normalize stmt []).2.map Prod.fst, k ∉ GetBindvars stmt) ∧
    (Normalize stmt []).2.map Prod.fst = addNew [] ((replacements stmt).map Prod.snd) ∧
    ∃ c, (Normalize stmt []).2.map Prod.fst = unusedBelow (GetBindvars stmt) c := by
  have hsrc := normalizer.walk_sources (SQLNode.other stmt.body)
    (decide (stmt.kind = StatementKind.select)) ⟨GetBindvars stmt, 1, [], []⟩
  have hkeys := normalizer.walk_keys (SQLNode.other stmt.body)
    (decide (stmt.kind = StatementKind.select)) ⟨GetBindvars stmt, 1, [], []⟩
  obtain ⟨htight, hres⟩ := normalizer.walk_tight (SQLNode.other stmt.body)
    (decide (stmt.kind = StatementKind.select)) ⟨GetBindvars stmt, 1, [], []⟩
    (normalizer.Tight.initial _)
  simp only [normalizer.walk, replaced, substitutable, List.map_nil] at hsrc hkeys htight hres
  have hrep : replacements stmt =
      replacedList stmt.body (normalizer.walkList (decide (stmt.kind = StatementKind.select))
        stmt.body ⟨GetBindvars stmt, 1, [], []⟩).1 := by
    simp [replacements, Normalize]
  have hmap : (Normalize stmt []).2 =
      (normalizer.walkList (decide (stmt.kind = StatementKind.select)) stmt.body
        ⟨GetBindvars stmt, 1, [], []⟩).2.bindVars := by
    simp [Normalize]
  rw [hrep, hmap]
  have hfree : ∀ k ∈ (normalizer.walkList (decide (stmt.kind = StatementKind.select)) stmt.body
      ⟨GetBindvars stmt, 1, [], []⟩).2.bindVars.map Prod.fst, k ∉ GetBindvars stmt := by
    intro k hk
    rw [htight.keys_eq, hres] at hk
    exact (unusedBelow_lt _ _ _ hk).2
  refine ⟨hsrc, ?_, hfree, hkeys, ⟨_, hres ▸ htight.keys_eq⟩⟩
  intro p hp
  apply hfree
  rw [hkeys, addNew_subset]
  exact Or.inr (List.mem_map_of_mem _ hp)

/-- The model of `Normalize` on the input of `normalizer_test.go` in which
`$1` is already present: the first new name is `$2`. -/
theorem Normalize_collision_test_case :
    GetBindvars collisionStmt = [str "$1"] ∧
    replacements collisionStmt = [(some (LiteralKind.integer, str "1"), str "$2")] ∧
    (Normalize collisionStmt []).2.map Prod.fst = [str "$2"] ∧
    unusedBelow (GetBindvars collisionStmt) 3 = [str "$2"] := by
  decide

theorem tupleValues_all (elems : List SQLNode) :
    ∀ vs, tupleValues elems = some vs → AllSubstitutable elems ∧ List.Forall₂ ValueOf elems vs := by
  induction elems with
  | nil =>
    intro vs h
    simp only [tupleValues, Option.some.injEq] at h
    subst h
    exact ⟨fun e he => absurd he (List.not_mem_nil e), List.Forall₂.nil⟩
  | cons e rest ih =>
    intro vs h
    cases e with
    | literal kind val =>
      simp only [tupleValues] at h
      cases hc : classify kind val with
      | none => rw [hc] at h; simp at h
      | some key =>
        cases ht : tupleValues rest with
        | none => rw [hc, ht] at h; simp at h
        | some ws =>
          rw [hc, ht] at h
          simp only [Option.some.injEq] at h
          subst h
          obtain ⟨hall, hf⟩ := ih ws ht
          refine ⟨?_, List.Forall₂.cons ⟨kind, val, rfl, hc⟩ hf⟩
          intro e he
          rcases List.mem_cons.mp he with rfl | he
          · exact ⟨kind, val, rfl, by rw [hc]; rfl⟩
          · exact hall e he
    | _ => simp [tupleValues] at h

theorem literalsOfList_all (elems : List SQLNode) (h : AllSubstitutable elems) :
    (literalsOfList elems).filter (fun kv => (classify kv.1 kv.2).isNone) = [] := by
  induction elems with
  | nil => rfl
  | cons e rest ih =>
    obtain ⟨kind, val, he, hc⟩ := h e (List.mem_cons_self _ _)
    subst he
    obtain ⟨key, hkey⟩ := Option.isSome_iff_exists.mp hc
    simp only [literalsOfList, literalsOf, List.singleton_append, List.filter_cons, hkey,
      Option.isNone_some, Bool.false_eq_true, if_false]
    exact ih (fun x hx => h x (List.mem_cons_of_mem _ hx))

theorem normalizer.walk_literals (node : SQLNode) :
    ∀ (reusable : Bool) (nz : normalizer),
      literalsOf (normalizer.walk reusable node nz).1
        = (literalsOf node).filter (fun kv => (classify kv.1 kv.2).isNone) := by
  induction node using SQLNode.rec
    (motive_2 := fun l => ∀ (reusable : Bool) (nz : normalizer),
      literalsOfList (normalizer.walkList reusable l nz).1
        = (literalsOfList l).filter (fun kv => (classify kv.1 kv.2).isNone)) with
  | text t => intro r nz; rfl
  | literal kind val =>
    intro r nz
    simp only [normalizer.walk, normalizer.convertLiteral]
    cases hc : classify kind val with
    | none => simp [literalsOf, hc]
    | some key =>
      simp only []
      split
      · cases hl : lookupVal nz.vals key <;> simp [literalsOf, hc]
      · simp [literalsOf, hc]
  | bindRef name => intro r nz; rfl
  | listRef name => intro r nz; rfl
  | tuple elems ih =>
    intro r nz
    simp only [normalizer.walk, literalsOf]
    exact ih r nz
  | inPredicate negated left right ihl ihr =>
    intro r nz
    simp only [normalizer.walk]
    cases hlv : listValues right with
    | some vs =>
      obtain ⟨elems, hr⟩ := listValues_some right vs hlv
      subst hr
      simp only [literalsOf, List.append_nil, List.filter_append, ihl r nz,
        literalsOfList_all elems (tupleValues_all elems vs hlv).1]
    | none =>
      simp only [literalsOf, List.filter_append, ihl r nz, ihr r _]
  | subquery body ih =>
    intro r nz
    simp only [normalizer.walk, literalsOf]
    exact ih true nz
  | other children ih =>
    intro r nz
    simp only [normalizer.walk, literalsOf]
    exact ih r nz
  | nil => rfl
  | cons n rest ihn ihr =>
    rename_i r nz
    simp only [normalizer.walkList, literalsOfList, List.filter_append, ihn r nz, ihr r _]

set_option maxRecDepth 20000 in
/-- C16, as stated, fails: the redacted text of a query with a hexadecimal
literal and an integer beyond 64 bits still has these two literals; the
redacted text of a select with twice the same string of 257 bytes has two
different names for them; and in the redacted text of a select with the
literal `1` and the list `(1, 2)` the two equal literals are under two
different names, the second one under the one name of the list. -/
theorem RedactSQLQuery_keeps_unsupported_literals :
    RedactSQLQuery sampleSplit sampleParse sampleFormat
        (str "select * from t where v1 = 0x1234 and v2 = 12345678901234567890 and v3 = 1.2")
      = (str "select * from t where v1 = 0x1234 and v2 = 12345678901234567890 and v3 = $1",
          none) ∧
    RedactSQLQuery sampleSplit sampleParse sampleFormat (twiceText (padded 257))
      = (str "select * from t where v1 = $1 and v2 = $2", none) ∧
    RedactSQLQuery sampleSplit sampleParse sampleFormat
        (str "select * from t where v1 = 1 and v2 in (1, 2)")
      = (str "select * from t where v1 = $1 and v2 in $2", none) := by
  decide

/-- C16, amended: for every SQL text that parses, `RedactSQLQuery` returns,
between the reattached comments, the rendering of the normalized statement.
In it every substitutable literal of the input (a string, a float, an integer
within the signed 64-bit range) has been replaced by a bind-variable
reference, alone or as an element of an `IN` list replaced by one reference
for the whole list; the literals left are exactly the non-substitutable
literals of the input, in their order, so that a hexadecimal literal or an
integer outside the 64-bit range stays; and in a select two replaced literals
that are not elements of such a list have the same name iff they have the same
type and the same bytes, of length at most 256, a list having a name of its
own. -/
theorem RedactSQLQuery_redacts (SplitMarginComments : Splitter) (Parse : Parser)
    (fmt : LiteralFormat) (sql : Bytes) (stmt : Statement)
    (hparse : Parse (SplitMarginComments sql).1 = Except.ok stmt) :
    RedactSQLQuery SplitMarginComments Parse fmt sql =
      ((SplitMarginComments sql).2.Leading ++ (Normalize stmt []).1.String fmt
        ++ (SplitMarginComments sql).2.Trailing, none) ∧
    (replacements stmt).map Prod.fst = substitutableList stmt.body ∧
    literalsOfList (Normalize stmt []).1.body
      = (literalsOfList stmt.body).filter (fun kv => (classify kv.1 kv.2).isNone) ∧
    (∀ kv ∈ literalsOfList stmt.body, Unsupported kv →
      kv ∈ literalsOfList (Normalize stmt []).1.body) ∧
    (stmt.kind = StatementKind.select →
      (replacements stmt).Pairwise (fun p q =>
        ((p.1 = none ∨ q.1 = none) → p.2 ≠ q.2) ∧
        ∀ k1 v1 k2 v2, p.1 = some (k1, v1) → q.1 = some (k2, v2) →
          ∃ t1 t2, classify k1 v1 = some (t1, v1) ∧ classify k2 v2 = some (t2, v2) ∧
            (p.2 = q.2 ↔ (t1 = t2 ∧ v1 = v2 ∧ v1.length ≤ 256)))) := by
  have hlit : literalsOfList (Normalize stmt []).1.body
      = (literalsOfList stmt.body).filter (fun kv => (classify kv.1 kv.2).isNone) := by
    have h := normalizer.walk_literals (SQLNode.other stmt.body)
      (decide (stmt.kind = StatementKind.select)) ⟨GetBindvars stmt, 1, [], []⟩
    simp only [normalizer.walk, literalsOf] at h
    simpa [Normalize] using h
  refine ⟨?_, ?_, hlit, ?_, ?_⟩
  · unfold RedactSQLQuery
    simp [hparse]
  · have hsrc := normalizer.walk_sources (SQLNode.other stmt.body)
      (decide (stmt.kind = StatementKind.select)) ⟨GetBindvars stmt, 1, [], []⟩
    simp only [normalizer.walk, replaced, substitutable] at hsrc
    simpa [replacements, Normalize] using hsrc
  · intro kv hkv hu
    rw [hlit, List.mem_filter]
    exact ⟨hkv, by rw [classify_unsupported kv hu]; rfl⟩
  · intro hk
    obtain ⟨kind, body⟩ := stmt
    simp only [] at hk
    subst hk
    exact replacements_select_pairwise body

theorem RedactSQLQuery_redacts_witness :
    sampleParse (sampleSplit
      (str "select a,b,c from t where x = 1234 and y = 1234 and z = \x27apple\x27")).1
      = Except.ok redactStmt ∧
    RedactSQLQuery sampleSplit sampleParse sampleFormat
        (str "select a,b,c from t where x = 1234 and y = 1234 and z = \x27apple\x27")
      = (str "select a, b, c from t where x = $1 and y = $1 and z = $2", none) ∧
    literalsOfList (Normalize redactStmt []).1.body = [] :=
  ⟨by rfl,
   (RedactSQLQuery_redacts sampleSplit sampleParse sampleFormat
      (str "select a,b,c from t where x = 1234 and y = 1234 and z = \x27apple\x27")
      redactStmt (by rfl)).1.trans (by decide),
   by decide⟩

/-! ### Scopes -/

theorem replacedIn_literal_mask (kind : LiteralKind) (val : Bytes) (x : SQLNode) :
    (replacedIn true (SQLNode.literal kind val) x).map mask
      = replaced (SQLNode.literal kind val) x := by
  cases x <;> simp [replacedIn, replaced, mask]

theorem replacedIn_literal_snd (reusable : Bool) (kind : LiteralKind) (val : Bytes)
    (x : SQLNode) :
    (replacedIn reusable (SQLNode.literal kind val) x).map Prod.snd
      = replaced (SQLNode.literal kind val) x := by
  cases x <;> simp [replacedIn, replaced]

theorem normalizer.convertLiteral_scoped (reusable : Bool) (nz : normalizer) (h : nz.Inv)
    (kind : LiteralKind) (val : Bytes) :
    Step nz (nz.convertLiteral reusable kind val).2
      ((replacedIn reusable (SQLNode.literal kind val)
        (nz.convertLiteral reusable kind val).1).map mask) := by
  cases reusable with
  | true =>
    rw [replacedIn_literal_mask]
    exact (Step.convertLiteral nz h kind val).1
  | false =>
    unfold normalizer.convertLiteral
    cases hcl : classify kind val with
    | none =>
      simp only [replacedIn, List.map_nil]
      exact Step.refl nz h
    | some key =>
      simp only [Bool.false_eq_true, false_and, if_false, replacedIn, normalizer.newName,
        List.map_cons, List.map_nil, mask]
      exact Step.fresh nz h _ (le_nextUnused _ _ _) _ none trivial

theorem normalizer.walk_scoped (node : SQLNode) :
    ∀ (reusable : Bool) (nz : normalizer), nz.Inv →
      Step nz (normalizer.walk reusable node nz).2
        ((replacedIn reusable node (normalizer.walk reusable node nz).1).map mask) ∧
      (replacedIn reusable node (normalizer.walk reusable node nz).1).map Prod.snd
        = replaced node (normalizer.walk reusable node nz).1 := by
  induction node using SQLNode.rec
    (motive_2 := fun l => ∀ (reusable : Bool) (nz : normalizer), nz.Inv →
      Step nz (normalizer.walkList reusable l nz).2
        ((replacedInList reusable l (normalizer.walkList reusable l nz).1).map mask) ∧
      (replacedInList reusable l (normalizer.walkList reusable l nz).1).map Prod.snd
        = replacedList l (normalizer.walkList reusable l nz).1) with
  | text t =>
    intro r nz h
    simp only [normalizer.walk, replacedIn, replaced, List.map_nil]
    exact ⟨Step.refl nz h, trivial⟩
  | literal kind val =>
    intro r nz h
    simp only [normalizer.walk]
    exact ⟨normalizer.convertLiteral_scoped r nz h kind val, replacedIn_literal_snd _ _ _ _⟩
  | bindRef name =>
    intro r nz h
    simp only [normalizer.walk, replacedIn, replaced, List.map_nil]
    exact ⟨Step.refl nz h, trivial⟩
  | listRef name =>
    intro r nz h
    simp only [normalizer.walk, replacedIn, replaced, List.map_nil]
    exact ⟨Step.refl nz h, trivial⟩
  | tuple elems ih =>
    intro r nz h
    simp only [normalizer.walk, replacedIn, replaced]
    exact ih r nz h
  | inPredicate negated left right ihl ihr =>
    intro r nz h
    obtain ⟨hsl, hml⟩ := ihl r nz h
    simp only [normalizer.walk]
    cases hlv : listValues right with
    | some vs =>
      obtain ⟨elems, hr⟩ := listValues_some right vs hlv
      subst hr
      simp only [replacedIn, replaced, normalizer.newName, List.map_append, hml,
        List.map_cons, List.map_nil, and_true]
      have hmask : mask (r, (none, bvName (nextUnused (normalizer.walk r left nz).2.reserved
          (normalizer.walk r left nz).2.reserved.length (normalizer.walk r left nz).2.counter)))
          = (none, bvName (nextUnused (normalizer.walk r left nz).2.reserved
          (normalizer.walk r left nz).2.reserved.length
          (normalizer.walk r left nz).2.counter)) := by
        cases r <;> rfl
      rw [hmask]
      exact Step.trans _ _ _ _ _ hsl
        (Step.fresh _ hsl.inv _ (le_nextUnused _ _ _) _ none trivial)
    | none =>
      obtain ⟨hsr, hmr⟩ := ihr r (normalizer.walk r left nz).2 hsl.inv
      simp only [replacedIn, replaced, List.map_append, hml, hmr, and_true]
      exact Step.trans _ _ _ _ _ hsl hsr
  | subquery body ih =>
    intro r nz h
    simp only [normalizer.walk, replacedIn, replaced]
    exact ih true nz h
  | other children ih =>
    intro r nz h
    simp only [normalizer.walk, replacedIn, replaced]
    exact ih r nz h
  | nil =>
    rename_i r nz h
    simp only [normalizer.walkList, replacedInList, replacedList, List.map_nil]
    exact ⟨Step.refl nz h, trivial⟩
  | cons n rest ihn ihr =>
    rename_i r nz h
    obtain ⟨hsn, hmn⟩ := ihn r nz h
    obtain ⟨hsr, hmr⟩ := ihr r (normalizer.walk r n nz).2 hsn.inv
    simp only [normalizer.walkList, replacedInList, replacedList, List.map_append, hmn, hmr,
      and_true]
    exact Step.trans _ _ _ _ _ hsn hsr

set_option maxRecDepth 20000 in
/-- C11, as stated, fails: in an update with two subqueries that hold the same
string of 257 bytes, the two equal literals inside nested selects get two
different names; in an update whose subquery has the literal `1` and the list
`(1, 2)`, the two equal literals inside the nested select are under two
different names, the second one under the one name of the list; and in
`update a set v1 = 5 where v2 in (1, 4, 5)` the three literals of the list, at
the top level, are under one name. -/
theorem Normalize_scope_fails_on_long_literal :
    (subqueriesStmt (padded 257)).kind = StatementKind.update ∧
    scopedReplacements (subqueriesStmt (padded 257))
      = [(true, (some (LiteralKind.bytes, padded 257), str "$1")),
         (true, (some (LiteralKind.bytes, padded 257), str "$2"))] ∧
    (Normalize (subqueriesStmt (padded 257)) []).1.String sampleFormat
      = str "update a set v1 = (select $1 from t), v2 = (select $2 from t)" ∧
    (Normalize subqueryInStmt []).1.String sampleFormat
      = str "update a set v1 = (select $1 from t where v2 in $2)" ∧
    (Normalize updateInStmt []).1.String sampleFormat
      = str "update a set v1 = $1 where v2 in $2" := by
  decide

/-- C11, amended: in a mutation statement normalized into a fresh map, every
substitutable literal that is not an element of a collapsed `IN` list is
replaced by a reference, and every collapsed list by one reference; a
replacement at the top level of the statement never has the name of another
replacement, before or after it, at the top level or inside a subquery; the
name of a collapsed list is the name of no other replacement; and two such
literals inside nested selects, of the same subquery or of different ones, get
the same name iff they have the same type and the same bytes, of length at
most 256. -/
theorem Normalize_scope (stmt : Statement) (hmut : stmt.kind ≠ StatementKind.select) :
    scopedReplacements stmt = replacedInList false stmt.body (Normalize stmt []).1.body ∧
    (scopedReplacements stmt).map Prod.snd = replacements stmt ∧
    (replacements stmt).map Prod.fst = substitutableList stmt.body ∧
    (scopedReplacements stmt).Pairwise (fun p q =>
      ((p.1 = false ∨ q.1 = false ∨ p.2.1 = none ∨ q.2.1 = none) → p.2.2 ≠ q.2.2) ∧
      (p.1 = true → q.1 = true →
        ∀ k1 v1 k2 v2, p.2.1 = some (k1, v1) → q.2.1 = some (k2, v2) →
          ∃ t1 t2, classify k1 v1 = some (t1, v1) ∧ classify k2 v2 = some (t2, v2) ∧
            (p.2.2 = q.2.2 ↔ (t1 = t2 ∧ v1 = v2 ∧ v1.length ≤ 256)))) := by
  have hflag : decide (stmt.kind = StatementKind.select) = false := by simp [hmut]
  have hinit : normalizer.Inv ⟨GetBindvars stmt, 1, [], []⟩ :=
    ⟨fun e he => absurd he (List.not_mem_nil e), List.Pairwise.nil, List.nodup_nil⟩
  obtain ⟨hstep, hsnd⟩ := normalizer.walk_scoped (SQLNode.other stmt.body)
    (decide (stmt.kind = StatementKind.select)) ⟨GetBindvars stmt, 1, [], []⟩ hinit
  have hsrc := normalizer.walk_sources (SQLNode.other stmt.body)
    (decide (stmt.kind = StatementKind.select)) ⟨GetBindvars stmt, 1, [], []⟩
  simp only [normalizer.walk, replacedIn, replaced, substitutable] at hstep hsnd hsrc
  have hrep : replacements stmt =
      replacedList stmt.body (normalizer.walkList (decide (stmt.kind = StatementKind.select))
        stmt.body ⟨GetBindvars stmt, 1, [], []⟩).1 := by
    simp [replacements, Normalize]
  have hsc : scopedReplacements stmt =
      replacedInList (decide (stmt.kind = StatementKind.select)) stmt.body
        (normalizer.walkList (decide (stmt.kind = StatementKind.select))
          stmt.body ⟨GetBindvars stmt, 1, [], []⟩).1 := by
    simp [scopedReplacements, Normalize]
  refine ⟨by simp only [scopedReplacements, hflag], by rw [hsc, hrep, hsnd],
    by rw [hrep, hsrc], ?_⟩
  rw [hsc]
  have hpw := (List.Pairwise.and_mem).mp (List.pairwise_map.mp hstep.unique_pw)
  refine hpw.imp ?_
  rintro ⟨pf, ps, pn⟩ ⟨qf, qs, qn⟩ ⟨hp, hq, hu⟩
  have hpe := hstep.entries _ (List.mem_map_of_mem mask hp)
  have hqe := hstep.entries _ (List.mem_map_of_mem mask hq)
  refine ⟨?_, ?_⟩
  · have hname : ∀ x : Bool × Replacement, (mask x).2 = x.2.2 := by
      intro x
      unfold mask
      split <;> rfl
    rw [hname, hname] at hu
    have hnone : ∀ x : Bool × Replacement, x.2.1 = none → IsUnique (mask x) := by
      rintro ⟨xf, xs, xn⟩ hx
      simp only [] at hx
      subst hx
      cases xf <;> simp [mask, IsUnique]
    rintro (h | h | h | h)
    · simp only [] at h
      subst h
      exact hu (Or.inl trivial)
    · simp only [] at h
      subst h
      exact hu (Or.inr trivial)
    · exact hu (Or.inl (hnone _ h))
    · exact hu (Or.inr (hnone _ h))
  · intro h1 h2 k1 v1 k2 v2 hs1 hs2
    simp only [] at h1 h2 hs1 hs2
    subst h1 h2
    exact Entry.pair_iff _ _ hstep.inv _ _ hpe hqe hu k1 v1 k2 v2 hs1 hs2

theorem Normalize_scope_witness :
    updateStmt.kind ≠ StatementKind.select ∧
    scopedReplacements updateStmt
      = replacedInList false updateStmt.body (Normalize updateStmt []).1.body ∧
    scopedReplacements updateStmt
      = [(true, (some (LiteralKind.integer, str "5"), str "$1")),
         (false, (some (LiteralKind.integer, str "5"), str "$2")),
         (true, (some (LiteralKind.integer, str "5"), str "$1")),
         (false, (some (LiteralKind.integer, str "5"), str "$3"))] :=
  ⟨by decide, (Normalize_scope updateStmt (by decide)).1, by decide⟩

/-! ### Lists of `IN` predicates -/

/-- The model of `Normalize` on the `IN` lists of `normalizer_test.go`: a list
of literals is one TUPLE bind variable, in a select and in an update, and a
list with a column keeps its syntax. -/
theorem Normalize_in_list_test_cases :
    (Normalize notInStmt []).1.String sampleFormat = str "select * from t where v1 not in $1" ∧
    (Normalize updateInStmt []).1.String sampleFormat
      = str "update a set v1 = $1 where v2 in $2" ∧
    (Normalize updateInStmt []).2.get (str "$2")
      = some ⟨querypb.SqlType.Type_TUPLE, [],
          [⟨querypb.SqlType.Type_INT64, str "1"⟩, ⟨querypb.SqlType.Type_INT64, str "4"⟩,
           ⟨querypb.SqlType.Type_INT64, str "5"⟩]⟩ ∧
    (Normalize mixedInStmt []).1.String sampleFormat
      = str "select * from t where v1 in ($1, a)" := by
  decide

/-! ### Literals of collapsed lists, and signed integers -/

/-- C10, as stated, fails: in `v1 = 1 and v2 in (1, 2)` the two equal integer
literals `1` are not under the same name, the second one being under the one
name of the list; and in `v1 not in (1, '2')`, an input of
`normalizer_test.go`, two literals of different types and bytes are under the
same name. -/
theorem Normalize_dedup_fails_in_collapsed_list :
    (Normalize eqAndInStmt []).1.String sampleFormat
      = str "select * from t where v1 = $1 and v2 in $2" ∧
    (Normalize eqAndInStmt []).2
      = [(str "$1", ⟨querypb.SqlType.Type_INT64, str "1", []⟩),
         (str "$2", ⟨querypb.SqlType.Type_TUPLE, [],
          [⟨querypb.SqlType.Type_INT64, str "1"⟩, ⟨querypb.SqlType.Type_INT64, str "2"⟩]⟩)] ∧
    (Normalize notInStmt []).1.String sampleFormat = str "select * from t where v1 not in $1" ∧
    (Normalize notInStmt []).2
      = [(str "$1", ⟨querypb.SqlType.Type_TUPLE, [],
          [⟨querypb.SqlType.Type_INT64, str "1"⟩,
           ⟨querypb.SqlType.Type_VARBINARY, str "2"⟩]⟩)] := by
  decide

/-- The classifier on signed integers: a negative integer within the signed
64-bit range is substitutable, `-2^63` included, and `-2^63 - 1` is not; in a
select two equal negative integers share a name. -/
theorem Normalize_signed_test_cases :
    classify LiteralKind.integer (str "-5") = some (querypb.SqlType.Type_INT64, str "-5") ∧
    classify LiteralKind.integer (str "-9223372036854775808")
      = some (querypb.SqlType.Type_INT64, str "-9223372036854775808") ∧
    classify LiteralKind.integer (str "-9223372036854775809") = none ∧
    classify LiteralKind.integer (str "9223372036854775808") = none ∧
    classify LiteralKind.integer (str "-") = none ∧
    ¬ Unsupported (LiteralKind.integer, str "-9223372036854775808") ∧
    Unsupported (LiteralKind.integer, str "-9223372036854775809") ∧
    (Normalize signedStmt []).1.String sampleFormat
      = str ("select * from t where v1 = $1 and v2 = $1 and v3 = $2"
          ++ " and v4 = -9223372036854775809 and v5 = $3") := by
  decide

end sqlparser
